import Mathlib

/-!
# SpeedCamerasResources: shapefile to compact binary converter

A shallow embedding of `src/shp.h`, `src/shp.cpp` and `src/main.cpp`, followed by
theorems about the dictionary encoder, the quantizer, the attribute decoder, the
reader of the three files and the two exporters.

Conventions of the embedding.

* A byte is a natural number below 256; a byte string (`std::string`, a file, a
  buffer) is a `List Nat`.  Output streams are byte lists to which every
  `f.write` appends.
* Heap buffers that the program addresses through raw pointers (`dbfData`,
  `shpData`) are functions from a byte offset to the byte stored there.  The
  program never checks a bound, and neither does the model: an offset past the
  allocated size reads or writes whatever memory lies there.
* A `double` is the rational that it stands for; the model has no infinity and
  no NaN.  The result of a `double` operation is the exact result rounded to
  the nearest double, ties to even (`roundDouble`).
* Machine integers are integers with the wrap-around written out where a value
  is narrowed (`% 256`, `% 65536`, `% 2 ^ 32`).  The target is little-endian.
* A read that C++ leaves undefined (`std::string::operator[]` past the
  terminator) and a loop that never ends both make the result `none`.
* An input file is the list of its bytes, `none` when it cannot be opened.  A
  buffer filled by `read` holds the bytes that the file supplies; a byte that
  the file does not supply, which the program leaves uninitialised, is taken
  as 0.  `int` expressions are evaluated in 32-bit two's complement.
-/

namespace SpeedCameras

/-! ## Bytes and integers -/

/-- A `std::string`: the bytes before the terminator. -/
abbrev Name := List Nat

/-- The first `n` bytes of the little-endian object representation of the
unsigned value `v`, as `f.write((const char *) &v, n)` emits them. -/
def leBytes : Nat → Nat → List Nat
  | 0, _ => []
  | n + 1, v => v % 256 :: leBytes n (v / 256)

/-- The first `n` bytes of the object representation of a 32-bit `int`
(two's complement, little-endian). -/
def intBytes (n : Nat) (v : Int) : List Nat :=
  leBytes n (v % 2 ^ 32).toNat

/-- The unsigned value of a little-endian byte string. -/
def leValue : List Nat → Nat
  | [] => 0
  | b :: bs => b + 256 * leValue bs


/-! ## Names, `std::set<std::string>` and `std::map<std::string, unsigned>` -/

/-- The order of `std::string::operator<`: lexicographic on unsigned bytes, a
proper beginning of a string coming before the string. -/
def strLt : Name → Name → Bool
  | [], [] => false
  | [], _ :: _ => true
  | _ :: _, [] => false
  | a :: as, b :: bs => decide (a < b) || (decide (a = b) && strLt as bs)

/-- The call `std::set::insert`: the set is the ascending list of its elements,
an element equivalent to one already present is not inserted. -/
def setInsert (x : Name) : List Name → List Name
  | [] => [x]
  | y :: ys =>
    if strLt x y then x :: y :: ys
    else if strLt y x then y :: setInsert x ys
    else y :: ys

/-- Assignment `m[k] = v` on a `std::map<std::string, unsigned>`; a map is the
function that `m[k]` reads, absent keys reading the value-initialised 0. -/
def mapSet (m : Name → Nat) (k : Name) (v : Nat) : Name → Nat :=
  fun q => if q = k then v else m q

/-- The loop `for (auto &name: names) index[name] = i++;` with `unsigned i`. -/
def assignIndex : List Name → Nat → (Name → Nat) → (Name → Nat)
  | [], _, m => m
  | name :: rest, i, m => assignIndex rest ((i + 1) % 2 ^ 32) (mapSet m name i)

/-! ## `exportNames` (src/main.cpp) -/

/-- The character `s[i]` of a `std::string`: a byte of the string, the
terminator at `i = s.length()`, undefined beyond. -/
def charAt (s : Name) (i : Nat) : Option Nat :=
  if i < s.length then s.get? i
  else if i = s.length then some 0
  else none

/-- The loop `while (name[commonLength] == prev[commonLength]) commonLength++;`
started at `commonLength = c`, an `unsigned char`.  The first argument bounds the
number of iterations: after 256 of them the counter is back at its first value
with nothing changed, so a run that uses them all never ends. -/
def commonLengthLoop (name prev : Name) : Nat → Nat → Option Nat
  | 0, _ => none
  | fuel + 1, c =>
    match charAt name c, charAt prev c with
    | some a, some b =>
      if a = b then commonLengthLoop name prev fuel ((c + 1) % 256) else some c
    | _, _ => none

/-- The body of the loop over the set in `exportNames`, `f` being the stream
written so far. -/
def exportNamesLoop : List Name → Name → List Nat → Option (List Nat)
  | [], _, f => some f
  | name :: rest, prev, f =>
    match commonLengthLoop name prev 256 0 with
    | none => none
    | some commonLength =>
      let nameLength := (name.length - commonLength) % 256
      exportNamesLoop rest name
        (f ++ [commonLength] ++ [nameLength] ++ (name.drop commonLength).take nameLength)

/-- The function `exportNames`: appends the dictionary of the set `names` to the
stream `f`, the count taking `numberOfCountBytes` bytes. -/
def exportNames (f : List Nat) (names : List Name) (numberOfCountBytes : Nat) :
    Option (List Nat) :=
  let namesCount := names.length % 2 ^ 32
  exportNamesLoop names [] (f ++ leBytes numberOfCountBytes namesCount)

/-! ### The reader of a dictionary, as the format describes it -/

/-- Reads `n` front-coded entries: each is a shared-beginning length, a rest
length and the rest bytes; the name is that many first bytes of the previously
decoded name followed by the rest bytes.  Returns the names and the unread
bytes. -/
def decodeEntries : Nat → Name → List Nat → Option (List Name × List Nat)
  | 0, _, bs => some ([], bs)
  | n + 1, prev, shared :: restLen :: bs =>
    if restLen ≤ bs.length then
      let name := prev.take shared ++ bs.take restLen
      match decodeEntries n name (bs.drop restLen) with
      | some (names, tail) => some (name :: names, tail)
      | none => none
    else none
  | _ + 1, _, _ => none

/-- Reads a dictionary whose count takes `numberOfCountBytes` bytes. -/
def decodeNames (numberOfCountBytes : Nat) (bs : List Nat) : Option (List Name × List Nat) :=
  if numberOfCountBytes ≤ bs.length then
    decodeEntries (leValue (bs.take numberOfCountBytes)) [] (bs.drop numberOfCountBytes)
  else none

/-! ## Coordinates and features (src/shp.h) -/

/-- False northing, the macro `FN`. -/
def FN : ℚ := 6375000

/-- False easting, the macro `FE`. -/
def FE : ℚ := 500000

/-- The conversion `(int) d` of a `double`: the fractional part is discarded
(truncation toward zero).  C++ defines it only when the result fits an `int`. -/
def castInt (d : ℚ) : Int :=
  if 0 ≤ d then Int.floor d else Int.ceil d

/-- The integer nearest to a rational, the even one of the two when it lies
half way between them. -/
def roundHalfEven (r : ℚ) : Int :=
  if r - Int.floor r < 1 / 2 then Int.floor r
  else if 1 / 2 < r - Int.floor r then Int.floor r + 1
  else if Int.floor r % 2 = 0 then Int.floor r else Int.floor r + 1

/-- The `double` nearest to a non-negative rational (IEEE 754 binary64, round to
nearest, ties to even): 53 significant bits, the unit in the last place being
`2 ^ (e - 52)` for a value in `[2 ^ e, 2 ^ (e + 1))` and `2 ^ (-1074)` below
`2 ^ (-1022)`.  The model has no infinity: the exponent has no upper end. -/
def roundMagnitude (q : ℚ) : ℚ :=
  let e := max (Int.log 2 q) (-1022)
  (roundHalfEven (q / 2 ^ (e - 52)) : ℚ) * 2 ^ (e - 52)

/-- The result of a `double` operation whose exact result is `q`. -/
def roundDouble (q : ℚ) : ℚ :=
  if 0 ≤ q then roundMagnitude q else -roundMagnitude (-q)

/-- The expression `(int) ((v - F) * 20)` of `XY::XY` and of `exportPolygons`,
`v` being a `double` and `F` one of the macros `FN`, `FE`: the difference and
the product are `double` operations, the cast discards the fraction. -/
def quantize (v F : ℚ) : Int := castInt (roundDouble (roundDouble (v - F) * 20))

/-- The struct `XY`. -/
structure XY where
  x : ℚ := 0
  y : ℚ := 0
  ix : Int := 0
  iy : Int := 0

/-- The constructor `XY::XY(double x, double y)`. -/
def XY.XY (x y : ℚ) : SpeedCameras.XY :=
  { x := x, y := y, ix := quantize x FN, iy := quantize y FE }

/-- The struct `Point`. -/
structure Point where
  xy : XY := {}
  name : Name := []

/-- The struct `Polygon`; `type` is an `unsigned char`. -/
structure Polygon where
  rings : List (List XY) := []
  type : Nat := 0
  names : Fin 3 → Name := fun _ => []

/-- The struct `DbfField`; `name` holds the bytes of `char name[12]`. -/
structure DbfField where
  name : List Nat
  offset : Nat
  length : Nat

/-- A heap buffer reached through a raw pointer: the byte at each offset. -/
abbrev Memory := Nat → Nat

/-- The store `*(buf + a) = v`. -/
def Memory.write (m : Memory) (a v : Nat) : Memory :=
  fun q => if q = a then v else m q

/-- The data members of the class `SHP` that outlive the opening of the files;
`dbfFieldCount` is the length of `dbfField`. -/
structure SHP where
  points : List Point := []
  polygons : List Polygon := []
  recordCount : Nat := 0
  shapeType : Nat := 0
  offsets : List Nat := []
  dbfField : List DbfField := []
  shpData : Memory := fun _ => 0
  dbfRecordLength : Nat := 0
  dbfData : Memory := fun _ => 0

/-! ## Attribute decoding (src/shp.cpp) -/

/-- The bytes of an ASCII string literal. -/
def ascii (s : String) : Name := s.toList.map Char.toNat

/-- The C string held in a `char` array: the bytes before the first NUL. -/
def cString (bs : List Nat) : Name := bs.takeWhile (fun b => b ≠ 0)

/-- The C string at address `a`, of which at most `n` bytes are read.  The
parsers call it with `a + n` the address where they stored a NUL, so the bound
never cuts a string short. -/
def cStringAt (m : Memory) : Nat → Nat → Name
  | 0, _ => []
  | n + 1, a => if m a = 0 then [] else m a :: cStringAt m n (a + 1)

/-- The loop `while (*s0 == ' ' && s0 < s1) s0++;`, the first argument being
`s1 - s0`. -/
def skipLeading (m : Memory) : Nat → Nat → Nat
  | 0, s0 => s0
  | n + 1, s0 => if m s0 = 32 then skipLeading m n (s0 + 1) else s0

/-- The loop `while (*(--s1) == ' ' && s0 < s1) *s1 = 0;`, the second argument
being `s1` on entry.  From `s1 = 0` the decrement leaves the buffer and
`s0 < s1` is false. -/
def trimTrailing (s0 : Nat) : Nat → Memory → Memory
  | 0, m => m
  | s1 + 1, m =>
    if m s1 = 32 ∧ s0 < s1 then trimTrailing s0 s1 (m.write s1 0) else m

/-- The state of a parser after the first five statements of its loop body
(lines 152-157 and 170-175): the buffer, the advanced `s0`, the saved byte `c`
and the address `s1` where the NUL was stored. -/
structure Trimmed where
  mem : Memory
  s0 : Nat
  c : Nat
  stop : Nat

/-- Lines 152-157 of `parsePointName`, the same as 170-175 of
`parsePolygonData`. -/
def trimField (dbfData : Memory) (dbfRecordLength n : Nat) (field : DbfField) : Trimmed :=
  let s0 := (n * dbfRecordLength) % 2 ^ 32 + field.offset
  let s1 := s0 + field.length
  let c := dbfData s1
  let m := dbfData.write s1 0
  let s0 := skipLeading m (s1 - s0) s0
  { mem := trimTrailing s0 s1 m, s0 := s0, c := c, stop := s1 }

/-- The string `std::string(s0)` after trimming. -/
def Trimmed.text (t : Trimmed) : Name := cStringAt t.mem (t.stop - t.s0) t.s0

/-- The statement `*(s0 + dbfField[i].length) = c;  // restore`. -/
def Trimmed.restore (t : Trimmed) (field : DbfField) : Memory :=
  t.mem.write (t.s0 + field.length) t.c

/-- One iteration of the loop of `parsePointName`. -/
def parsePointField (dbfRecordLength n : Nat) (st : Point × Memory) (field : DbfField) :
    Point × Memory :=
  let t := trimField st.2 dbfRecordLength n field
  let p :=
    if ascii "TextString" = cString field.name then { st.1 with name := t.text }
    else if ascii "KIRJELDUS" = cString field.name ∧ (t.mem t.s0 ≠ 77 ∨ t.mem (t.s0 + 1) ≠ 97)
    then { st.1 with name := [] }
    else st.1
  (p, t.restore field)

/-- The function `SHP::parsePointName`; returns the point and the buffer
`dbfData` as the call leaves it. -/
def parsePointName (shp : SHP) (n : Nat) : Point × Memory :=
  shp.dbfField.foldl (parsePointField shp.dbfRecordLength n) ({}, shp.dbfData)

/-- The predicate `isspace` of the C locale. -/
def isspace (c : Nat) : Bool := c == 32 || (9 ≤ c && c ≤ 13)

/-- The call `strtoul(s, &end, 10)` with a 64-bit `unsigned long`. -/
def strtoul (s : Name) : Nat :=
  let s := s.dropWhile isspace
  let neg := s.head? = some 45
  let s := if s.head? = some 45 ∨ s.head? = some 43 then s.tail else s
  let digits := s.takeWhile (fun c => 48 ≤ c && c ≤ 57)
  let v := digits.foldl (fun acc d => acc * 10 + (d - 48)) 0
  if 2 ^ 64 ≤ v then 2 ^ 64 - 1
  else if neg then (2 ^ 64 - v) % 2 ^ 64
  else v

/-- One iteration of the loop of `parsePolygonData`. -/
def parsePolygonField (dbfRecordLength n : Nat) (st : Polygon × Memory) (field : DbfField) :
    Polygon × Memory :=
  let t := trimField st.2 dbfRecordLength n field
  let p :=
    if ascii "TYYP" = cString field.name then { st.1 with type := strtoul t.text % 256 }
    else if ascii "MNIMI" = cString field.name then
      { st.1 with names := fun i => if i = 0 then t.text else st.1.names i }
    else if ascii "ONIMI" = cString field.name then
      { st.1 with names := fun i => if i = 1 then t.text else st.1.names i }
    else if ascii "ANIMI" = cString field.name then
      { st.1 with names := fun i => if i = 2 then t.text else st.1.names i }
    else st.1
  (p, t.restore field)

/-- The function `SHP::parsePolygonData`; returns the polygon and the buffer
`dbfData` as the call leaves it. -/
def parsePolygonData (shp : SHP) (n : Nat) : Polygon × Memory :=
  shp.dbfField.foldl (parsePolygonField shp.dbfRecordLength n) ({}, shp.dbfData)

/-- The `double` stored little-endian at address `a` (IEEE 754 binary64), for
the finite values. -/
def readDouble (m : Memory) (a : Nat) : ℚ :=
  let bits : Nat := leValue ((List.range 8).map fun k => m (a + k) % 256)
  let sign : ℚ := if bits / 2 ^ 63 % 2 = 1 then -1 else 1
  let e : Nat := bits / 2 ^ 52 % 2048
  let frac : Nat := bits % 2 ^ 52
  if e = 0 then sign * (frac : ℚ) * (2 : ℚ) ^ (-1074 : Int)
  else sign * (2 ^ 52 + (frac : ℚ)) * (2 : ℚ) ^ ((e : Int) - 1075)

/-- One iteration of the loop of `SHP::addPoints`, for record `i`. -/
def addPoint (shp : SHP) (i : Nat) : SHP :=
  let p := shp.offsets.getD i 0
  let parsed := parsePointName shp i
  let shp := { shp with dbfData := parsed.2 }
  if parsed.1.name ≠ [] then
    let point : Point :=
      { parsed.1 with xy := XY.XY (readDouble shp.shpData (p + 12)) (readDouble shp.shpData (p + 4)) }
    { shp with points := shp.points ++ [point] }
  else shp

/-- The function `SHP::addPoints`. -/
def addPoints (shp : SHP) : SHP :=
  (List.range shp.recordCount).foldl addPoint shp

/-! ## Reading the files (src/shp.cpp) -/

/-- The value of an arithmetic result stored in an `int`: wrapped into
`[-2^31, 2^31)`. -/
def toInt32 (v : Int) : Int := (v + 2 ^ 31) % 2 ^ 32 - 2 ^ 31

/-- The conversion of an `int` to `unsigned`. -/
def toUnsigned (v : Int) : Nat := (v % 2 ^ 32).toNat

/-- The expression `(a << 24u) + (b << 16u) + (c << 8u) + d` on four bytes: the
operands are promoted to `int`, so is the sum. -/
def shiftSum (a b c d : Nat) : Int :=
  toInt32 ((a : Int) * 2 ^ 24 + (b : Int) * 2 ^ 16 + (c : Int) * 2 ^ 8 + (d : Int))

/-- The buffer filled by `stream.read(buf, n)` with the stream at position
`pos`: `n` bytes of the file.  The bytes that the file does not supply, and the
bytes past the buffer, are indeterminate in C++; they are taken as 0. -/
def readBuffer (file : List Nat) (pos n : Nat) : Memory :=
  fun k => if k < n then file.getD (pos + k) 0 % 256 else 0

/-- The value given to `recordCount` from the SHX header:
`((buf[24] << 24u) + (buf[25] << 16u) + (buf[26] << 8u) + buf[27] - 50) / 4`,
an `int` division, converted to `unsigned`. -/
def shxRecordCount (buf : Memory) : Nat :=
  toUnsigned (Int.tdiv (toInt32 (shiftSum (buf 24) (buf 25) (buf 26) (buf 27) - 50)) 4)

/-- The value of `shpDataLength`, from the SHP header. -/
def shpDataLength (buf : Memory) : Nat :=
  toUnsigned (shiftSum (buf 24) (buf 25) (buf 26) (buf 27) * 2 - 100)

/-- The value of `dbfRecordCount`, from the DBF header. -/
def dbfRecordCount (buf : Memory) : Nat :=
  toUnsigned (shiftSum (buf 7) (buf 6) (buf 5) (buf 4))

/-- The value of `dbfFieldsLength`, from the DBF header. -/
def dbfFieldsLength (buf : Memory) : Nat :=
  toUnsigned ((buf 9 : Int) * 2 ^ 8 + (buf 8 : Int) - 32)

/-- The value given to `dbfRecordLength`, from the DBF header. -/
def dbfHeaderRecordLength (buf : Memory) : Nat :=
  toUnsigned ((buf 11 : Int) * 2 ^ 8 + (buf 10 : Int))

/-- The value given to `offsets[i]`, `j` being `8 * i` in `unsigned`. -/
def shxOffset (buf : Memory) (i : Nat) : Nat :=
  let j := 8 * i % 2 ^ 32
  toUnsigned (shiftSum (buf j) (buf (j + 1)) (buf (j + 2)) (buf (j + 3)) * 2 - 100 + 8)

/-- The loop that fills `dbfField`, with `count` iterations left, at index `i`
with the running `offset`. -/
def readFields (buf : Memory) : Nat → Nat → Nat → List DbfField
  | 0, _, _ => []
  | count + 1, i, offset =>
    let length := buf (i * 32 + 16)
    { name := (List.range 11).map (fun k => buf (i * 32 + k)) ++ [0],
      offset := offset, length := length }
      :: readFields buf count (i + 1) ((offset + length) % 2 ^ 32)

/-- The value `*(unsigned *) (shpData + a)`. -/
def readUnsigned (m : Memory) (a : Nat) : Nat :=
  leValue ((List.range 4).map fun k => m (a + k) % 256)

/-- The element `partIndex[j]` after the `memcpy` of `*partCount * 4` bytes from
`p + 44`; an element that the copy does not reach is indeterminate, taken as 0. -/
def partIndex (shpData : Memory) (p partCount j : Nat) : Nat :=
  if 4 * j + 4 ≤ partCount * 4 % 2 ^ 32 then readUnsigned shpData (p + 44 + 4 * j) else 0

/-- The ring built by one iteration of the loop `for (unsigned j = 0; j <
*partCount; j++)` of `SHP::addPolygons`. -/
def readRing (shpData : Memory) (p partCount pointCount j : Nat) : List XY :=
  let stop := if j = partCount - 1 then pointCount else partIndex shpData p partCount (j + 1)
  let start := partIndex shpData p partCount j
  (List.range' start (stop - start)).map fun k =>
    XY.XY (readDouble shpData (p + k * 16 % 2 ^ 32 + partCount * 4 % 2 ^ 32 + 52))
      (readDouble shpData (p + k * 16 % 2 ^ 32 + partCount * 4 % 2 ^ 32 + 44))

/-- The vector `rings` that one iteration of the loop of `SHP::addPolygons`
builds for the record at `p`. -/
def readRings (shpData : Memory) (p : Nat) : List (List XY) :=
  let partCount := readUnsigned shpData (p + 36)
  let pointCount := readUnsigned shpData (p + 40)
  (List.range partCount).map (readRing shpData p partCount pointCount)

/-- One iteration of the loop of `SHP::addPolygons`, for record `i`. -/
def addPolygon (shp : SHP) (i : Nat) : SHP :=
  let p := shp.offsets.getD i 0
  let rings := readRings shp.shpData p
  let parsed := parsePolygonData shp i
  let polygon : Polygon := { parsed.1 with rings := rings }
  { shp with dbfData := parsed.2, polygons := shp.polygons ++ [polygon] }

/-- The function `SHP::addPolygons`. -/
def addPolygons (shp : SHP) : SHP :=
  (List.range shp.recordCount).foldl addPolygon shp

/-- The three files that a base name stands for, each `none` when it cannot be
opened. -/
structure Triad where
  shp : Option (List Nat)
  shx : Option (List Nat)
  dbf : Option (List Nat)

/-- The exceptions that `SHP::read` throws. -/
inductive ReadError where
  | shpNotFound
  | shxNotFound
  | dbfNotFound
  | unsupportedShapeType (shapeType : Nat)
  | recordCountMismatch (recordCount dbfRecordCount : Nat)
  deriving DecidableEq

/-- The way a call of `SHP::read` ends, with the object as the call leaves it. -/
inductive Outcome where
  | done (shp : SHP)
  | thrown (error : ReadError) (shp : SHP)

/-- The object after the call. -/
def Outcome.state : Outcome → SHP
  | .done shp => shp
  | .thrown _ shp => shp

/-- The exception of the call, if it threw. -/
def Outcome.error : Outcome → Option ReadError
  | .done _ => none
  | .thrown e _ => some e

/-- The function `SHP::read(const std::string &filename)`, `files` being the
files that the name stands for.  The buffers that the function frees before it
returns keep their last content in the result. -/
def SHP.read (shp : SHP) (files : Triad) : Outcome :=
  match files.shp, files.shx, files.dbf with
  | none, _, _ => .thrown .shpNotFound shp
  | some _, none, _ => .thrown .shxNotFound shp
  | some _, some _, none => .thrown .dbfNotFound shp
  | some shpFile, some shxFile, some dbfFile =>
    -- SHX header
    let buf := readBuffer shxFile 0 100
    let shp := { shp with recordCount := shxRecordCount buf, shapeType := buf 32 }
    if shp.shapeType ≠ 1 ∧ shp.shapeType ≠ 5 then
      .thrown (.unsupportedShapeType shp.shapeType) shp
    else
      -- SHP header
      let shpLength := shpDataLength (readBuffer shpFile 0 100)
      -- DBF header
      let buf := readBuffer dbfFile 0 32
      let fieldsLength := dbfFieldsLength buf
      let shp := { shp with dbfRecordLength := dbfHeaderRecordLength buf }
      if shp.recordCount ≠ dbfRecordCount buf then
        .thrown (.recordCountMismatch shp.recordCount (dbfRecordCount buf)) shp
      else
        -- SHP index
        let index := readBuffer shxFile 100 (shp.recordCount * 8 % 2 ^ 32)
        let shp := { shp with offsets := (List.range shp.recordCount).map (shxOffset index) }
        -- SHP records
        let shp := { shp with shpData := readBuffer shpFile 100 shpLength }
        -- DBF fields
        let fields := readBuffer dbfFile 32 fieldsLength
        let shp := { shp with dbfField := readFields fields (fieldsLength / 32) 0 1 }
        -- DBF records
        let shp := { shp with
          dbfData := readBuffer dbfFile (32 + fieldsLength)
            (shp.recordCount * shp.dbfRecordLength % 2 ^ 32) }
        .done (if shp.shapeType = 1 then addPoints shp else addPolygons shp)

/-- The function `SHP::read()`: the points data set, then the polygons data
set; an exception of the first call ends the second before it starts. -/
def SHP.readAll (shp : SHP) (points polygons : Triad) : Outcome :=
  match shp.read points with
  | .done shp => shp.read polygons
  | .thrown e shp => .thrown e shp

/-! ## The exporters (src/main.cpp) -/

/-- The file-scope variables of main.cpp. -/
structure Globals where
  pointNames : List Name := []
  pointIndex : Name → Nat := fun _ => 0
  polygonNames : Fin 3 → List Name := fun _ => []
  polygonIndex : Fin 3 → Name → Nat := fun _ _ => 0

/-- The three writes of the loop `for (auto &point: shp.points)` of
`exportPoints`. -/
def writePoint (pointIndex : Name → Nat) (f : List Nat) (point : Point) : List Nat :=
  f ++ intBytes 3 point.xy.ix ++ intBytes 3 point.xy.iy ++ leBytes 2 (pointIndex point.name)

/-- The function `exportPoints`, the output file having been opened: returns
the file-scope variables as the call leaves them and the bytes of the file. -/
def exportPoints (g : Globals) (shp : SHP) : Globals × Option (List Nat) :=
  let pointNames := shp.points.foldl (fun names point => setInsert point.name names) g.pointNames
  let pointIndex := assignIndex pointNames 0 g.pointIndex
  let g := { g with pointNames := pointNames, pointIndex := pointIndex }
  match exportNames [] pointNames 2 with
  | none => (g, none)
  | some f =>
    let pointsCount := shp.points.length % 2 ^ 32
    let f := f ++ leBytes 4 pointsCount
    (g, some (shp.points.foldl (writePoint pointIndex) f))

/-- A `ring_t` of boost: the points as pairs `(x(), y())`. -/
abbrev Ring := List (ℚ × ℚ)

/-- The body of the loop `for (auto &polygonRing: polygon.rings)`: the ring that
is pushed to `rings`.  `correct` and `simplify` stand for `bg::correct` and
`bg::simplify`. -/
def processRing (correct : Ring → Ring) (simplify : Ring → Int → Ring) (simplifyDistance : Int)
    (polygonRing : List XY) : Ring :=
  let ring := correct (polygonRing.map fun xy => (xy.y, xy.x))
  if simplifyDistance < 0 ∨ ring.length < 20 then ring else simplify ring simplifyDistance

/-- The loop `for (auto &xy: ring)` of `exportPolygons`, entered with the given
`lastX`, `lastY`. -/
def writeRingPoints : Ring → Int → Int → List Nat → List Nat
  | [], _, _, f => f
  | xy :: rest, lastX, lastY, f =>
    let x := quantize xy.2 FN
    let y := quantize xy.1 FE
    let diffX := x - lastX
    let diffY := y - lastY
    writeRingPoints rest x y (f ++ intBytes 3 diffX ++ intBytes 3 diffY)

/-- The body of the loop `for (auto &ring: rings)`. -/
def writeRing (f : List Nat) (ring : Ring) : List Nat :=
  let ringSize := ring.length % 65536
  writeRingPoints ring 0 0 (f ++ leBytes 2 ringSize)

/-- The body of the loop `for (auto &polygon: shp.polygons)` of
`exportPolygons`. -/
def writePolygon (correct : Ring → Ring) (simplify : Ring → Int → Ring) (simplifyDistance : Int)
    (polygonIndex : Fin 3 → Name → Nat) (f : List Nat) (polygon : Polygon) : List Nat :=
  let rings := polygon.rings.map (processRing correct simplify simplifyDistance)
  if rings.isEmpty then f
  else
    let f := f ++ leBytes 1 polygon.type
    let f := f ++ leBytes 1 (polygonIndex 0 (polygon.names 0))
    let f := f ++ leBytes 1 (polygonIndex 1 (polygon.names 1))
    let f := f ++ leBytes 2 (polygonIndex 2 (polygon.names 2))
    let ringsCount := rings.length % 2 ^ 32
    let f := f ++ leBytes 1 ringsCount
    rings.foldl writeRing f

/-- The statement `for (unsigned i = 0; i < 3; i++)
polygonNames[i].insert(polygon.names[i]);`. -/
def insertPolygonNames (names : Fin 3 → List Name) (polygon : Polygon) : Fin 3 → List Name :=
  fun i => setInsert (polygon.names i) (names i)

/-- The statement `for (unsigned i = 0; i < 3; i++)
exportNames(f, polygonNames[i], i < 2 ? 1 : 2);`. -/
def exportPolygonNames (f : List Nat) (polygonNames : Fin 3 → List Name) : Option (List Nat) :=
  (exportNames f (polygonNames 0) 1).bind fun f =>
  (exportNames f (polygonNames 1) 1).bind fun f =>
  exportNames f (polygonNames 2) 2

/-- The function `exportPolygons`, the output file having been opened: returns
the file-scope variables as the call leaves them and the bytes of the file. -/
def exportPolygons (correct : Ring → Ring) (simplify : Ring → Int → Ring) (g : Globals)
    (shp : SHP) (simplifyDistance : Int) : Globals × Option (List Nat) :=
  let polygonNames := shp.polygons.foldl insertPolygonNames g.polygonNames
  let polygonIndex : Fin 3 → Name → Nat :=
    fun i => assignIndex (polygonNames i) 0 (g.polygonIndex i)
  let g := { g with polygonNames := polygonNames, polygonIndex := polygonIndex }
  match exportPolygonNames [] polygonNames with
  | none => (g, none)
  | some f =>
    let polygonsCount := shp.polygons.length % 2 ^ 32
    let f := f ++ leBytes 2 polygonsCount
    (g, some (shp.polygons.foldl (writePolygon correct simplify simplifyDistance polygonIndex) f))

/-! ## Notions used to state the properties -/

/-- The length of the longest common beginning of two byte strings. -/
def lcpLen : Name → Name → Nat
  | a :: as, b :: bs => if a = b then lcpLen as bs + 1 else 0
  | _, _ => 0

/-- A name that can come out of the attribute decoder into a one-byte length
field: no NUL byte, at most 255 bytes. -/
def ValidName (n : Name) : Prop := (∀ b ∈ n, b ≠ 0) ∧ n.length ≤ 255

/-- The front coding of the names after `prev`: for each name the length shared
with the name before it, the length of the rest, and the rest. -/
def frontCode : Name → List Name → List Nat
  | _, [] => []
  | prev, name :: rest =>
    lcpLen name prev :: (name.length - lcpLen name prev) ::
      (name.drop (lcpLen name prev) ++ frontCode name rest)

/-- A `std::set` in iteration order: strictly ascending. -/
def Ascending (names : List Name) : Prop :=
  names.Pairwise (fun a b => strLt a b = true)

instance : DecidablePred Ascending :=
  fun names => inferInstanceAs (Decidable (names.Pairwise (fun a b => strLt a b = true)))

/-- The zero-based position of the name `q` in a list of names. -/
def position (q : Name) : List Name → Nat
  | [] => 0
  | x :: xs => if x = q then 0 else position q xs + 1

/-- The `std::set` that holds the names of a list: the names inserted one by
one into an empty set. -/
def nameSet (names : List Name) : List Name :=
  names.foldl (fun set name => setInsert name set) []

/-- The signed value of a 24-bit two's-complement pattern. -/
def signExtend24 (v : Nat) : Int :=
  if v < 2 ^ 23 then (v : Int) else (v : Int) - 2 ^ 24

/-- The low 24 bits of an integer as three little-endian bytes. -/
def low24 (v : Int) : List Nat :=
  [(v % 256).toNat, (v / 256 % 256).toNat, (v / 65536 % 256).toNat]

/-- The quantized points of a ring handed to the writer, first the value
computed from `y()` with `FN`, then the one computed from `x()` with `FE`. -/
def quantized (ring : Ring) : List (Int × Int) :=
  ring.map fun xy => (quantize xy.2 FN, quantize xy.1 FE)

/-- The reader of the point pairs of a ring: each pair of 3-byte deltas is added
modulo `2 ^ 24` to the running pair, which is sign-extended. -/
def decodeDeltas : List Nat → Nat → Nat → List (Int × Int)
  | b0 :: b1 :: b2 :: c0 :: c1 :: c2 :: rest, accX, accY =>
    let x := (accX + leValue [b0, b1, b2]) % 2 ^ 24
    let y := (accY + leValue [c0, c1, c2]) % 2 ^ 24
    (signExtend24 x, signExtend24 y) :: decodeDeltas rest x y
  | _, _, _ => []

/-- The names that `parsePointName` resolves for the records of the list, in
order, each call working on the buffer as the call before left it. -/
def resolvedNamesFrom (shp : SHP) : List Nat → List Name
  | [] => []
  | i :: rest =>
    (parsePointName shp i).1.name
      :: resolvedNamesFrom { shp with dbfData := (parsePointName shp i).2 } rest

/-- The resolved names of all the records of the data set. -/
def resolvedNames (shp : SHP) : List Name :=
  resolvedNamesFrom shp (List.range shp.recordCount)

/-- The bytes of the fixed-width range of a field in record `n`. -/
def fieldSlice (dbfData : Memory) (dbfRecordLength n : Nat) (field : DbfField) : List Nat :=
  (List.range field.length).map fun k => dbfData (n * dbfRecordLength + field.offset + k)

/-- A byte string without its leading and trailing 0x20 bytes. -/
def trimSpaces (bs : List Nat) : List Nat :=
  ((bs.dropWhile (fun b => b = 32)).reverse.dropWhile (fun b => b = 32)).reverse

/-- The width in bytes of the count of the dictionary of polygon name slot `i`,
which is also the width of the name index of that slot in a polygon record. -/
def countWidth (i : Fin 3) : Nat := if i.val < 2 then 1 else 2

/-- The bytes of the name index of slot `i` in a polygon record: after the type
byte come the indexes on 1, 1 and 2 bytes. -/
def indexField (record : List Nat) (i : Fin 3) : List Nat :=
  (record.drop (1 + i.val)).take (countWidth i)

/-- The dictionary of an ascending list of names as the format describes it:
the count on `k` bytes, then the front-coded entries. -/
def dictionary (k : Nat) (names : List Name) : List Nat :=
  leBytes k (names.length % 2 ^ 32) ++ frontCode [] names

/-- The number of times the name `q` occurs in a list of names. -/
def occurrences (q : Name) (l : List Name) : Nat :=
  (l.filter fun x => decide (x = q)).length

/-- The big-endian unsigned 32-bit value of the four bytes of a file that start
at `pos`. -/
def bigEndian32At (file : List Nat) (pos : Nat) : Nat :=
  file.getD pos 0 * 2 ^ 24 + file.getD (pos + 1) 0 * 2 ^ 16 + file.getD (pos + 2) 0 * 2 ^ 8
    + file.getD (pos + 3) 0

/-- The little-endian unsigned 32-bit value of the four bytes of a file that
start at `pos`. -/
def littleEndian32At (file : List Nat) (pos : Nat) : Nat :=
  file.getD pos 0 + file.getD (pos + 1) 0 * 2 ^ 8 + file.getD (pos + 2) 0 * 2 ^ 16
    + file.getD (pos + 3) 0 * 2 ^ 24

/-- A file made of bytes. -/
def IsBytes (file : List Nat) : Prop := ∀ b ∈ file, b < 256

instance : DecidablePred IsBytes :=
  fun file => inferInstanceAs (Decidable (∀ b ∈ file, b < 256))

/-- The little-endian unsigned 16-bit value of the two bytes of a file that
start at `pos`. -/
def littleEndian16At (file : List Nat) (pos : Nat) : Nat :=
  file.getD pos 0 + file.getD (pos + 1) 0 * 2 ^ 8

/-- The name of descriptor `i` of an attribute file, as the format gives it: the
first 11 bytes of the 32-byte entry `i` that follows the 32-byte header, with a
NUL after them. -/
def entryName (file : List Nat) (i : Nat) : List Nat :=
  (List.range 11).map (fun k => file.getD (32 + 32 * i + k) 0) ++ [0]

/-- The field length of descriptor `i` of an attribute file: byte 16 of entry
`i`. -/
def entryLength (file : List Nat) (i : Nat) : Nat := file.getD (32 + 32 * i + 16) 0

/-- The sum of the field lengths of descriptors `0 .. i − 1`. -/
def lengthsBefore (file : List Nat) (i : Nat) : Nat :=
  ((List.range i).map (entryLength file)).sum

/-- The number of rings of the polygon record at `p`: the unsigned 32-bit
little-endian value at byte 36 of the record. -/
def ringCount (shpData : Memory) (p : Nat) : Nat := readUnsigned shpData (p + 36)

/-- The total number of points of the polygon record at `p`: the value at byte
40. -/
def totalPoints (shpData : Memory) (p : Nat) : Nat := readUnsigned shpData (p + 40)

/-- The entry `s[j]` of the ring-start array of the polygon record at `p`, which
starts at byte 44. -/
def ringStart (shpData : Memory) (p j : Nat) : Nat := readUnsigned shpData (p + 44 + 4 * j)

/-- The end of ring `j`: the start of the next ring, and the total point count
for the last ring. -/
def ringEnd (shpData : Memory) (p j : Nat) : Nat :=
  if j + 1 = ringCount shpData p then totalPoints shpData p else ringStart shpData p (j + 1)

/-- The point with index `k` of the polygon record at `p`: the point array
follows the ring-start array and holds 16 bytes per point, the easting double
then the northing double; the feature takes the northing as `x`. -/
def recordPoint (shpData : Memory) (p k : Nat) : XY :=
  XY.XY (readDouble shpData (p + 44 + 4 * ringCount shpData p + 16 * k + 8))
    (readDouble shpData (p + 44 + 4 * ringCount shpData p + 16 * k))

/-! ## Sample data -/

/-- A ring of two points at the two ends of the 24-bit range. -/
def wideRing : Ring := [(500000, 6375000 - 419430), (500000, 6375000 + 419430)]

/-- A normalizer that leaves every ring as it is; `bg::correct` leaves a ring of
fewer than three points as it is. -/
def keepRing : Ring → Ring := fun ring => ring

/-- A simplifier that leaves every ring as it is. -/
def keepAll : Ring → Int → Ring := fun ring _ => ring

/-- A polygon list with one polygon that has no ring, as `addPolygons` builds
from a record whose part count is 0. -/
def noRingShp : SHP := { polygons := [{ rings := [], type := 8, names := fun _ => [65] }] }

/-- A polygon list with one polygon whose only ring has no point. -/
def emptyRingShp : SHP := { polygons := [{ rings := [[]], type := 8, names := fun _ => [65] }] }

/-- An attribute table of two records ` 8Harj` and ` 1Tart` (the first byte is
the deletion marker) with a numeric field `TYYP` of width 2 followed by a
character field `MNIMI` of width 4. -/
def typeThenNameShp : SHP :=
  { recordCount := 2
    shapeType := 5
    dbfRecordLength := 7
    dbfField := [⟨ascii "TYYP" ++ [0, 0, 0, 0, 0, 0, 0, 0], 1, 2⟩,
      ⟨ascii "MNIMI" ++ [0, 0, 0, 0, 0, 0, 0], 3, 4⟩]
    dbfData := fun a => (ascii " " ++ ascii " 8" ++ ascii "Harj"
      ++ ascii " " ++ ascii " 1" ++ ascii "Tart").getD a 0 }

/-- A point table of three records whose `TextString` values are `Abja`, blank
and `Kivi`, with a spare byte after the last record. -/
def threePointsShp : SHP :=
  { recordCount := 3
    shapeType := 1
    offsets := [8, 36, 64]
    dbfRecordLength := 5
    dbfField := [⟨ascii "TextString" ++ [0, 0], 1, 4⟩]
    dbfData := fun a => (ascii " Abja" ++ ascii "     " ++ ascii " Kivi" ++ [0]).getD a 0 }

/-- A point table of two records ` 7Abja` and ` 9Kivi` with a numeric field
`ID` of width 2 followed by the character field `TextString` of width 4. -/
def idThenNameShp : SHP :=
  { recordCount := 2
    shapeType := 1
    offsets := [8, 36]
    dbfRecordLength := 7
    dbfField := [⟨ascii "ID" ++ [0, 0, 0, 0, 0, 0, 0, 0, 0, 0], 1, 2⟩,
      ⟨ascii "TextString" ++ [0, 0], 3, 4⟩]
    dbfData := fun a => (ascii " " ++ ascii " 7" ++ ascii "Abja"
      ++ ascii " " ++ ascii " 9" ++ ascii "Kivi").getD a 0 }

/-- The two points of the end-to-end example: `Kivinõmm` (Windows-1252) first,
then `Abja`. -/
def twoPointsShp : SHP :=
  { points := [{ xy := { x := 6400000, y := 550000, ix := 500000, iy := 1000000 },
                 name := [75, 105, 118, 105, 110, 245, 109, 109] },
               { xy := { x := 6450000, y := 600000, ix := 1500000, iy := 2000000 },
                 name := ascii "Abja" }] }

/-- A polygon list with one polygon whose three names are empty, as
`parsePolygonData` leaves them for a record without name fields. -/
def noNameShp : SHP := { polygons := [{ rings := [[]], type := 8 }] }

/-- A polygon list of 256 polygons, each with one ring without points, whose
county names (slot 0) are 256 different two-byte names; the other two names
are `A`. -/
def manyCountiesShp : SHP :=
  { polygons := (List.range 256).map fun k =>
      { rings := [[]], type := 0, names := fun i => if i = 0 then [1 + k / 16, 1 + k % 16] else [65] } }

/-- An SHX or SHP header of 100 bytes whose length field (bytes 24..27,
big-endian) and shape type field (bytes 32..35, little-endian) hold the given
bytes. -/
def sampleHeader (length shapeType : List Nat) : List Nat :=
  List.replicate 24 0 ++ length ++ List.replicate 4 0 ++ shapeType ++ List.replicate 64 0

/-- A DBF header of 32 bytes with the given record count, header length and
record length, each below 256. -/
def sampleDbfHeader (count headerLength recordLength : Nat) : List Nat :=
  [3, 126, 11, 1, count, 0, 0, 0, headerLength, 0, recordLength, 0] ++ List.replicate 20 0

/-- A data set without records whose shape type field holds 257 (bytes
`01 01 00 00`). -/
def type257Triad : Triad :=
  { shp := some (sampleHeader [0, 0, 0, 50] [1, 1, 0, 0])
    shx := some (sampleHeader [0, 0, 0, 50] [1, 1, 0, 0])
    dbf := some (sampleDbfHeader 0 33 1 ++ [13]) }

/-- A data set whose index header announces one record (length 54 words) and
whose attribute header announces two. -/
def mismatchTriad : Triad :=
  { shp := some (sampleHeader [0, 0, 0, 64] [1, 0, 0, 0] ++ List.replicate 28 0)
    shx := some (sampleHeader [0, 0, 0, 54] [1, 0, 0, 0] ++ [0, 0, 0, 50, 0, 0, 0, 10])
    dbf := some (sampleDbfHeader 2 33 1 ++ [13, 32, 32]) }

/-- A normalizer that closes a ring: the first point is appended. -/
def closeRing : Ring → Ring := fun ring => ring ++ ring.take 1

/-- A simplifier that keeps the first two points of a ring. -/
def keepTwo : Ring → Int → Ring := fun ring _ => ring.take 2

/-- An input ring of 19 points that is not closed. -/
def openRing19 : List XY :=
  (List.range 19).map fun (k : Nat) => XY.mk (k : ℚ) (2 * (k : ℚ)) 0 0

/-- A data set whose index header holds the length `FF FF FF FF`. -/
def fullLengthTriad : Triad :=
  { shp := some (sampleHeader [0, 0, 0, 50] [1, 0, 0, 0])
    shx := some (sampleHeader [255, 255, 255, 255] [1, 0, 0, 0])
    dbf := some (sampleDbfHeader 0 33 1 ++ [13]) }

/-- An attribute file with the descriptors `ID` (2 bytes) and `TextString`
(4 bytes), records of 7 bytes, and the record `" " " 7" "Abja"`. -/
def twoFieldsDbf : List Nat :=
  sampleDbfHeader 1 97 7
    ++ (ascii "ID" ++ List.replicate 14 0 ++ [2] ++ List.replicate 15 0)
    ++ (ascii "TextString" ++ List.replicate 6 0 ++ [4] ++ List.replicate 15 0)
    ++ [13] ++ ascii " " ++ ascii " 7" ++ ascii "Abja"

/-- A points data set of one record whose attribute file is `twoFieldsDbf`. -/
def twoFieldsTriad : Triad :=
  { shp := some (sampleHeader [0, 0, 0, 64] [1, 0, 0, 0] ++ List.replicate 28 0)
    shx := some (sampleHeader [0, 0, 0, 54] [1, 0, 0, 0] ++ [0, 0, 0, 50, 0, 0, 0, 10])
    dbf := some twoFieldsDbf }

/-- A polygon data set of one record with two rings and three points: the ring
starts are 0 and 2. -/
def twoRingsShp : SHP :=
  { recordCount := 1
    shapeType := 5
    offsets := [8]
    shpData := fun a => (List.replicate 8 0 ++ [5, 0, 0, 0] ++ List.replicate 32 0
      ++ [2, 0, 0, 0] ++ [3, 0, 0, 0] ++ [0, 0, 0, 0, 2, 0, 0, 0] ++ List.replicate 48 0).getD a 0
    dbfRecordLength := 1
    dbfData := fun a => (ascii " ").getD a 0 }

/-! ## Theorems -/

theorem roundHalfEven_bounds (r : ℚ) :
    (Int.floor r ≤ roundHalfEven r ∧ roundHalfEven r ≤ Int.floor r + 1) ∧
    |(roundHalfEven r : ℚ) - r| ≤ 1 / 2 := by
  have h1 := Int.floor_le r
  have h2 := Int.lt_floor_add_one r
  unfold roundHalfEven
  split_ifs with ha hb hc
  · refine ⟨⟨le_refl _, by omega⟩, ?_⟩
    rw [abs_le]
    constructor <;> linarith
  · refine ⟨⟨by omega, le_refl _⟩, ?_⟩
    push_cast
    rw [abs_le]
    constructor <;> linarith
  · refine ⟨⟨le_refl _, by omega⟩, ?_⟩
    rw [abs_le]
    constructor <;> linarith
  · refine ⟨⟨by omega, le_refl _⟩, ?_⟩
    push_cast
    rw [abs_le]
    constructor <;> linarith

theorem roundHalfEven_intCast (n : Int) : roundHalfEven (n : ℚ) = n := by
  unfold roundHalfEven
  rw [Int.floor_intCast, if_pos (by norm_num)]

theorem roundHalfEven_mono {r s : ℚ} (h : r ≤ s) : roundHalfEven r ≤ roundHalfEven s := by
  have hf := Int.floor_le_floor h
  by_cases e : Int.floor r = Int.floor s
  · unfold roundHalfEven
    rw [e]
    split_ifs <;> first | omega | (exfalso; linarith)
  · have h1 := (roundHalfEven_bounds r).1.2
    have h2 := (roundHalfEven_bounds s).1.1
    omega

theorem roundHalfEven_eq_floor (r : ℚ) (f : Int) (h1 : (f : ℚ) ≤ r) (h2 : r < f + 1 / 2) :
    roundHalfEven r = f := by
  have hf : Int.floor r = f := by
    rw [Int.floor_eq_iff]
    constructor <;> linarith
  unfold roundHalfEven
  rw [hf, if_pos (by linarith)]

theorem roundHalfEven_eq_ceil (r : ℚ) (f : Int) (h1 : (f : ℚ) + 1 / 2 < r) (h2 : r < f + 1) :
    roundHalfEven r = f + 1 := by
  have hf : Int.floor r = f := by
    rw [Int.floor_eq_iff]
    constructor <;> linarith
  unfold roundHalfEven
  rw [hf, if_neg (by linarith), if_pos (by linarith)]

theorem two_zpow_pos (k : Int) : (0 : ℚ) < 2 ^ k := zpow_pos (by norm_num) k

theorem roundMagnitude_zero : roundMagnitude 0 = 0 := by
  have h := roundHalfEven_intCast 0
  rw [Int.cast_zero] at h
  unfold roundMagnitude
  simp only [zero_div, h, Int.cast_zero, zero_mul]

/-- The exponent that `roundMagnitude` uses. -/
theorem exponent_eq (q : ℚ) (e : Int) (hq : 0 < q) (he : -1022 ≤ e)
    (h1 : 2 ^ e ≤ q ∨ e = -1022) (h2 : q < 2 ^ (e + 1)) :
    max (Int.log 2 q) (-1022) = e := by
  have hlt : Int.log 2 q < e + 1 := by
    rw [← Int.lt_zpow_iff_log_lt (by norm_num) hq]
    simpa using h2
  rcases h1 with h1 | h1
  · have hle : e ≤ Int.log 2 q := by
      rw [← Int.zpow_le_iff_le_log (by norm_num) hq]
      simpa using h1
    omega
  · omega

theorem roundMagnitude_eq (q : ℚ) (e : Int) (hq : 0 < q) (he : -1022 ≤ e)
    (h1 : 2 ^ e ≤ q ∨ e = -1022) (h2 : q < 2 ^ (e + 1)) :
    roundMagnitude q = (roundHalfEven (q / 2 ^ (e - 52)) : ℚ) * 2 ^ (e - 52) := by
  unfold roundMagnitude
  simp only []
  rw [exponent_eq q e hq he h1 h2]

/-- Every positive rational has its exponent. -/
theorem exists_exponent (q : ℚ) (hq : 0 < q) :
    ∃ e : Int, -1022 ≤ e ∧ (2 ^ e ≤ q ∨ e = -1022) ∧ q < 2 ^ (e + 1) ∧
      max (Int.log 2 q) (-1022) = e := by
  have h1 : (2 : ℚ) ^ Int.log 2 q ≤ q := by
    simpa using Int.zpow_log_le_self (b := 2) (r := q) (by norm_num) hq
  have h2 : q < (2 : ℚ) ^ (Int.log 2 q + 1) := by
    simpa using Int.lt_zpow_succ_log_self (b := 2) (by norm_num) q
  by_cases hc : -1022 ≤ Int.log 2 q
  · exact ⟨Int.log 2 q, hc, Or.inl h1, h2, max_eq_left hc⟩
  · refine ⟨-1022, le_refl _, Or.inr rfl, ?_, max_eq_right (by omega)⟩
    exact lt_of_lt_of_le h2 (zpow_le_zpow_right₀ (by norm_num) (by omega))

theorem roundMagnitude_nonneg (q : ℚ) (hq : 0 ≤ q) : 0 ≤ roundMagnitude q := by
  unfold roundMagnitude
  simp only []
  apply mul_nonneg _ (two_zpow_pos _).le
  have h0 := roundHalfEven_mono (div_nonneg hq (two_zpow_pos
    (max (Int.log 2 q) (-1022) - 52)).le)
  rw [show roundHalfEven 0 = 0 from by simpa using roundHalfEven_intCast 0] at h0
  exact_mod_cast h0

theorem zpow_split (e : Int) : (2 : ℚ) ^ (e + 1) = ((2 ^ 53 : Int) : ℚ) * 2 ^ (e - 52) ∧
    (2 : ℚ) ^ e = ((2 ^ 52 : Int) : ℚ) * 2 ^ (e - 52) := by
  have c53 : (((2 : Int) ^ 53 : Int) : ℚ) = (2 : ℚ) ^ (53 : Int) := by norm_cast
  have c52 : (((2 : Int) ^ 52 : Int) : ℚ) = (2 : ℚ) ^ (52 : Int) := by norm_cast
  rw [c53, c52, ← zpow_add₀ (by norm_num), ← zpow_add₀ (by norm_num)]
  constructor
  · congr 1
    ring
  · congr 1
    ring

/-- The rounded value stays in the closed binade of the value. -/
theorem roundMagnitude_binade (q : ℚ) (e : Int) (hq : 0 < q) (he : -1022 ≤ e)
    (h1 : 2 ^ e ≤ q ∨ e = -1022) (h2 : q < 2 ^ (e + 1)) :
    roundMagnitude q ≤ 2 ^ (e + 1) ∧ (2 ^ e ≤ q → 2 ^ e ≤ roundMagnitude q) := by
  have hu := two_zpow_pos (e - 52)
  rw [roundMagnitude_eq q e hq he h1 h2]
  constructor
  · have hle : q / 2 ^ (e - 52) ≤ ((2 ^ 53 : Int) : ℚ) := by
      rw [div_le_iff₀ hu, ← (zpow_split e).1]
      exact h2.le
    have hr := roundHalfEven_mono hle
    rw [roundHalfEven_intCast] at hr
    have hr2 : ((roundHalfEven (q / 2 ^ (e - 52)) : Int) : ℚ) ≤ ((2 ^ 53 : Int) : ℚ) :=
      Int.cast_le.mpr hr
    rw [(zpow_split e).1]
    exact mul_le_mul_of_nonneg_right hr2 hu.le
  · intro hge
    have hle : (((2 ^ 52 : Int)) : ℚ) ≤ q / 2 ^ (e - 52) := by
      rw [le_div_iff₀ hu, ← (zpow_split e).2]
      exact hge
    have hr := roundHalfEven_mono hle
    rw [roundHalfEven_intCast] at hr
    have hr2 : ((2 ^ 52 : Int) : ℚ) ≤ ((roundHalfEven (q / 2 ^ (e - 52)) : Int) : ℚ) :=
      Int.cast_le.mpr hr
    rw [(zpow_split e).2]
    exact mul_le_mul_of_nonneg_right hr2 hu.le

theorem roundMagnitude_mono {q r : ℚ} (hq : 0 ≤ q) (h : q ≤ r) :
    roundMagnitude q ≤ roundMagnitude r := by
  rcases eq_or_lt_of_le hq with h0 | h0
  · rw [← h0, roundMagnitude_zero]
    exact roundMagnitude_nonneg r (le_trans hq h)
  · have hr : 0 < r := lt_of_lt_of_le h0 h
    obtain ⟨e, he, h1, h2, hmax⟩ := exists_exponent q h0
    obtain ⟨f, hf, g1, g2, gmax⟩ := exists_exponent r hr
    have hef : e ≤ f := by
      rw [← hmax, ← gmax]
      exact max_le_max (Int.log_mono_right h0 h) (le_refl _)
    rcases eq_or_lt_of_le hef with heq | hlt
    · subst heq
      rw [roundMagnitude_eq q e h0 he h1 h2, roundMagnitude_eq r e hr he g1 g2]
      apply mul_le_mul_of_nonneg_right _ (two_zpow_pos _).le
      exact_mod_cast roundHalfEven_mono
        (div_le_div_of_nonneg_right h (two_zpow_pos (e - 52)).le)
    · have g1' : (2 : ℚ) ^ f ≤ r := by
        rcases g1 with g1 | g1
        · exact g1
        · omega
      have a := (roundMagnitude_binade q e h0 he h1 h2).1
      have b := (roundMagnitude_binade r f hr hf g1 g2).2 g1'
      have c : (2 : ℚ) ^ (e + 1) ≤ 2 ^ f := zpow_le_zpow_right₀ (by norm_num) (by omega)
      linarith

theorem roundMagnitude_error (q : ℚ) (e : Int) (hq : 0 ≤ q) (he : -1022 ≤ e)
    (h2 : q < 2 ^ (e + 1)) : |roundMagnitude q - q| ≤ 2 ^ (e - 53) := by
  rcases eq_or_lt_of_le hq with h0 | h0
  · rw [← h0, roundMagnitude_zero]
    simpa using (two_zpow_pos (e - 53)).le
  · obtain ⟨f, hf, g1, g2, gmax⟩ := exists_exponent q h0
    have hfe : f ≤ e := by
      rcases g1 with g1 | g1
      · have : (2 : ℚ) ^ f < 2 ^ (e + 1) := lt_of_le_of_lt g1 h2
        have := (zpow_lt_zpow_iff_right₀ (by norm_num : (1 : ℚ) < 2)).mp this
        omega
      · omega
    have hu := two_zpow_pos (f - 52)
    rw [roundMagnitude_eq q f h0 hf g1 g2]
    have hb := (roundHalfEven_bounds (q / 2 ^ (f - 52))).2
    have e1 : (roundHalfEven (q / 2 ^ (f - 52)) : ℚ) * 2 ^ (f - 52) - q
        = ((roundHalfEven (q / 2 ^ (f - 52)) : ℚ) - q / 2 ^ (f - 52)) * 2 ^ (f - 52) := by
      field_simp
    rw [e1, abs_mul, abs_of_pos hu]
    have e2 : (2 : ℚ) ^ (f - 53) = 1 / 2 * 2 ^ (f - 52) := by
      rw [show f - 52 = (f - 53) + 1 by ring, zpow_add_one₀ (by norm_num)]
      ring
    have e3 : (2 : ℚ) ^ (f - 53) ≤ 2 ^ (e - 53) := zpow_le_zpow_right₀ (by norm_num) (by omega)
    calc |(roundHalfEven (q / 2 ^ (f - 52)) : ℚ) - q / 2 ^ (f - 52)| * 2 ^ (f - 52)
        ≤ 1 / 2 * 2 ^ (f - 52) := mul_le_mul_of_nonneg_right hb hu.le
      _ = 2 ^ (f - 53) := e2.symm
      _ ≤ 2 ^ (e - 53) := e3

/-- A positive multiple of a power of two with at most 53 significant bits is a
double. -/
theorem roundMagnitude_dyadic (n : Nat) (k : Int) (hn : n < 2 ^ 53) (hk : -1074 ≤ k) :
    roundMagnitude ((n : ℚ) * 2 ^ k) = (n : ℚ) * 2 ^ k := by
  rcases Nat.eq_zero_or_pos n with h0 | h0
  · rw [h0]
    simpa using roundMagnitude_zero
  · have hq : (0 : ℚ) < (n : ℚ) * 2 ^ k := mul_pos (by exact_mod_cast h0) (two_zpow_pos k)
    obtain ⟨e, he, h1, h2, hmax⟩ := exists_exponent _ hq
    have ht : 0 ≤ k - e + 52 := by
      rcases h1 with h1 | h1
      · have hlt : (n : ℚ) * 2 ^ k < 2 ^ (53 + k) := by
          rw [zpow_add₀ (by norm_num : (2 : ℚ) ≠ 0)]
          apply mul_lt_mul_of_pos_right _ (two_zpow_pos k)
          exact_mod_cast hn
        have : (2 : ℚ) ^ e < 2 ^ (53 + k) := lt_of_le_of_lt h1 hlt
        have := (zpow_lt_zpow_iff_right₀ (by norm_num : (1 : ℚ) < 2)).mp this
        omega
      · omega
    rw [roundMagnitude_eq _ e hq he h1 h2]
    have hdiv : (n : ℚ) * 2 ^ k / 2 ^ (e - 52) = (((n * 2 ^ (k - e + 52).toNat : Nat) : Int) : ℚ) := by
      rw [div_eq_iff (two_zpow_pos _).ne']
      push_cast
      rw [mul_assoc, ← zpow_natCast, ← zpow_add₀ (by norm_num : (2 : ℚ) ≠ 0), Int.toNat_of_nonneg ht]
      congr 2
      ring
    rw [hdiv, roundHalfEven_intCast, ← hdiv, div_mul_cancel₀ _ (two_zpow_pos _).ne']

theorem roundDouble_neg (q : ℚ) : roundDouble (-q) = -roundDouble q := by
  unfold roundDouble
  rcases lt_trichotomy q 0 with h | h | h
  · rw [if_pos (by linarith), if_neg (by linarith), neg_neg]
  · rw [h]
    simp [roundMagnitude_zero]
  · rw [if_neg (by linarith), if_pos h.le, neg_neg]

theorem roundDouble_mono {q r : ℚ} (h : q ≤ r) : roundDouble q ≤ roundDouble r := by
  unfold roundDouble
  by_cases hq : 0 ≤ q
  · rw [if_pos hq, if_pos (le_trans hq h)]
    exact roundMagnitude_mono hq h
  · rw [if_neg hq]
    have hq' : q < 0 := not_le.mp hq
    by_cases hr : 0 ≤ r
    · rw [if_pos hr]
      have := roundMagnitude_nonneg (-q) (by linarith)
      have := roundMagnitude_nonneg r hr
      linarith
    · rw [if_neg hr]
      have hr' : r < 0 := not_le.mp hr
      have := roundMagnitude_mono (q := -r) (r := -q) (by linarith) (by linarith)
      linarith

/-- An integer multiple of a power of two with at most 53 significant bits is a
double: an operation with this exact result is exact. -/
theorem roundDouble_dyadic (n : Int) (k : Int) (hn : |n| < 2 ^ 53) (hk : -1074 ≤ k) :
    roundDouble ((n : ℚ) * 2 ^ k) = (n : ℚ) * 2 ^ k := by
  have key : ∀ m : Int, 0 ≤ m → |m| < 2 ^ 53 →
      roundDouble ((m : ℚ) * 2 ^ k) = (m : ℚ) * 2 ^ k := by
    intro m hm0 hm
    have hq : (0 : ℚ) ≤ (m : ℚ) * 2 ^ k :=
      mul_nonneg (by exact_mod_cast hm0) (two_zpow_pos k).le
    unfold roundDouble
    rw [if_pos hq]
    have e := roundMagnitude_dyadic m.toNat k (by
      have := abs_lt.mp hm
      omega) hk
    have e2 : ((m.toNat : Nat) : ℚ) = (m : ℚ) := by
      have := Int.toNat_of_nonneg hm0
      exact_mod_cast this
    rw [e2] at e
    exact e
  by_cases h0 : 0 ≤ n
  · exact key n h0 hn
  · have h := key (-n) (by omega) (by rwa [abs_neg])
    have e : ((-n : Int) : ℚ) * 2 ^ k = -((n : ℚ) * 2 ^ k) := by
      push_cast
      ring
    rw [e, roundDouble_neg] at h
    linarith

theorem roundDouble_error (q : ℚ) (e : Int) (he : -1022 ≤ e) (h2 : |q| < 2 ^ (e + 1)) :
    |roundDouble q - q| ≤ 2 ^ (e - 53) := by
  unfold roundDouble
  by_cases hq : 0 ≤ q
  · rw [if_pos hq]
    exact roundMagnitude_error q e hq he (by rwa [abs_of_nonneg hq] at h2)
  · rw [if_neg hq]
    have hq' : q < 0 := not_le.mp hq
    have h := roundMagnitude_error (-q) e (by linarith) he (by rwa [abs_of_neg hq'] at h2)
    rw [show -roundMagnitude (-q) - q = -(roundMagnitude (-q) - -q) by ring, abs_neg]
    exact h

theorem leBytes_length (n v : Nat) : (leBytes n v).length = n := by
  induction n generalizing v with
  | zero => rfl
  | succ n ih => simp [leBytes, ih]

theorem leValue_leBytes (n v : Nat) : leValue (leBytes n v) = v % 256 ^ n := by
  induction n generalizing v with
  | zero => simp [leBytes, leValue, Nat.mod_one]
  | succ n ih =>
    simp only [leBytes, leValue, ih]
    rw [pow_succ, Nat.mul_comm (256 ^ n) 256, Nat.mod_mul]

theorem intBytes_length (n : Nat) (v : Int) : (intBytes n v).length = n := by
  simp [intBytes, leBytes_length]

theorem strLt_irrefl (a : Name) : strLt a a = false := by
  induction a with
  | nil => rfl
  | cons x xs ih => simp [strLt, ih]

theorem strLt_trans : ∀ (a b c : Name), strLt a b = true → strLt b c = true → strLt a c = true
  | [], [], _, h, _ => by simp [strLt] at h
  | [], _ :: _, [], _, h => by simp [strLt] at h
  | [], _ :: _, _ :: _, _, _ => by simp [strLt]
  | _ :: _, [], _, h, _ => by simp [strLt] at h
  | _ :: _, _ :: _, [], _, h => by simp [strLt] at h
  | x :: xs, y :: ys, z :: zs, h1, h2 => by
    simp only [strLt, Bool.or_eq_true, Bool.and_eq_true, decide_eq_true_eq] at h1 h2 ⊢
    rcases h1 with h1 | ⟨h1, h1r⟩
    · rcases h2 with h2 | ⟨h2, _⟩
      · left; omega
      · left; omega
    · rcases h2 with h2 | ⟨h2, h2r⟩
      · left; omega
      · right; exact ⟨by omega, strLt_trans xs ys zs h1r h2r⟩

theorem strLt_total : ∀ (a b : Name), strLt a b = false → strLt b a = false → a = b
  | [], [], _, _ => rfl
  | [], _ :: _, h, _ => by simp [strLt] at h
  | _ :: _, [], _, h => by simp [strLt] at h
  | x :: xs, y :: ys, h1, h2 => by
    simp only [strLt, Bool.or_eq_false_iff, Bool.and_eq_false_iff, decide_eq_false_iff_not] at h1 h2
    have hxy : x = y := by omega
    subst hxy
    have e1 : strLt xs ys = false := by simpa using h1.2
    have e2 : strLt ys xs = false := by simpa using h2.2
    rw [strLt_total xs ys e1 e2]

theorem strLt_ne {a b : Name} (h : strLt a b = true) : a ≠ b := by
  intro e
  subst e
  rw [strLt_irrefl] at h
  exact Bool.false_ne_true h


theorem mem_setInsert (x y : Name) (s : List Name) : y ∈ setInsert x s ↔ y = x ∨ y ∈ s := by
  induction s with
  | nil => simp [setInsert]
  | cons z zs ih =>
    unfold setInsert
    by_cases h1 : strLt x z = true
    · simp [h1]
    · by_cases h2 : strLt z x = true
      · simp only [h1, h2, if_true, if_false, List.mem_cons, ih, Bool.false_eq_true]
        tauto
      · have e : x = z := strLt_total x z (by simpa using h1) (by simpa using h2)
        subst e
        simp [h1]

theorem ascending_setInsert (x : Name) (s : List Name) (hs : Ascending s) :
    Ascending (setInsert x s) := by
  induction s with
  | nil => simp [setInsert, Ascending]
  | cons z zs ih =>
    unfold Ascending at hs ih ⊢
    rw [List.pairwise_cons] at hs
    unfold setInsert
    by_cases h1 : strLt x z = true
    · simp only [h1, if_true]
      rw [List.pairwise_cons]
      refine ⟨?_, List.pairwise_cons.mpr hs⟩
      intro w hw
      rcases List.mem_cons.mp hw with e | hw
      · rw [e]; exact h1
      · exact strLt_trans x z w h1 (hs.1 w hw)
    · by_cases h2 : strLt z x = true
      · simp only [h1, h2, if_true, if_false, Bool.false_eq_true]
        rw [List.pairwise_cons]
        refine ⟨?_, ih hs.2⟩
        intro w hw
        rcases (mem_setInsert x w zs).mp hw with e | hw
        · rw [e]; exact h2
        · exact hs.1 w hw
      · simp only [h1, h2, if_false, Bool.false_eq_true]
        exact List.pairwise_cons.mpr hs

theorem lcpLen_le_left : ∀ (a b : Name), lcpLen a b ≤ a.length
  | [], _ => by simp [lcpLen]
  | _ :: _, [] => by simp [lcpLen]
  | x :: xs, y :: ys => by
    unfold lcpLen
    split
    · have := lcpLen_le_left xs ys
      simp only [List.length_cons]; omega
    · omega

theorem take_lcpLen : ∀ (a b : Name), b.take (lcpLen a b) = a.take (lcpLen a b)
  | [], _ => by simp [lcpLen]
  | _ :: _, [] => by simp [lcpLen]
  | x :: xs, y :: ys => by
    unfold lcpLen
    split
    · rename_i h
      subst h
      simp [take_lcpLen xs ys]
    · simp

theorem charAt_append_cons (pre : Name) (a : Nat) (as : Name) :
    charAt (pre ++ a :: as) pre.length = some a := by
  have h : pre.length < (pre ++ a :: as).length := by simp
  rw [charAt, if_pos h, List.get?_eq_getElem?, List.getElem?_append_right (Nat.le_refl _)]
  simp

theorem charAt_append_nil (pre : Name) : charAt (pre ++ []) pre.length = some 0 := by
  simp [charAt]

theorem commonLengthLoop_eq : ∀ (n p pre : Name) (fuel : Nat),
    (∀ b ∈ n, b ≠ 0) → (∀ b ∈ p, b ≠ 0) → n ≠ p →
    pre.length + lcpLen n p < 256 → lcpLen n p < fuel →
    commonLengthLoop (pre ++ n) (pre ++ p) fuel pre.length = some (pre.length + lcpLen n p)
  | [], [], _, _, _, _, hne, _, _ => absurd rfl hne
  | [], b :: bs, pre, fuel, _, hp, _, _, hf => by
    obtain ⟨fuel, rfl⟩ : ∃ k, fuel = k + 1 := ⟨fuel - 1, by omega⟩
    have hb : b ≠ 0 := hp b (List.mem_cons_self _ _)
    simp only [commonLengthLoop, charAt_append_nil, charAt_append_cons, lcpLen]
    rw [if_neg (fun e => hb e.symm)]
    rfl
  | a :: as, [], pre, fuel, hn, _, _, _, hf => by
    obtain ⟨fuel, rfl⟩ : ∃ k, fuel = k + 1 := ⟨fuel - 1, by omega⟩
    have ha : a ≠ 0 := hn a (List.mem_cons_self _ _)
    simp only [commonLengthLoop, charAt_append_nil, charAt_append_cons, lcpLen]
    rw [if_neg ha]
    rfl
  | a :: as, b :: bs, pre, fuel, hn, hp, hne, hlen, hf => by
    obtain ⟨fuel, rfl⟩ : ∃ k, fuel = k + 1 := ⟨fuel - 1, by omega⟩
    simp only [commonLengthLoop, charAt_append_cons]
    by_cases hab : a = b
    · subst hab
      have hl : lcpLen (a :: as) (a :: bs) = lcpLen as bs + 1 := by simp [lcpLen]
      rw [hl] at hlen hf ⊢
      rw [if_pos rfl, Nat.mod_eq_of_lt (by omega)]
      have ih := commonLengthLoop_eq as bs (pre ++ [a]) fuel
        (fun x hx => hn x (List.mem_cons_of_mem _ hx))
        (fun x hx => hp x (List.mem_cons_of_mem _ hx))
        (fun e => hne (by rw [e]))
        (by simp only [List.length_append, List.length_singleton]; omega) (by omega)
      simp only [List.append_assoc, List.singleton_append, List.length_append,
        List.length_singleton] at ih
      rw [ih]
      congr 1
      omega
    · have hl : lcpLen (a :: as) (b :: bs) = 0 := by simp [lcpLen, hab]
      rw [if_neg hab, hl]
      rfl

theorem commonLength_eq (name prev : Name) (hn : ValidName name) (hp : ValidName prev)
    (hne : name ≠ prev) : commonLengthLoop name prev 256 0 = some (lcpLen name prev) := by
  have hle := lcpLen_le_left name prev
  have := commonLengthLoop_eq name prev [] 256 hn.1 hp.1 hne
    (by have := hn.2; simp only [List.length_nil]; omega) (by have := hn.2; omega)
  simpa using this

theorem exportNamesLoop_eq : ∀ (names : List Name) (prev : Name) (f : List Nat),
    ValidName prev → (∀ n ∈ names, ValidName n) → List.Chain (fun a b => a ≠ b) prev names →
    exportNamesLoop names prev f = some (f ++ frontCode prev names)
  | [], _, f, _, _, _ => by simp [exportNamesLoop, frontCode]
  | name :: rest, prev, f, hp, hv, hc => by
    rw [List.chain_cons] at hc
    have hn : ValidName name := hv name (List.mem_cons_self _ _)
    have hle := lcpLen_le_left name prev
    have hlen := hn.2
    unfold exportNamesLoop
    rw [commonLength_eq name prev hn hp (fun e => hc.1 e.symm)]
    simp only
    rw [exportNamesLoop_eq rest name _ hn (fun n h => hv n (List.mem_cons_of_mem _ h)) hc.2]
    have h1 : (name.length - lcpLen name prev) % 256 = name.length - lcpLen name prev :=
      Nat.mod_eq_of_lt (by omega)
    have h2 : (name.drop (lcpLen name prev)).take (name.length - lcpLen name prev)
        = name.drop (lcpLen name prev) := by
      apply List.take_of_length_le
      simp
    rw [h1, h2]
    simp [frontCode]

theorem decodeEntries_frontCode : ∀ (names : List Name) (prev : Name) (tail : List Nat),
    decodeEntries names.length prev (frontCode prev names ++ tail) = some (names, tail)
  | [], _, _ => by simp [decodeEntries, frontCode]
  | name :: rest, prev, tail => by
    have hle := lcpLen_le_left name prev
    have hlen : (name.drop (lcpLen name prev)).length = name.length - lcpLen name prev := by simp
    have e : frontCode prev (name :: rest) ++ tail
        = lcpLen name prev :: (name.length - lcpLen name prev) ::
          (name.drop (lcpLen name prev) ++ (frontCode name rest ++ tail)) := by
      simp [frontCode]
    rw [e, List.length_cons, decodeEntries]
    rw [if_pos (by simp only [List.length_append]; omega)]
    rw [List.take_left' hlen, List.drop_left' hlen, take_lcpLen name prev, List.take_append_drop]
    simp only
    rw [decodeEntries_frontCode rest name tail]

theorem ascending_chain (names : List Name) (h : Ascending names)
    (hne : ∀ n ∈ names, n ≠ []) : List.Chain (fun a b => a ≠ b) [] names := by
  cases names with
  | nil => exact List.Chain.nil
  | cons x xs =>
    rw [List.chain_cons]
    refine ⟨fun e => hne x (List.mem_cons_self _ _) e.symm, ?_⟩
    exact List.Pairwise.chain (List.Pairwise.imp (fun hab => strLt_ne hab) h)

theorem validName_nil : ValidName [] := by
  constructor
  · intro b hb; cases hb
  · simp

theorem exportNames_eq (f : List Nat) (names : List Name) (k : Nat) (h : Ascending names)
    (hv : ∀ n ∈ names, n ≠ [] ∧ ValidName n) :
    exportNames f names k = some (f ++ dictionary k names) := by
  unfold exportNames
  simp only
  rw [exportNamesLoop_eq names [] _ validName_nil (fun n hn => (hv n hn).2)
    (ascending_chain names h (fun n hn => (hv n hn).1)), dictionary, List.append_assoc]

theorem decodeNames_dictionary (names : List Name) (k : Nat) (tail : List Nat)
    (hk : names.length < 256 ^ k) (h32 : names.length < 2 ^ 32) :
    decodeNames k (dictionary k names ++ tail) = some (names, tail) := by
  have hl := leBytes_length k (names.length % 2 ^ 32)
  unfold decodeNames dictionary
  rw [if_pos (by simp only [List.length_append]; omega)]
  rw [List.append_assoc, List.take_left' hl, List.drop_left' hl, leValue_leBytes,
    Nat.mod_eq_of_lt h32, Nat.mod_eq_of_lt hk]
  exact decodeEntries_frontCode names [] tail

/-- Claim C1 (front-coding round trip).  For every `std::set` of names (its
elements in ascending order) in which each name is non-empty, has no NUL byte
and is at most 255 bytes long, and whose size fits the count width `k` (1 or 2
bytes), `exportNames` appends a dictionary to the stream, and reading that
dictionary back (the count, then each entry from the first bytes of the name
decoded before it and the bytes that follow) returns exactly the names of the
set, in ascending order, and consumes exactly the dictionary. -/
theorem exportNames_roundtrip (f tail : List Nat) (names : List Name) (k : Nat)
    (hasc : Ascending names)
    (hvalid : ∀ n ∈ names, n ≠ [] ∧ (∀ b ∈ n, b ≠ 0) ∧ n.length ≤ 255)
    (hk : (k = 1 ∨ k = 2) ∧ names.length < 256 ^ k) :
    ∃ dict, exportNames f names k = some (f ++ dict) ∧
      decodeNames k (dict ++ tail) = some (names, tail) := by
  refine ⟨dictionary k names, ?_, ?_⟩
  · rw [exportNames_eq f names k hasc (fun n hn => ⟨(hvalid n hn).1, (hvalid n hn).2⟩)]
  · have h32 : names.length < 2 ^ 32 := by
      rcases hk with ⟨rfl | rfl, h⟩ <;> omega
    exact decodeNames_dictionary names k tail hk.2 h32

/-- Witness of claim C1: the set `AA`, `AB`, `ABC` written with a 1-byte count and
read back in front of one more byte. -/
theorem exportNames_roundtrip_witness :
    ∃ dict, exportNames [] [ascii "AA", ascii "AB", ascii "ABC"] 1 = some ([] ++ dict) ∧
      decodeNames 1 (dict ++ [7]) = some ([ascii "AA", ascii "AB", ascii "ABC"], [7]) :=
  exportNames_roundtrip [] [7] [ascii "AA", ascii "AB", ascii "ABC"] 1
    (by decide) (by decide) (by decide)

theorem ascending_foldl_insert {α : Type} (key : α → Name) (l : List α) (s : List Name)
    (hs : Ascending s) : Ascending (l.foldl (fun names p => setInsert (key p) names) s) := by
  induction l generalizing s with
  | nil => exact hs
  | cons p ps ih => exact ih _ (ascending_setInsert (key p) s hs)

theorem mem_foldl_insert {α : Type} (key : α → Name) (l : List α) (s : List Name) (y : Name) :
    y ∈ l.foldl (fun names p => setInsert (key p) names) s ↔ y ∈ s ∨ ∃ p ∈ l, key p = y := by
  induction l generalizing s with
  | nil => simp
  | cons p ps ih =>
    rw [List.foldl_cons, ih, mem_setInsert]
    constructor
    · rintro ((h | h) | ⟨q, hq, e⟩)
      · exact Or.inr ⟨p, List.mem_cons_self _ _, h.symm⟩
      · exact Or.inl h
      · exact Or.inr ⟨q, List.mem_cons_of_mem _ hq, e⟩
    · rintro (h | ⟨q, hq, e⟩)
      · exact Or.inl (Or.inr h)
      · rcases List.mem_cons.mp hq with rfl | hq
        · exact Or.inl (Or.inl e.symm)
        · exact Or.inr ⟨q, hq, e⟩

theorem foldl_insertPolygonNames (l : List Polygon) (names : Fin 3 → List Name) (i : Fin 3) :
    l.foldl insertPolygonNames names i
      = l.foldl (fun acc p => setInsert (p.names i) acc) (names i) := by
  induction l generalizing names with
  | nil => rfl
  | cons p ps ih => rw [List.foldl_cons, List.foldl_cons, ih]; rfl

theorem ascending_nodup (names : List Name) (h : Ascending names) : names.Nodup :=
  List.Pairwise.imp (fun hab => strLt_ne hab) h

theorem assignIndex_not_mem : ∀ (l : List Name) (i : Nat) (m : Name → Nat) (q : Name),
    q ∉ l → assignIndex l i m q = m q
  | [], _, _, _, _ => rfl
  | name :: rest, i, m, q, h => by
    rw [List.mem_cons, not_or] at h
    rw [assignIndex, assignIndex_not_mem rest _ _ q h.2, mapSet, if_neg h.1]

theorem assignIndex_mem : ∀ (l : List Name) (i : Nat) (m : Name → Nat) (q : Name),
    l.Nodup → i + l.length ≤ 2 ^ 32 → q ∈ l → assignIndex l i m q = i + position q l
  | [], _, _, _, _, _, h => by cases h
  | name :: rest, i, m, q, hnd, hlen, h => by
    rw [List.nodup_cons] at hnd
    rw [assignIndex]
    by_cases e : q = name
    · subst e
      rw [assignIndex_not_mem rest _ _ q hnd.1]
      simp [mapSet, position]
    · have hq : q ∈ rest := by
        rcases List.mem_cons.mp h with h | h
        · exact absurd h e
        · exact h
      have hpos : 0 < rest.length := List.length_pos_of_mem hq
      simp only [List.length_cons] at hlen
      rw [Nat.mod_eq_of_lt (by omega),
        assignIndex_mem rest (i + 1) _ q hnd.2 (by omega) hq, position,
        if_neg (fun e2 => e e2.symm)]
      omega

theorem position_lt (q : Name) (l : List Name) (h : q ∈ l) : position q l < l.length := by
  induction l with
  | nil => cases h
  | cons x xs ih =>
    unfold position
    split
    · simp
    · rename_i hx
      rcases List.mem_cons.mp h with e | h
      · exact absurd e.symm hx
      · have := ih h
        simp only [List.length_cons]; omega

theorem get_position (q : Name) (l : List Name) (h : q ∈ l) : l.get? (position q l) = some q := by
  induction l with
  | nil => cases h
  | cons x xs ih =>
    unfold position
    split
    · rename_i hx; simp [hx]
    · rename_i hx
      rcases List.mem_cons.mp h with e | h
      · exact absurd e.symm hx
      · simpa using ih h

/-- In a set of at most `256 ^ w` names the index assigned to a name of the set
is its position, and it survives being written on `w` bytes. -/
theorem index_written (names : List Name) (m : Name → Nat) (w : Nat) (q : Name)
    (hasc : Ascending names) (hw : w ≤ 4) (hlen : names.length ≤ 256 ^ w) (hq : q ∈ names) :
    leValue (leBytes w (assignIndex names 0 m q)) = position q names := by
  have h32 : (256 : Nat) ^ w ≤ 2 ^ 32 := by
    calc (256 : Nat) ^ w ≤ 256 ^ 4 := Nat.pow_le_pow_right (by norm_num) hw
      _ = 2 ^ 32 := by norm_num
  rw [leValue_leBytes, assignIndex_mem names 0 m q (ascending_nodup names hasc) (by omega) hq,
    Nat.zero_add]
  exact Nat.mod_eq_of_lt (lt_of_lt_of_le (position_lt q names hq) hlen)

theorem foldl_insert_map {α : Type} (key : α → Name) (l : List α) (s : List Name) :
    l.foldl (fun names p => setInsert (key p) names) s
      = (l.map key).foldl (fun set name => setInsert name set) s := by
  rw [List.foldl_map]

theorem ascending_nameSet (names : List Name) : Ascending (nameSet names) :=
  ascending_foldl_insert (fun n => n) names [] List.Pairwise.nil

theorem mem_nameSet (names : List Name) (y : Name) : y ∈ nameSet names ↔ y ∈ names := by
  unfold nameSet
  rw [mem_foldl_insert (fun n => n) names [] y]
  simp

theorem length_setInsert_le (x : Name) (s : List Name) :
    (setInsert x s).length ≤ s.length + 1 := by
  induction s with
  | nil => simp [setInsert]
  | cons y ys ih =>
    unfold setInsert
    split
    · simp
    · split
      · simp only [List.length_cons]; omega
      · simp

theorem length_foldl_insert_le (names : List Name) (s : List Name) :
    (names.foldl (fun set name => setInsert name set) s).length ≤ s.length + names.length := by
  induction names generalizing s with
  | nil => simp
  | cons x xs ih =>
    have h1 := ih (setInsert x s)
    have h2 := length_setInsert_le x s
    simp only [List.foldl_cons, List.length_cons]
    omega

theorem length_nameSet_le (names : List Name) : (nameSet names).length ≤ names.length := by
  have := length_foldl_insert_le names []
  simpa [nameSet] using this

theorem foldl_writePoint (idx : Name → Nat) (pts : List Point) (f : List Nat) :
    pts.foldl (writePoint idx) f
      = f ++ pts.flatMap (fun p =>
          intBytes 3 p.xy.ix ++ intBytes 3 p.xy.iy ++ leBytes 2 (idx p.name)) := by
  induction pts generalizing f with
  | nil => simp
  | cons p ps ih =>
    rw [List.foldl_cons, ih, List.flatMap_cons, writePoint]
    simp [List.append_assoc]

theorem exportPoints_fst (shp : SHP) :
    (exportPoints {} shp).1.pointNames = nameSet (shp.points.map Point.name) ∧
    (exportPoints {} shp).1.pointIndex
      = assignIndex (nameSet (shp.points.map Point.name)) 0 (fun _ => 0) := by
  have e := foldl_insert_map Point.name shp.points []
  unfold nameSet
  rw [← e]
  unfold exportPoints
  dsimp only
  cases exportNames [] (shp.points.foldl (fun names p => setInsert p.name names) []) 2
    <;> exact ⟨rfl, rfl⟩

theorem exportPoints_snd (shp : SHP) :
    (exportPoints {} shp).2
      = (exportNames [] (nameSet (shp.points.map Point.name)) 2).map (fun dict =>
          dict ++ leBytes 4 (shp.points.length % 2 ^ 32) ++ shp.points.flatMap (fun p =>
            intBytes 3 p.xy.ix ++ intBytes 3 p.xy.iy
              ++ leBytes 2 (assignIndex (nameSet (shp.points.map Point.name)) 0 (fun _ => 0)
                  p.name))) := by
  have e := foldl_insert_map Point.name shp.points []
  unfold nameSet
  rw [← e]
  unfold exportPoints
  dsimp only
  cases exportNames [] (shp.points.foldl (fun names p => setInsert p.name names) []) 2 with
  | none => rfl
  | some f => simp only [foldl_writePoint, Option.map_some']

theorem leBytes_two (v : Nat) : leBytes 2 v = [v % 256, v / 256 % 256] := rfl

theorem leBytes_four (v : Nat) :
    leBytes 4 v = [v % 256, v / 256 % 256, v / 65536 % 256, v / 16777216 % 256] := by
  simp only [leBytes, Nat.div_div_eq_div_mul]

theorem intBytes_three (v : Int) :
    intBytes 3 v = [(v % 256).toNat, (v / 256 % 256).toNat, (v / 65536 % 256).toNat] := by
  have h0 : (0 : Int) ≤ v % 2 ^ 32 := Int.emod_nonneg _ (by norm_num)
  obtain ⟨k, hk⟩ := Int.eq_ofNat_of_zero_le h0
  simp only [intBytes, leBytes, hk, Int.toNat_ofNat, Nat.div_div_eq_div_mul]
  norm_num only
  have e1 : v % 256 = ((k % 256 : Nat) : Int) := by
    rw [Int.natCast_mod, ← hk]; exact (Int.emod_emod_of_dvd v (by norm_num)).symm
  have e2 : v / 256 % 256 = ((k / 256 % 256 : Nat) : Int) := by
    rw [Int.natCast_mod, Int.natCast_div, ← hk]; omega
  have e3 : v / 65536 % 256 = ((k / 65536 % 256 : Nat) : Int) := by
    rw [Int.natCast_mod, Int.natCast_div, ← hk]; omega
  rw [e1, e2, e3]
  simp only [Int.toNat_ofNat]

theorem intBytes_three_low24 (v : Int) : intBytes 3 v = low24 v := intBytes_three v

theorem length_flatMap_const {α : Type} (l : List α) (f : α → List Nat) (k : Nat)
    (h : ∀ a ∈ l, (f a).length = k) : (l.flatMap f).length = k * l.length := by
  induction l with
  | nil => simp
  | cons a as ih =>
    rw [List.flatMap_cons, List.length_append, h a (List.mem_cons_self _ _),
      ih (fun b hb => h b (List.mem_cons_of_mem _ hb)), List.length_cons]
    ring

theorem flatMap_congr_mem {α : Type} (l : List α) (f g : α → List Nat)
    (h : ∀ a ∈ l, f a = g a) : l.flatMap f = l.flatMap g := by
  induction l with
  | nil => rfl
  | cons a as ih =>
    rw [List.flatMap_cons, List.flatMap_cons, h a (List.mem_cons_self _ _),
      ih (fun b hb => h b (List.mem_cons_of_mem _ hb))]

theorem pointIndex_eq_position (shp : SHP) (hn : shp.points.length ≤ 2 ^ 32) (p : Point)
    (hp : p ∈ shp.points) :
    assignIndex (nameSet (shp.points.map Point.name)) 0 (fun _ => 0) p.name
      = position p.name (nameSet (shp.points.map Point.name)) := by
  have hlen := length_nameSet_le (shp.points.map Point.name)
  rw [List.length_map] at hlen
  rw [assignIndex_mem _ 0 _ p.name (ascending_nodup _ (ascending_nameSet _)) (by omega)
    ((mem_nameSet _ _).mpr (List.mem_map_of_mem _ hp)), Nat.zero_add]

/-- Claim C3 (points file layout).  For every list of `n < 2 ^ 32` points the
bytes of the file written by `exportPoints` are the dictionary that
`exportNames` writes for the point names with a 2-byte count, then `n` as 4
little-endian bytes, then for each point in input order the low 3 bytes of
`ix`, the low 3 bytes of `iy` and the 2 low bytes of the position of its name
in the ascending set of names, with nothing in between; the file is
`dictionary length + 4 + 8 n` bytes long.  When every name is non-empty, has no
NUL byte and is at most 255 bytes long, the dictionary is the number of names on
2 little-endian bytes followed by the front-coded entries of the ascending set
of names. -/
theorem exportPoints_file_layout (shp : SHP) (hn : shp.points.length < 2 ^ 32) :
    (∀ dict, exportNames [] (nameSet (shp.points.map Point.name)) 2 = some dict →
      (exportPoints {} shp).2
        = some (dict
            ++ [shp.points.length % 256, shp.points.length / 256 % 256,
                shp.points.length / 65536 % 256, shp.points.length / 16777216 % 256]
            ++ shp.points.flatMap (fun p =>
                [(p.xy.ix % 256).toNat, (p.xy.ix / 256 % 256).toNat, (p.xy.ix / 65536 % 256).toNat]
                ++ [(p.xy.iy % 256).toNat, (p.xy.iy / 256 % 256).toNat,
                    (p.xy.iy / 65536 % 256).toNat]
                ++ [position p.name (nameSet (shp.points.map Point.name)) % 256,
                    position p.name (nameSet (shp.points.map Point.name)) / 256 % 256]))
      ∧ ∀ out, (exportPoints {} shp).2 = some out →
          out.length = dict.length + 4 + 8 * shp.points.length) ∧
    ((∀ p ∈ shp.points, p.name ≠ [] ∧ (∀ b ∈ p.name, b ≠ 0) ∧ p.name.length ≤ 255) →
      exportNames [] (nameSet (shp.points.map Point.name)) 2
        = some ([(nameSet (shp.points.map Point.name)).length % 256,
              (nameSet (shp.points.map Point.name)).length / 256 % 256]
            ++ frontCode [] (nameSet (shp.points.map Point.name))) ∧
      (exportPoints {} shp).2
        = some ([(nameSet (shp.points.map Point.name)).length % 256,
              (nameSet (shp.points.map Point.name)).length / 256 % 256]
            ++ frontCode [] (nameSet (shp.points.map Point.name))
            ++ [shp.points.length % 256, shp.points.length / 256 % 256,
                shp.points.length / 65536 % 256, shp.points.length / 16777216 % 256]
            ++ shp.points.flatMap (fun p =>
                [(p.xy.ix % 256).toNat, (p.xy.ix / 256 % 256).toNat, (p.xy.ix / 65536 % 256).toNat]
                ++ [(p.xy.iy % 256).toNat, (p.xy.iy / 256 % 256).toNat,
                    (p.xy.iy / 65536 % 256).toNat]
                ++ [position p.name (nameSet (shp.points.map Point.name)) % 256,
                    position p.name (nameSet (shp.points.map Point.name)) / 256 % 256]))) := by
  have hgen : ∀ dict, exportNames [] (nameSet (shp.points.map Point.name)) 2 = some dict →
      (exportPoints {} shp).2
        = some (dict
            ++ [shp.points.length % 256, shp.points.length / 256 % 256,
                shp.points.length / 65536 % 256, shp.points.length / 16777216 % 256]
            ++ shp.points.flatMap (fun p =>
                [(p.xy.ix % 256).toNat, (p.xy.ix / 256 % 256).toNat, (p.xy.ix / 65536 % 256).toNat]
                ++ [(p.xy.iy % 256).toNat, (p.xy.iy / 256 % 256).toNat,
                    (p.xy.iy / 65536 % 256).toNat]
                ++ [position p.name (nameSet (shp.points.map Point.name)) % 256,
                    position p.name (nameSet (shp.points.map Point.name)) / 256 % 256])) := by
    intro dict hdict
    rw [exportPoints_snd, hdict, Option.map_some', Nat.mod_eq_of_lt hn, leBytes_four]
    congr 2
    apply flatMap_congr_mem
    intro p hp
    rw [pointIndex_eq_position shp (Nat.le_of_lt hn) p hp, intBytes_three, intBytes_three,
      leBytes_two]
  constructor
  · intro dict hdict
    refine ⟨hgen dict hdict, ?_⟩
    intro out hout
    rw [hgen dict hdict] at hout
    have e := Option.some.inj hout
    rw [← e, List.length_append, List.length_append,
      length_flatMap_const _ _ 8 (fun p _ => by simp)]
    simp
  · intro hv
    have hlen := length_nameSet_le (shp.points.map Point.name)
    rw [List.length_map] at hlen
    have hdict : exportNames [] (nameSet (shp.points.map Point.name)) 2
        = some ([(nameSet (shp.points.map Point.name)).length % 256,
              (nameSet (shp.points.map Point.name)).length / 256 % 256]
            ++ frontCode [] (nameSet (shp.points.map Point.name))) := by
      rw [exportNames_eq [] _ 2 (ascending_nameSet _) (fun n hn2 => by
        obtain ⟨p, hp, rfl⟩ := List.mem_map.mp ((mem_nameSet _ _).mp hn2)
        exact ⟨(hv p hp).1, (hv p hp).2⟩), dictionary, Nat.mod_eq_of_lt (by omega), leBytes_two,
        List.nil_append]
    exact ⟨hdict, hgen _ hdict⟩

/-- Witness of claim C3: the two points `Kivinõmm` and `Abja`.  The dictionary
holds `Abja` before `Kivinõmm`; the points are written in input order, with
the indices 1 and 0. -/
theorem exportPoints_file_layout_witness :
    twoPointsShp.points.length < 2 ^ 32 ∧
    (∀ p ∈ twoPointsShp.points, p.name ≠ [] ∧ (∀ b ∈ p.name, b ≠ 0) ∧ p.name.length ≤ 255) ∧
    (exportPoints {} twoPointsShp).2
      = some ([2, 0] ++ ([0, 4] ++ ascii "Abja") ++ ([0, 8] ++ [75, 105, 118, 105, 110, 245, 109, 109])
          ++ [2, 0, 0, 0]
          ++ ([32, 161, 7] ++ [64, 66, 15] ++ [1, 0])
          ++ ([96, 227, 22] ++ [128, 132, 30] ++ [0, 0])) :=
  ⟨by decide, by decide,
    ((exportPoints_file_layout twoPointsShp (by decide)).2 (by decide)).2.trans (by decide)⟩

theorem writeRingPoints_append : ∀ (ring : Ring) (lastX lastY : Int) (f : List Nat),
    writeRingPoints ring lastX lastY f = f ++ writeRingPoints ring lastX lastY []
  | [], _, _, f => by simp [writeRingPoints]
  | xy :: rest, lastX, lastY, f => by
    rw [writeRingPoints, writeRingPoints, writeRingPoints_append rest _ _ (f ++ _ ++ _),
      writeRingPoints_append rest _ _ ([] ++ _ ++ _)]
    simp [List.append_assoc]

theorem writeRing_append (f : List Nat) (ring : Ring) :
    writeRing f ring = f ++ writeRing [] ring := by
  rw [writeRing, writeRing, writeRingPoints_append ring 0 0 (f ++ _),
    writeRingPoints_append ring 0 0 ([] ++ _)]
  simp [List.append_assoc]

theorem foldl_writeRing (rings : List Ring) (f : List Nat) :
    rings.foldl writeRing f = f ++ rings.flatMap (writeRing []) := by
  induction rings generalizing f with
  | nil => simp
  | cons r rs ih =>
    rw [List.foldl_cons, ih, List.flatMap_cons, writeRing_append]
    simp [List.append_assoc]

theorem writePolygon_of_no_rings (correct : Ring → Ring) (simplify : Ring → Int → Ring)
    (d : Int) (idx : Fin 3 → Name → Nat) (f : List Nat) (p : Polygon) (h : p.rings = []) :
    writePolygon correct simplify d idx f p = f := by
  simp [writePolygon, h]

theorem writePolygon_of_rings (correct : Ring → Ring) (simplify : Ring → Int → Ring)
    (d : Int) (idx : Fin 3 → Name → Nat) (f : List Nat) (p : Polygon) (h : p.rings ≠ []) :
    writePolygon correct simplify d idx f p
      = f ++ (leBytes 1 p.type ++ leBytes 1 (idx 0 (p.names 0)) ++ leBytes 1 (idx 1 (p.names 1))
          ++ leBytes 2 (idx 2 (p.names 2)) ++ leBytes 1 (p.rings.length % 2 ^ 32)
          ++ (p.rings.map (processRing correct simplify d)).flatMap (writeRing [])) := by
  have hne : (p.rings.map (processRing correct simplify d)).isEmpty = false := by
    cases hr : p.rings with
    | nil => exact absurd hr h
    | cons a as => rfl
  simp only [writePolygon, hne, foldl_writeRing, List.length_map]
  simp [List.append_assoc]

theorem writePolygon_append (correct : Ring → Ring) (simplify : Ring → Int → Ring)
    (d : Int) (idx : Fin 3 → Name → Nat) (f : List Nat) (p : Polygon) :
    writePolygon correct simplify d idx f p = f ++ writePolygon correct simplify d idx [] p := by
  by_cases h : p.rings = []
  · rw [writePolygon_of_no_rings _ _ _ _ _ _ h, writePolygon_of_no_rings _ _ _ _ _ _ h]
    simp
  · rw [writePolygon_of_rings _ _ _ _ _ _ h, writePolygon_of_rings _ _ _ _ _ _ h]
    simp

theorem foldl_writePolygon (correct : Ring → Ring) (simplify : Ring → Int → Ring)
    (d : Int) (idx : Fin 3 → Name → Nat) (l : List Polygon) (f : List Nat) :
    l.foldl (writePolygon correct simplify d idx) f
      = f ++ l.flatMap (writePolygon correct simplify d idx []) := by
  induction l generalizing f with
  | nil => simp
  | cons p ps ih =>
    rw [List.foldl_cons, ih, List.flatMap_cons, writePolygon_append]
    simp [List.append_assoc]

theorem exportPolygons_fst (correct : Ring → Ring) (simplify : Ring → Int → Ring)
    (shp : SHP) (d : Int) (i : Fin 3) :
    (exportPolygons correct simplify {} shp d).1.polygonNames i
        = nameSet (shp.polygons.map (fun p => p.names i)) ∧
    (exportPolygons correct simplify {} shp d).1.polygonIndex i
        = assignIndex (nameSet (shp.polygons.map (fun p => p.names i))) 0 (fun _ => 0) := by
  have e := foldl_insert_map (fun p : Polygon => p.names i) shp.polygons []
  have e2 := foldl_insertPolygonNames shp.polygons (fun _ => []) i
  unfold nameSet
  rw [← e, ← e2]
  unfold exportPolygons
  dsimp only
  split <;> exact ⟨rfl, rfl⟩

theorem exportPolygons_snd (correct : Ring → Ring) (simplify : Ring → Int → Ring)
    (shp : SHP) (d : Int) :
    (exportPolygons correct simplify {} shp d).2
      = (exportPolygonNames [] (exportPolygons correct simplify {} shp d).1.polygonNames).map
        (fun f => f ++ leBytes 2 (shp.polygons.length % 2 ^ 32)
          ++ shp.polygons.flatMap (writePolygon correct simplify d
              (exportPolygons correct simplify {} shp d).1.polygonIndex [])) := by
  unfold exportPolygons
  dsimp only
  split
  · rename_i h
    dsimp only
    rw [h]
    rfl
  · rename_i f h
    dsimp only
    rw [h, foldl_writePolygon]
    rfl

theorem leValue_intBytes_three (d : Int) : leValue (intBytes 3 d) = (d % 2 ^ 24).toNat := by
  have h0 : (0 : Int) ≤ d % 2 ^ 32 := Int.emod_nonneg _ (by norm_num)
  obtain ⟨k, hk⟩ := Int.eq_ofNat_of_zero_le h0
  rw [intBytes, leValue_leBytes, hk, Int.toNat_ofNat]
  have e : d % 2 ^ 24 = ((k % 256 ^ 3 : Nat) : Int) := by
    rw [Int.natCast_mod, ← hk]
    norm_num
  rw [e, Int.toNat_ofNat]

theorem signExtend24_emod (x : Int) (h1 : -2 ^ 23 ≤ x) (h2 : x < 2 ^ 23) :
    signExtend24 (x % 2 ^ 24).toNat = x := by
  unfold signExtend24
  split <;> omega

theorem acc_step (last x : Int) :
    ((last % 2 ^ 24).toNat + ((x - last) % 2 ^ 24).toNat) % 2 ^ 24 = (x % 2 ^ 24).toNat := by
  omega

theorem writeRingPoints_zip : ∀ (ring : Ring) (lastX lastY : Int),
    writeRingPoints ring lastX lastY []
      = ((quantized ring).zip ((lastX, lastY) :: quantized ring)).flatMap
          (fun qp => low24 (qp.1.1 - qp.2.1) ++ low24 (qp.1.2 - qp.2.2))
  | [], _, _ => by simp [writeRingPoints, quantized]
  | xy :: rest, lastX, lastY => by
    rw [writeRingPoints, writeRingPoints_append, writeRingPoints_zip rest]
    simp [quantized, intBytes_three_low24]

theorem decodeDeltas_cons (d e : Int) (rest : List Nat) (accX accY : Nat) :
    decodeDeltas (intBytes 3 d ++ intBytes 3 e ++ rest) accX accY
      = (signExtend24 ((accX + leValue (intBytes 3 d)) % 2 ^ 24),
          signExtend24 ((accY + leValue (intBytes 3 e)) % 2 ^ 24))
        :: decodeDeltas rest ((accX + leValue (intBytes 3 d)) % 2 ^ 24)
            ((accY + leValue (intBytes 3 e)) % 2 ^ 24) := by
  rw [intBytes_three, intBytes_three]
  rfl

theorem decodeDeltas_writeRingPoints : ∀ (ring : Ring) (lastX lastY : Int),
    (∀ q ∈ quantized ring, (-2 ^ 23 ≤ q.1 ∧ q.1 < 2 ^ 23) ∧ (-2 ^ 23 ≤ q.2 ∧ q.2 < 2 ^ 23)) →
    decodeDeltas (writeRingPoints ring lastX lastY [])
      (lastX % 2 ^ 24).toNat (lastY % 2 ^ 24).toNat = quantized ring
  | [], _, _, _ => by simp [writeRingPoints, quantized, decodeDeltas]
  | xy :: rest, lastX, lastY, h => by
    have hq := h (quantize xy.2 FN, quantize xy.1 FE)
      (by simp [quantized])
    have hrest : ∀ q ∈ quantized rest,
        (-2 ^ 23 ≤ q.1 ∧ q.1 < 2 ^ 23) ∧ (-2 ^ 23 ≤ q.2 ∧ q.2 < 2 ^ 23) := by
      intro q hq2
      apply h
      simp only [quantized, List.map_cons, List.mem_cons]
      exact Or.inr hq2
    rw [writeRingPoints, writeRingPoints_append]
    simp only [List.nil_append]
    rw [decodeDeltas_cons, leValue_intBytes_three, leValue_intBytes_three, acc_step, acc_step,
      signExtend24_emod _ hq.1.1 hq.1.2, signExtend24_emod _ hq.2.1 hq.2.2,
      decodeDeltas_writeRingPoints rest _ _ hrest]
    simp [quantized]

theorem castInt_intCast (k : Int) : castInt (k : ℚ) = k := by
  unfold castInt
  split
  · exact Int.floor_intCast k
  · exact Int.ceil_intCast k

theorem quantize_exact (v F : ℚ) (n k : Int) (h : v - F = (n : ℚ) * 2 ^ k) (hn : |n| < 2 ^ 48)
    (hk : -1074 ≤ k) : quantize v F = castInt ((v - F) * 20) := by
  have hn' := abs_lt.mp hn
  have e20 : (n : ℚ) * 2 ^ k * 20 = ((20 * n : Int) : ℚ) * 2 ^ k := by
    push_cast
    ring
  unfold quantize
  rw [h, roundDouble_dyadic n k (by rw [abs_lt]; omega) hk, e20,
    roundDouble_dyadic (20 * n) k (by rw [abs_lt]; omega) hk]

theorem quantize_intCast (m f : Int) (h : |m - f| < 2 ^ 48) :
    quantize (m : ℚ) (f : ℚ) = (m - f) * 20 := by
  have e : (m : ℚ) - (f : ℚ) = ((m - f : Int) : ℚ) * 2 ^ (0 : Int) := by
    push_cast
    simp
  rw [quantize_exact _ _ (m - f) 0 e h (by decide)]
  have e2 : ((m : ℚ) - (f : ℚ)) * 20 = (((m - f) * 20 : Int) : ℚ) := by
    push_cast
    ring
  rw [e2, castInt_intCast]

theorem quantized_wideRing : quantized wideRing = [(-8388600, 0), (8388600, 0)] := by
  have e1 : quantize ((6375000 : ℚ) - 419430) FN = -8388600 := by
    have h := quantize_intCast (6375000 - 419430) 6375000 (by decide)
    norm_num at h
    unfold FN
    norm_num
    exact h
  have e2 : quantize ((6375000 : ℚ) + 419430) FN = 8388600 := by
    have h := quantize_intCast (6375000 + 419430) 6375000 (by decide)
    norm_num at h
    unfold FN
    norm_num
    exact h
  have e3 : quantize (500000 : ℚ) FE = 0 := by
    have h := quantize_intCast 500000 500000 (by decide)
    norm_num at h
    unfold FE
    exact h
  simp only [quantized, wideRing, List.map_cons, List.map_nil, e1, e2, e3]

/-- Claim C4 (per-ring delta coding).  For every ring handed to the writer, with
quantized points `q_0 .. q_(m-1)`, the bytes written after the 2-byte point count
are, for each `i`, the low 24 bits of `q_i - q_(i-1)` on the first axis and then
on the second, `q_(-1)` being `(0, 0)`, so that the first pair is the low 24 bits
of `q_0`; and whenever every quantized coordinate lies in `[-2^23, 2^23)`,
adding the written deltas modulo `2^24` from `(0, 0)` and sign-extending gives
back every `q_i`, whatever the size of the individual deltas. -/
theorem ring_delta_coding (ring : Ring) :
    writeRing [] ring
      = leBytes 2 (ring.length % 65536)
        ++ ((quantized ring).zip ((0, 0) :: quantized ring)).flatMap
            (fun qp => low24 (qp.1.1 - qp.2.1) ++ low24 (qp.1.2 - qp.2.2)) ∧
    (∀ q0 rest, quantized ring = q0 :: rest →
      ((writeRing [] ring).drop 2).take 6 = low24 q0.1 ++ low24 q0.2) ∧
    ((∀ q ∈ quantized ring, (-2 ^ 23 ≤ q.1 ∧ q.1 < 2 ^ 23) ∧ (-2 ^ 23 ≤ q.2 ∧ q.2 < 2 ^ 23)) →
      decodeDeltas ((writeRing [] ring).drop 2) 0 0 = quantized ring) := by
  have hw : writeRing [] ring
      = leBytes 2 (ring.length % 65536) ++ writeRingPoints ring 0 0 [] := by
    rw [writeRing, writeRingPoints_append]
    simp
  have hdrop : (writeRing [] ring).drop 2 = writeRingPoints ring 0 0 [] := by
    rw [hw, List.drop_left' (leBytes_length 2 _)]
  refine ⟨?_, ?_, ?_⟩
  · rw [hw, writeRingPoints_zip]
  · intro q0 rest hq
    rw [hdrop, writeRingPoints_zip, hq]
    simp only [List.zip_cons_cons, List.flatMap_cons, sub_zero, List.append_assoc]
    rw [← List.append_assoc, List.take_left']
    simp [low24]
  · intro h
    rw [hdrop]
    exact decodeDeltas_writeRingPoints ring 0 0 h

/-- Witness of claim C4: a ring whose second delta, 16777200, does not fit in
signed 24 bits. -/
theorem ring_delta_coding_witness :
    (∀ q ∈ quantized wideRing,
      (-2 ^ 23 ≤ q.1 ∧ q.1 < 2 ^ 23) ∧ (-2 ^ 23 ≤ q.2 ∧ q.2 < 2 ^ 23)) ∧
    decodeDeltas ((writeRing [] wideRing).drop 2) 0 0 = quantized wideRing :=
  ⟨by rw [quantized_wideRing]; decide,
    (ring_delta_coding wideRing).2.2 (by rw [quantized_wideRing]; decide)⟩

theorem castInt_trunc (t : ℚ) :
    |((castInt t : Int) : ℚ)| ≤ |t| ∧ |t - (castInt t : Int)| < 1 := by
  unfold castInt
  split
  · rename_i h
    have h1 := Int.floor_le t
    have h2 := Int.lt_floor_add_one t
    have h3 : (0 : ℚ) ≤ (Int.floor t : Int) := by exact_mod_cast Int.floor_nonneg.mpr h
    rw [abs_of_nonneg h3, abs_of_nonneg h, abs_of_nonneg (by linarith)]
    constructor <;> linarith
  · rename_i h
    have h0 : t < 0 := not_le.mp h
    have h1 := Int.le_ceil t
    have h2 := Int.ceil_lt_add_one t
    have h3 : ((Int.ceil t : Int) : ℚ) ≤ 0 := by
      exact_mod_cast Int.ceil_le.mpr (by simpa using h0.le)
    rw [abs_of_nonpos h3, abs_of_neg h0, abs_of_nonpos (by linarith)]
    constructor <;> linarith

theorem castInt_unit (d : ℚ) (h0 : 0 ≤ d) (h1 : d < 1) : castInt d = 0 := by
  unfold castInt
  rw [if_pos h0, Int.floor_eq_iff]
  constructor
  · simpa using h0
  · simpa using h1

theorem quantize_error (v F : ℚ) (h : |v - F| < 2 ^ 26) :
    |roundDouble (roundDouble (v - F) * 20) - (v - F) * 20| ≤ 1 / 2 ^ 22 := by
  have hv := abs_lt.mp h
  have ea := roundDouble_error (v - F) 25 (by decide) (by
    have e : (2 : ℚ) ^ ((25 : Int) + 1) = 2 ^ 26 := by norm_num
    rw [e]
    exact h)
  have e28 : (2 : ℚ) ^ ((25 : Int) - 53) = 1 / 2 ^ 28 := by norm_num
  rw [e28] at ea
  have ha := abs_le.mp ea
  have hp : |roundDouble (v - F) * 20| < 2 ^ ((30 : Int) + 1) := by
    have e : (2 : ℚ) ^ ((30 : Int) + 1) = 2 ^ 31 := by norm_num
    rw [e, abs_lt]
    constructor <;> norm_num at hv ha ⊢ <;> linarith
  have ep := roundDouble_error (roundDouble (v - F) * 20) 30 (by decide) hp
  have e23 : (2 : ℚ) ^ ((30 : Int) - 53) = 1 / 2 ^ 23 := by norm_num
  rw [e23] at ep
  have hpp := abs_le.mp ep
  rw [abs_le]
  constructor <;> norm_num at ha hpp ⊢ <;> linarith

/-- Claim C5, the claim refuted: at northing `6375000.03125` the constructor
`XY::XY` yields 0, and so does the per-point computation of `exportPolygons`
(the first 3 bytes of the pair are 0), while `round((v - FN) * 20)` is 1: the
product is exactly `0.625`. -/
theorem quantize_not_round :
    roundDouble (6375000 + 1 / 32) = 6375000 + 1 / 32 ∧
    (XY.XY (6375000 + 1 / 32) 500000).ix = 0 ∧
    writeRingPoints [(500000, 6375000 + 1 / 32)] 0 0 [] = [0, 0, 0, 0, 0, 0] ∧
    round (((6375000 + 1 / 32 : ℚ) - 6375000) * 20) = 1 ∧
    (XY.XY (6375000 + 1 / 32) 500000).ix ≠ round (((6375000 + 1 / 32 : ℚ) - 6375000) * 20) := by
  have hd : roundDouble (6375000 + 1 / 32) = 6375000 + 1 / 32 := by
    have h := roundDouble_dyadic 204000001 (-5) (by decide) (by decide)
    have e : ((204000001 : Int) : ℚ) * 2 ^ (-5 : Int) = 6375000 + 1 / 32 := by norm_num
    rwa [e] at h
  have e1 : quantize (6375000 + 1 / 32) FN = 0 := by
    rw [quantize_exact _ _ 1 (-5) (by norm_num [FN]) (by decide) (by decide)]
    exact castInt_unit _ (by norm_num [FN]) (by norm_num [FN])
  have e2 : quantize (500000 : ℚ) FE = 0 := by
    have h := quantize_intCast 500000 500000 (by decide)
    norm_num at h
    unfold FE
    exact h
  have e3 : ((6375000 + 1 / 32 : ℚ) - 6375000) * 20 = 5 / 8 := by norm_num
  have hr : round (5 / 8 : ℚ) = 1 := by
    rw [round_eq, Int.floor_eq_iff]
    norm_num
  have hix : (XY.XY (6375000 + 1 / 32) 500000).ix = 0 := by
    simp only [XY.XY, e1]
  refine ⟨hd, hix, ?_, ?_, ?_⟩
  · simp only [writeRingPoints, e1, e2]
    decide
  · rw [e3, hr]
  · rw [hix, e3, hr]
    decide

/-- Claim C5 as amended (quantization formula).  For every coordinate pair
within `2^26` units of the false origins, the integers computed by `XY::XY` are
the `double` products `(x - 6375000) * 20` and `(y - 500000) * 20`, difference
and product each rounded to the nearest double, with the fractional part
discarded: each is at most the double product in absolute value and less than 1
away from it.  The double product is within `2^-22` of the exact product, so the
integer is less than `1 + 2^-22` away from the exact product, and it is the exact
product with the fraction discarded when the difference is `n * 2^k` with
`|n| < 2^48`.  The integers recomputed per point in `exportPolygons` are the same
two, written as the first pair of a ring. -/
theorem quantize_truncates (x y : ℚ) (hx : |x - 6375000| < 2 ^ 26)
    (hy : |y - 500000| < 2 ^ 26) :
    ((XY.XY x y).ix = castInt (roundDouble (roundDouble (x - 6375000) * 20)) ∧
      |(((XY.XY x y).ix : Int) : ℚ)| ≤ |roundDouble (roundDouble (x - 6375000) * 20)| ∧
      |roundDouble (roundDouble (x - 6375000) * 20) - ((XY.XY x y).ix : Int)| < 1 ∧
      |roundDouble (roundDouble (x - 6375000) * 20) - (x - 6375000) * 20| ≤ 1 / 2 ^ 22 ∧
      |(x - 6375000) * 20 - ((XY.XY x y).ix : Int)| < 1 + 1 / 2 ^ 22 ∧
      ∀ n k : Int, x - 6375000 = (n : ℚ) * 2 ^ k → |n| < 2 ^ 48 → -1074 ≤ k →
        (XY.XY x y).ix = castInt ((x - 6375000) * 20)) ∧
    ((XY.XY x y).iy = castInt (roundDouble (roundDouble (y - 500000) * 20)) ∧
      |(((XY.XY x y).iy : Int) : ℚ)| ≤ |roundDouble (roundDouble (y - 500000) * 20)| ∧
      |roundDouble (roundDouble (y - 500000) * 20) - ((XY.XY x y).iy : Int)| < 1 ∧
      |roundDouble (roundDouble (y - 500000) * 20) - (y - 500000) * 20| ≤ 1 / 2 ^ 22 ∧
      |(y - 500000) * 20 - ((XY.XY x y).iy : Int)| < 1 + 1 / 2 ^ 22 ∧
      ∀ n k : Int, y - 500000 = (n : ℚ) * 2 ^ k → |n| < 2 ^ 48 → -1074 ≤ k →
        (XY.XY x y).iy = castInt ((y - 500000) * 20)) ∧
    writeRingPoints [(y, x)] 0 0 [] = intBytes 3 (XY.XY x y).ix ++ intBytes 3 (XY.XY x y).iy := by
  have key : ∀ v F : ℚ, |v - F| < 2 ^ 26 →
      quantize v F = castInt (roundDouble (roundDouble (v - F) * 20)) ∧
      |((quantize v F : Int) : ℚ)| ≤ |roundDouble (roundDouble (v - F) * 20)| ∧
      |roundDouble (roundDouble (v - F) * 20) - (quantize v F : Int)| < 1 ∧
      |roundDouble (roundDouble (v - F) * 20) - (v - F) * 20| ≤ 1 / 2 ^ 22 ∧
      |(v - F) * 20 - (quantize v F : Int)| < 1 + 1 / 2 ^ 22 ∧
      ∀ n k : Int, v - F = (n : ℚ) * 2 ^ k → |n| < 2 ^ 48 → -1074 ≤ k →
        quantize v F = castInt ((v - F) * 20) := by
    intro v F h
    have ht := castInt_trunc (roundDouble (roundDouble (v - F) * 20))
    have he := quantize_error v F h
    refine ⟨rfl, ht.1, ht.2, he, ?_, fun n k hnk hn hk => quantize_exact v F n k hnk hn hk⟩
    have h1 := abs_lt.mp ht.2
    have h2 := abs_le.mp he
    rw [abs_lt]
    unfold quantize
    constructor <;> linarith
  refine ⟨key x FN hx, key y FE hy, ?_⟩
  simp [writeRingPoints, XY.XY]

/-- Witness of claim C5: northing `6375000.03125`, easting `500000`. -/
theorem quantize_truncates_witness :
    (|(6375000 + 1 / 32 : ℚ) - 6375000| < 2 ^ 26 ∧ |(500000 : ℚ) - 500000| < 2 ^ 26) ∧
    (XY.XY (6375000 + 1 / 32) 500000).ix
      = castInt (((6375000 + 1 / 32 : ℚ) - 6375000) * 20) :=
  ⟨⟨by norm_num [abs_lt], by norm_num⟩,
    (quantize_truncates (6375000 + 1 / 32) 500000 (by norm_num [abs_lt]) (by norm_num)).1.2.2.2.2.2
      1 (-5) (by norm_num) (by decide) (by decide)⟩

theorem flatMap_filter_nil {α : Type} (l : List α) (f : α → List Nat) (keep : α → Bool)
    (h : ∀ a ∈ l, keep a = false → f a = []) : l.flatMap f = (l.filter keep).flatMap f := by
  induction l with
  | nil => rfl
  | cons a as ih =>
    have iha := ih (fun b hb => h b (List.mem_cons_of_mem _ hb))
    cases hk : keep a with
    | true => rw [List.filter_cons_of_pos hk, List.flatMap_cons, List.flatMap_cons, iha]
    | false =>
      rw [List.filter_cons_of_neg (by simp [hk]), List.flatMap_cons,
        h a (List.mem_cons_self _ _) hk, iha]
      rfl

/-- Claim C8, the code at the failing input: one polygon without a ring.  The file
is the three dictionaries followed by the count bytes `1, 0` and nothing else:
the count says one record, no record follows. -/
theorem polygon_count_not_records :
    (exportPolygons keepRing keepAll {} noRingShp (-1)).2
      = some ([1, 0, 1, 65, 1, 0, 1, 65, 1, 0, 0, 1, 65] ++ [1, 0] ++ []) := by
  decide

/-- Claim C9, the claim refuted: a polygon whose only ring has no point, before
and after normalization, is written: after the dictionaries and the count come
its type byte 8, its name indexes `0`, `0`, `0 0`, the ring count 1 and the
point count `0 0` of the ring. -/
theorem polygon_of_empty_rings_written :
    (∀ p ∈ emptyRingShp.polygons, ∀ ring ∈ p.rings.map (processRing keepRing keepAll (-1)),
      ring = []) ∧
    (exportPolygons keepRing keepAll {} emptyRingShp (-1)).2
      = some ([1, 0, 1, 65, 1, 0, 1, 65, 1, 0, 0, 1, 65] ++ [1, 0]
          ++ [8, 0, 0, 0, 0, 1, 0, 0]) := by
  decide

/-- Claim C9 as amended (polygons without rings are dropped at export).  When
the dictionaries are written, the file written by `exportPolygons` is the
dictionaries, the 2-byte count, and the records of the polygons that have at
least one ring, in original order; a polygon with no ring at all adds nothing
to the file, a polygon with a ring adds a record of at least the type byte, the
four bytes of name indexes and the ring count. -/
theorem polygons_without_rings_dropped (correct : Ring → Ring) (simplify : Ring → Int → Ring)
    (shp : SHP) (d : Int) :
    (exportPolygons correct simplify {} shp d).2
      = (exportPolygonNames [] (exportPolygons correct simplify {} shp d).1.polygonNames).map
          (fun dicts => dicts ++ leBytes 2 (shp.polygons.length % 2 ^ 32)
            ++ (shp.polygons.filter (fun p => !p.rings.isEmpty)).flatMap
                (writePolygon correct simplify d
                  (exportPolygons correct simplify {} shp d).1.polygonIndex [])) ∧
    (∀ (idx : Fin 3 → Name → Nat) (f : List Nat) (p : Polygon), p.rings = [] →
      writePolygon correct simplify d idx f p = f) ∧
    (∀ (idx : Fin 3 → Name → Nat) (f : List Nat) (p : Polygon), p.rings ≠ [] →
      ∃ record, writePolygon correct simplify d idx f p = f ++ record ∧ 6 ≤ record.length ∧
        record.take 1 = [p.type % 256]) := by
  refine ⟨?_, ?_, ?_⟩
  · rw [exportPolygons_snd]
    congr 1
    funext dicts
    congr 1
    apply flatMap_filter_nil
    intro p _ hp
    apply writePolygon_of_no_rings
    cases hr : p.rings with
    | nil => rfl
    | cons a as => simp [hr] at hp
  · intro idx f p h
    exact writePolygon_of_no_rings correct simplify d idx f p h
  · intro idx f p h
    refine ⟨_, writePolygon_of_rings correct simplify d idx f p h, ?_, ?_⟩
    · simp only [List.length_append, leBytes_length]
      omega
    · simp [leBytes]

/-- Witness of claim C9: a polygon without rings leaves the stream as it was. -/
theorem polygons_without_rings_dropped_witness :
    ({ rings := [], type := 8, names := fun _ => [65] } : Polygon).rings = [] ∧
    writePolygon keepRing keepAll (-1) (fun _ _ => 0) [7]
      { rings := [], type := 8, names := fun _ => [65] } = [7] :=
  ⟨rfl, (polygons_without_rings_dropped keepRing keepAll noRingShp (-1)).2.1 _ [7] _ rfl⟩

/-- Claim C7, the code at the failing input: record 0 is ` 8Harj`, field `TYYP`
is ` 8` and field `MNIMI` is `Harj`.  The range of `MNIMI` trimmed of spaces is
`Harj`, the type is read as 8, and `parsePolygonData` assigns the empty string
to `names[0]`: the restore of `TYYP` lands one byte too far and leaves the NUL
on the first byte of `MNIMI`, as the buffer after the call shows.  In the same
way `parsePointName` assigns the empty string where `TextString` holds `Abja`
after a field ` 7`. -/
theorem parsePolygonData_loses_name :
    trimSpaces (fieldSlice typeThenNameShp.dbfData 7 0 ⟨ascii "MNIMI" ++ [0, 0, 0, 0, 0, 0, 0], 3, 4⟩)
      = ascii "Harj" ∧
    (parsePolygonData typeThenNameShp 0).1.type = 8 ∧
    (parsePolygonData typeThenNameShp 0).1.names 0 = [] ∧
    (List.range 8).map (parsePolygonData typeThenNameShp 0).2
      = ascii " " ++ ascii " 8" ++ [0] ++ ascii "Hrj" ++ ascii " " ∧
    trimSpaces (fieldSlice idThenNameShp.dbfData 7 0 ⟨ascii "TextString" ++ [0, 0], 3, 4⟩)
      = ascii "Abja" ∧
    (parsePointName idThenNameShp 0).1.name = [] := by
  decide

theorem addPoint_points (shp : SHP) (i : Nat) :
    (addPoint shp i).points.map Point.name
      = shp.points.map Point.name
        ++ [(parsePointName shp i).1.name].filter (fun n => n ≠ []) := by
  unfold addPoint
  dsimp only
  split
  · rename_i h
    simp [h]
  · rename_i h
    simp [h]

theorem addPoint_parse (shp : SHP) (i : Nat) :
    (addPoint shp i).dbfField = shp.dbfField ∧
    (addPoint shp i).dbfRecordLength = shp.dbfRecordLength ∧
    (addPoint shp i).dbfData = (parsePointName shp i).2 := by
  unfold addPoint
  dsimp only
  split <;> exact ⟨rfl, rfl, rfl⟩

theorem resolvedNamesFrom_congr : ∀ (l : List Nat) (a b : SHP),
    a.dbfField = b.dbfField → a.dbfRecordLength = b.dbfRecordLength → a.dbfData = b.dbfData →
    resolvedNamesFrom a l = resolvedNamesFrom b l
  | [], _, _, _, _, _ => rfl
  | i :: rest, a, b, h1, h2, h3 => by
    have e : parsePointName a i = parsePointName b i := by
      unfold parsePointName
      rw [h1, h2, h3]
    rw [resolvedNamesFrom, resolvedNamesFrom, e]
    congr 1
    exact resolvedNamesFrom_congr rest _ _ h1 h2 rfl

theorem foldl_addPoint_names : ∀ (l : List Nat) (shp : SHP),
    (l.foldl addPoint shp).points.map Point.name
      = shp.points.map Point.name ++ (resolvedNamesFrom shp l).filter (fun n => n ≠ [])
  | [], shp => by simp [resolvedNamesFrom]
  | i :: rest, shp => by
    have hp := addPoint_parse shp i
    rw [List.foldl_cons, foldl_addPoint_names rest (addPoint shp i), addPoint_points,
      resolvedNamesFrom,
      resolvedNamesFrom_congr rest (addPoint shp i)
        { shp with dbfData := (parsePointName shp i).2 } hp.1 hp.2.1 hp.2.2]
    by_cases h : (parsePointName shp i).1.name = []
    · simp [h]
    · simp [h]

/-- Claim C10 (no empty-named point survives parsing).  Started on a points list
without an empty name (the empty list of a new `SHP`), `addPoints` leaves a list
in which every point has a non-empty name; the names added are exactly the
resolved names of the records that are non-empty, in record order; hence the
set of point names built by `exportPoints` does not contain the empty string
and no index into it refers to an empty name. -/
theorem addPoints_no_empty_name (shp : SHP) (h : ∀ p ∈ shp.points, p.name ≠ []) :
    (∀ p ∈ (addPoints shp).points, p.name ≠ []) ∧
    (addPoints shp).points.map Point.name
      = shp.points.map Point.name ++ (resolvedNames shp).filter (fun n => n ≠ []) ∧
    [] ∉ (exportPoints {} (addPoints shp)).1.pointNames ∧
    (∀ (index : Nat) (name : Name),
      (exportPoints {} (addPoints shp)).1.pointNames.get? index = some name → name ≠ []) := by
  have hnames : (addPoints shp).points.map Point.name
      = shp.points.map Point.name ++ (resolvedNames shp).filter (fun n => n ≠ []) :=
    foldl_addPoint_names (List.range shp.recordCount) shp
  have hall : ∀ p ∈ (addPoints shp).points, p.name ≠ [] := by
    intro p hp
    have hm : p.name ∈ (addPoints shp).points.map Point.name := List.mem_map_of_mem _ hp
    rw [hnames, List.mem_append] at hm
    rcases hm with hm | hm
    · obtain ⟨q, hq, e⟩ := List.mem_map.mp hm
      rw [← e]
      exact h q hq
    · simpa using (List.mem_filter.mp hm).2
  have hset : [] ∉ (exportPoints {} (addPoints shp)).1.pointNames := by
    rw [(exportPoints_fst _).1, mem_nameSet]
    intro hm
    obtain ⟨q, hq, e⟩ := List.mem_map.mp hm
    exact hall q hq e
  refine ⟨hall, hnames, hset, ?_⟩
  intro index name hget e
  rw [e] at hget
  exact hset (List.get?_mem hget)

/-- Witness of claim C10: a table of three records of which the second has a
blank name. -/
theorem addPoints_no_empty_name_witness :
    (∀ p ∈ threePointsShp.points, p.name ≠ []) ∧
    (addPoints threePointsShp).points.map Point.name
      = threePointsShp.points.map Point.name
        ++ (resolvedNames threePointsShp).filter (fun n => n ≠ []) :=
  ⟨by decide, (addPoints_no_empty_name threePointsShp (by decide)).2.1⟩

theorem strLt_asymm {a b : Name} (h : strLt a b = true) : strLt b a = false := by
  cases hba : strLt b a with
  | false => rfl
  | true =>
    have := strLt_trans a b a h hba
    rw [strLt_irrefl] at this
    exact absurd this Bool.false_ne_true

theorem setInsert_last (x : Name) (s : List Name) (h : ∀ y ∈ s, strLt y x = true) :
    setInsert x s = s ++ [x] := by
  induction s with
  | nil => rfl
  | cons y ys ih =>
    have hy := h y (List.mem_cons_self _ _)
    rw [setInsert, if_neg (by rw [strLt_asymm hy]; exact Bool.false_ne_true), if_pos hy,
      ih (fun z hz => h z (List.mem_cons_of_mem _ hz))]
    rfl

theorem foldl_insert_ascending : ∀ (l s : List Name), Ascending (s ++ l) →
    l.foldl (fun set name => setInsert name set) s = s ++ l
  | [], s, _ => by simp
  | x :: xs, s, h => by
    have hx : ∀ y ∈ s, strLt y x = true := by
      intro y hy
      unfold Ascending at h
      rw [List.pairwise_append] at h
      exact h.2.2 y hy x (List.mem_cons_self _ _)
    rw [List.foldl_cons, setInsert_last x s hx,
      foldl_insert_ascending xs (s ++ [x]) (by simpa using h)]
    simp

theorem nameSet_of_ascending (l : List Name) (h : Ascending l) : nameSet l = l := by
  have := foldl_insert_ascending l [] (by simpa using h)
  simpa [nameSet] using this

theorem exportPolygonNames_eq (f : List Nat) (names : Fin 3 → List Name)
    (hasc : ∀ i, Ascending (names i)) (hv : ∀ i, ∀ n ∈ names i, n ≠ [] ∧ ValidName n) :
    exportPolygonNames f names
      = some (f ++ dictionary 1 (names 0) ++ dictionary 1 (names 1) ++ dictionary 2 (names 2)) := by
  unfold exportPolygonNames
  rw [exportNames_eq f _ 1 (hasc 0) (hv 0), Option.some_bind,
    exportNames_eq _ _ 1 (hasc 1) (hv 1), Option.some_bind,
    exportNames_eq _ _ 2 (hasc 2) (hv 2)]

theorem decodeNames_zero_count (k : Nat) (names : List Name) (tail : List Nat)
    (h : names.length = 256 ^ k) (h32 : names.length < 2 ^ 32) :
    decodeNames k (dictionary k names ++ tail) = some ([], frontCode [] names ++ tail) := by
  have hl := leBytes_length k (names.length % 2 ^ 32)
  unfold decodeNames dictionary
  rw [if_pos (by simp only [List.length_append]; omega)]
  rw [List.append_assoc, List.take_left' hl, List.drop_left' hl, leValue_leBytes,
    Nat.mod_eq_of_lt h32, h, Nat.mod_self]
  rfl

theorem manyCounties_ascending :
    Ascending ((List.range 256).map fun k => [1 + k / 16, 1 + k % 16]) := by
  unfold Ascending
  rw [List.pairwise_map]
  refine List.Pairwise.imp_of_mem ?_ (List.pairwise_lt_range 256)
  intro a b ha hb hab
  rw [List.mem_range] at ha hb
  simp only [strLt, Bool.or_eq_true, Bool.and_eq_true, decide_eq_true_eq, Bool.or_false,
    Bool.and_false]
  omega

theorem polygonNames_valid (correct : Ring → Ring) (simplify : Ring → Int → Ring)
    (shp : SHP) (d : Int)
    (hv : ∀ p ∈ shp.polygons, ∀ i, p.names i ≠ [] ∧ (∀ b ∈ p.names i, b ≠ 0)
      ∧ (p.names i).length ≤ 255) (i : Fin 3) :
    ∀ n ∈ (exportPolygons correct simplify {} shp d).1.polygonNames i, n ≠ [] ∧ ValidName n := by
  intro n hn
  rw [(exportPolygons_fst correct simplify shp d i).1, mem_nameSet] at hn
  obtain ⟨p, hp, rfl⟩ := List.mem_map.mp hn
  exact ⟨(hv p hp i).1, (hv p hp i).2⟩

theorem polygonNames_ascending (correct : Ring → Ring) (simplify : Ring → Int → Ring)
    (shp : SHP) (d : Int) (i : Fin 3) :
    Ascending ((exportPolygons correct simplify {} shp d).1.polygonNames i) := by
  rw [(exportPolygons_fst correct simplify shp d i).1]
  exact ascending_nameSet _

theorem exportPolygons_file (correct : Ring → Ring) (simplify : Ring → Int → Ring)
    (shp : SHP) (d : Int)
    (hv : ∀ p ∈ shp.polygons, ∀ i, p.names i ≠ [] ∧ (∀ b ∈ p.names i, b ≠ 0)
      ∧ (p.names i).length ≤ 255) :
    (exportPolygons correct simplify {} shp d).2
      = some (dictionary 1 ((exportPolygons correct simplify {} shp d).1.polygonNames 0)
          ++ (dictionary 1 ((exportPolygons correct simplify {} shp d).1.polygonNames 1)
          ++ (dictionary 2 ((exportPolygons correct simplify {} shp d).1.polygonNames 2)
          ++ (leBytes 2 (shp.polygons.length % 2 ^ 32)
          ++ shp.polygons.flatMap (writePolygon correct simplify d
              (exportPolygons correct simplify {} shp d).1.polygonIndex []))))) := by
  rw [exportPolygons_snd,
    exportPolygonNames_eq [] _ (polygonNames_ascending correct simplify shp d)
      (polygonNames_valid correct simplify shp d hv)]
  simp only [Option.map_some', List.nil_append, List.append_assoc]

theorem exportPoints_file (shp : SHP)
    (hv : ∀ p ∈ shp.points, p.name ≠ [] ∧ (∀ b ∈ p.name, b ≠ 0) ∧ p.name.length ≤ 255) :
    (exportPoints {} shp).2
      = some (dictionary 2 (exportPoints {} shp).1.pointNames
          ++ (leBytes 4 (shp.points.length % 2 ^ 32)
          ++ shp.points.flatMap (fun p => intBytes 3 p.xy.ix ++ intBytes 3 p.xy.iy
              ++ leBytes 2 ((exportPoints {} shp).1.pointIndex p.name)))) := by
  have hvalid : ∀ n ∈ nameSet (shp.points.map Point.name), n ≠ [] ∧ ValidName n := by
    intro n hn
    obtain ⟨p, hp, rfl⟩ := List.mem_map.mp ((mem_nameSet _ _).mp hn)
    exact ⟨(hv p hp).1, (hv p hp).2⟩
  rw [(exportPoints_fst shp).1, (exportPoints_fst shp).2, exportPoints_snd,
    exportNames_eq [] _ 2 (ascending_nameSet _) hvalid, Option.map_some', List.nil_append,
    List.append_assoc]

theorem manyCounties_names :
    manyCountiesShp.polygons.map (fun p => p.names 0)
      = (List.range 256).map fun k => [1 + k / 16, 1 + k % 16] := by
  simp [manyCountiesShp, List.map_map, Function.comp_def]

theorem manyCounties_length :
    ((exportPolygons keepRing keepAll {} manyCountiesShp (-1)).1.polygonNames 0).length = 256 := by
  rw [(exportPolygons_fst keepRing keepAll manyCountiesShp (-1) 0).1, manyCounties_names,
    nameSet_of_ascending _ manyCounties_ascending]
  simp

theorem manyCounties_valid :
    ∀ p ∈ manyCountiesShp.polygons, ∀ i, p.names i ≠ [] ∧ (∀ b ∈ p.names i, b ≠ 0)
      ∧ (p.names i).length ≤ 255 := by
  intro p hp i
  simp only [manyCountiesShp, List.mem_map, List.mem_range] at hp
  obtain ⟨k, _, rfl⟩ := hp
  by_cases h0 : i = 0
  · simp [h0]
  · simp [h0]

theorem noName_undefined : (exportPolygons keepRing keepAll {} noNameShp (-1)).2 = none := by
  decide

/-- Claim C2, the claim refuted at 256 names: 256 polygons with 256 different
county names.  Slot 0 holds 256 names, the file is written, and reading its
first dictionary back (1-byte count) gives the empty list of names, in which no
index finds a name.  And for a polygon whose names are empty no dictionary is
written at all: `exportNames` reads the empty name past its terminator. -/
theorem index_lookup_fails_at_256 :
    ((exportPolygons keepRing keepAll {} manyCountiesShp (-1)).1.polygonNames 0).length = 256 ∧
    (∃ out tail, (exportPolygons keepRing keepAll {} manyCountiesShp (-1)).2 = some out ∧
      decodeNames 1 out = some ([], tail)) ∧
    (exportPolygons keepRing keepAll {} noNameShp (-1)).2 = none :=
  ⟨manyCounties_length,
    ⟨_, _, exportPolygons_file keepRing keepAll manyCountiesShp (-1) manyCounties_valid,
      decodeNames_zero_count 1 _ _ (by rw [manyCounties_length]; rfl)
        (by rw [manyCounties_length]; decide)⟩,
    noName_undefined⟩

theorem writePoint_index (idx : Name → Nat) (p : Point) :
    (writePoint idx [] p).drop 6 = leBytes 2 (idx p.name) := by
  have h : ([] ++ intBytes 3 p.xy.ix ++ intBytes 3 p.xy.iy).length = 6 := by
    simp [intBytes_length]
  rw [writePoint, List.drop_left' h]

theorem indexField_writePolygon (correct : Ring → Ring) (simplify : Ring → Int → Ring)
    (d : Int) (idx : Fin 3 → Name → Nat) (p : Polygon) (h : p.rings ≠ []) (i : Fin 3) :
    indexField (writePolygon correct simplify d idx [] p) i
      = leBytes (countWidth i) (idx i (p.names i)) := by
  rw [writePolygon_of_rings correct simplify d idx [] p h]
  fin_cases i <;> simp [indexField, countWidth, leBytes]

theorem occurrences_eq_one (q : Name) (l : List Name) (hnd : l.Nodup) (h : q ∈ l) :
    occurrences q l = 1 := by
  induction l with
  | nil => cases h
  | cons x xs ih =>
    rw [List.nodup_cons] at hnd
    unfold occurrences at ih ⊢
    by_cases e : x = q
    · subst e
      have hnone : xs.filter (fun y => decide (y = x)) = [] := by
        rw [List.filter_eq_nil_iff]
        intro y hy
        simp only [decide_eq_true_eq]
        intro e2
        exact hnd.1 (e2 ▸ hy)
      rw [List.filter_cons_of_pos (by simp), hnone]
      rfl
    · rw [List.filter_cons_of_neg (by simpa using e)]
      rcases List.mem_cons.mp h with h | h
      · exact absurd h.symm e
      · exact ih hnd.2 h

theorem countWidth_le (i : Fin 3) : countWidth i ≤ 4 := by
  unfold countWidth
  split <;> omega

/-- Claim C2 as amended (dictionary indices).  For every list of features, the
names of a slot form an ascending duplicate-free list that holds exactly the
names of the features.  When that list has at most `256 ^ w` names (`w` the
width of the index: 2 for points and polygon slot 2, 1 for polygon slots 0 and
1), the index written for a feature is the position of its name in the list,
the name occurs once in the list, and the list holds the name at the written
index.  When moreover the list has fewer than `256 ^ w` names and every name is
non-empty, NUL-free and at most 255 bytes long, the dictionaries read back
from the file are these lists. -/
theorem name_index_is_position (correct : Ring → Ring) (simplify : Ring → Int → Ring)
    (shp : SHP) (d : Int) :
    (Ascending (exportPoints {} shp).1.pointNames ∧
      (∀ x, x ∈ (exportPoints {} shp).1.pointNames ↔ ∃ p ∈ shp.points, p.name = x) ∧
      ((exportPoints {} shp).1.pointNames.length ≤ 256 ^ 2 → ∀ p ∈ shp.points,
        leValue ((writePoint (exportPoints {} shp).1.pointIndex [] p).drop 6)
            = position p.name (exportPoints {} shp).1.pointNames ∧
        occurrences p.name (exportPoints {} shp).1.pointNames = 1 ∧
        (exportPoints {} shp).1.pointNames.get?
            (leValue ((writePoint (exportPoints {} shp).1.pointIndex [] p).drop 6))
          = some p.name) ∧
      ((exportPoints {} shp).1.pointNames.length < 256 ^ 2 →
        (∀ p ∈ shp.points, p.name ≠ [] ∧ (∀ b ∈ p.name, b ≠ 0) ∧ p.name.length ≤ 255) →
        ∃ dict tail, (exportPoints {} shp).2 = some (dict ++ tail) ∧
          decodeNames 2 (dict ++ tail) = some ((exportPoints {} shp).1.pointNames, tail))) ∧
    ((∀ i, Ascending ((exportPolygons correct simplify {} shp d).1.polygonNames i) ∧
        (∀ x, x ∈ (exportPolygons correct simplify {} shp d).1.polygonNames i
          ↔ ∃ p ∈ shp.polygons, p.names i = x)) ∧
      (∀ i, ((exportPolygons correct simplify {} shp d).1.polygonNames i).length
          ≤ 256 ^ countWidth i →
        ∀ p ∈ shp.polygons, p.rings ≠ [] →
          leValue (indexField (writePolygon correct simplify d
              (exportPolygons correct simplify {} shp d).1.polygonIndex [] p) i)
            = position (p.names i) ((exportPolygons correct simplify {} shp d).1.polygonNames i) ∧
          occurrences (p.names i) ((exportPolygons correct simplify {} shp d).1.polygonNames i) = 1 ∧
          ((exportPolygons correct simplify {} shp d).1.polygonNames i).get?
              (leValue (indexField (writePolygon correct simplify d
                (exportPolygons correct simplify {} shp d).1.polygonIndex [] p) i))
            = some (p.names i)) ∧
      ((∀ i, ((exportPolygons correct simplify {} shp d).1.polygonNames i).length
          < 256 ^ countWidth i) →
        (∀ p ∈ shp.polygons, ∀ i, p.names i ≠ [] ∧ (∀ b ∈ p.names i, b ≠ 0)
          ∧ (p.names i).length ≤ 255) →
        ∃ d0 d1 d2 tail,
          (exportPolygons correct simplify {} shp d).2 = some (d0 ++ (d1 ++ (d2 ++ tail))) ∧
          decodeNames 1 (d0 ++ (d1 ++ (d2 ++ tail)))
            = some ((exportPolygons correct simplify {} shp d).1.polygonNames 0,
                d1 ++ (d2 ++ tail)) ∧
          decodeNames 1 (d1 ++ (d2 ++ tail))
            = some ((exportPolygons correct simplify {} shp d).1.polygonNames 1, d2 ++ tail) ∧
          decodeNames 2 (d2 ++ tail)
            = some ((exportPolygons correct simplify {} shp d).1.polygonNames 2, tail))) := by
  have hP := exportPoints_fst shp
  have hQ := exportPolygons_fst correct simplify shp d
  refine ⟨⟨?_, ?_, ?_, ?_⟩, ?_, ?_, ?_⟩
  · rw [hP.1]
    exact ascending_nameSet _
  · intro x
    rw [hP.1, mem_nameSet, List.mem_map]
  · intro hlen p hp
    have hmem : p.name ∈ (exportPoints {} shp).1.pointNames := by
      rw [hP.1, mem_nameSet]
      exact List.mem_map_of_mem _ hp
    have hasc : Ascending (exportPoints {} shp).1.pointNames := by
      rw [hP.1]
      exact ascending_nameSet _
    have hidx : leValue ((writePoint (exportPoints {} shp).1.pointIndex [] p).drop 6)
        = position p.name (exportPoints {} shp).1.pointNames := by
      rw [writePoint_index, hP.2, ← hP.1]
      exact index_written _ _ 2 p.name hasc (by omega) hlen hmem
    refine ⟨hidx, occurrences_eq_one _ _ (ascending_nodup _ hasc) hmem, ?_⟩
    rw [hidx]
    exact get_position p.name _ hmem
  · intro hlen hv
    exact ⟨_, _, exportPoints_file shp hv,
      decodeNames_dictionary _ 2 _ hlen (lt_trans hlen (by norm_num))⟩
  · intro i
    refine ⟨polygonNames_ascending correct simplify shp d i, ?_⟩
    intro x
    rw [(hQ i).1, mem_nameSet, List.mem_map]
  · intro i hlen p hp hr
    have hmem : p.names i ∈ (exportPolygons correct simplify {} shp d).1.polygonNames i := by
      rw [(hQ i).1, mem_nameSet]
      exact List.mem_map_of_mem (fun q : Polygon => q.names i) hp
    have hasc := polygonNames_ascending correct simplify shp d i
    have hidx : leValue (indexField (writePolygon correct simplify d
          (exportPolygons correct simplify {} shp d).1.polygonIndex [] p) i)
        = position (p.names i) ((exportPolygons correct simplify {} shp d).1.polygonNames i) := by
      rw [indexField_writePolygon correct simplify d _ p hr i, (hQ i).2, ← (hQ i).1]
      exact index_written _ _ (countWidth i) (p.names i) hasc (countWidth_le i) hlen hmem
    refine ⟨hidx, occurrences_eq_one _ _ (ascending_nodup _ hasc) hmem, ?_⟩
    rw [hidx]
    exact get_position (p.names i) _ hmem
  · intro hlen hv
    have h0 : ((exportPolygons correct simplify {} shp d).1.polygonNames 0).length < 256 ^ 1 :=
      hlen 0
    have h1 : ((exportPolygons correct simplify {} shp d).1.polygonNames 1).length < 256 ^ 1 :=
      hlen 1
    have h2 : ((exportPolygons correct simplify {} shp d).1.polygonNames 2).length < 256 ^ 2 :=
      hlen 2
    exact ⟨_, _, _, _, exportPolygons_file correct simplify shp d hv,
      decodeNames_dictionary _ 1 _ h0 (lt_trans h0 (by norm_num)),
      decodeNames_dictionary _ 1 _ h1 (lt_trans h1 (by norm_num)),
      decodeNames_dictionary _ 2 _ h2 (lt_trans h2 (by norm_num))⟩

/-- Witness of claim C2: the points `Kivinõmm` then `Abja` are written with the
indexes 1 and 0. -/
theorem name_index_is_position_witness :
    (exportPoints {} twoPointsShp).1.pointNames.length ≤ 256 ^ 2 ∧
    leValue ((writePoint (exportPoints {} twoPointsShp).1.pointIndex []
        { xy := { x := 6400000, y := 550000, ix := 500000, iy := 1000000 },
          name := [75, 105, 118, 105, 110, 245, 109, 109] }).drop 6)
      = position [75, 105, 118, 105, 110, 245, 109, 109]
          (exportPoints {} twoPointsShp).1.pointNames ∧
    position [75, 105, 118, 105, 110, 245, 109, 109] (exportPoints {} twoPointsShp).1.pointNames
      = 1 ∧
    position (ascii "Abja") (exportPoints {} twoPointsShp).1.pointNames = 0 :=
  ⟨by decide,
    ((name_index_is_position keepRing keepAll twoPointsShp (-1)).1.2.2.1 (by decide) _
      (List.mem_cons_self _ _)).1,
    by decide, by decide⟩

theorem lcpLen_le_right : ∀ (a b : Name), lcpLen a b ≤ b.length
  | [], _ => by simp [lcpLen]
  | _ :: _, [] => by simp [lcpLen]
  | x :: xs, y :: ys => by
    unfold lcpLen
    split
    · have := lcpLen_le_right xs ys
      simp only [List.length_cons]; omega
    · omega

theorem lcpLen_longest : ∀ (a b : Name) (n : Nat), n ≤ a.length → n ≤ b.length →
    a.take n = b.take n → n ≤ lcpLen a b
  | _, _, 0, _, _, _ => Nat.zero_le _
  | [], _, n + 1, h, _, _ => by simp at h
  | _ :: _, [], n + 1, _, h, _ => by simp at h
  | x :: xs, y :: ys, n + 1, ha, hb, h => by
    simp only [List.take_succ_cons, List.cons.injEq] at h
    simp only [List.length_cons] at ha hb
    have := lcpLen_longest xs ys n (by omega) (by omega) h.2
    unfold lcpLen
    rw [if_pos h.1]
    omega

theorem exportNames_256_bytes (rest : Name) (h : rest.length = 255) :
    exportNames [] [65 :: rest] 1 = some [1, 0, 0] := by
  have hc : commonLengthLoop (65 :: rest) [] 256 0 = some 0 := by
    show commonLengthLoop (65 :: rest) [] (255 + 1) 0 = some 0
    rw [commonLengthLoop]
    simp [charAt]
  rw [exportNames, exportNamesLoop, hc]
  simp only [List.length_cons, h, List.length_singleton]
  rfl

/-- Claim C13, the claim refuted: a set with the one name of 256 bytes `A`.  The
entry written after the count byte is `0, 0` and nothing else: the length byte
is not the length of the name and the 256 bytes of the name are not written. -/
theorem long_name_entry :
    (List.replicate 256 65 : Name) ≠ [] ∧
    exportNames [] [List.replicate 256 65] 1 = some [1, 0, 0] :=
  ⟨List.cons_ne_nil 65 (List.replicate 255 65),
    exportNames_256_bytes (List.replicate 255 65) (List.length_replicate 255 65)⟩

/-- Claim C13 as amended (front-coding entry format).  For every set of names
that are non-empty, NUL-free and at most 255 bytes long, `exportNames` writes
after the count field, for each name in ascending order, the length of the
longest common beginning of the name and the name before it (the empty string
before the first), the length of the name minus that length, and the rest of
the name; the set `AA`, `AB`, `ABC` is written as `(0, 2, AA)`, `(1, 1, B)`,
`(2, 1, C)`. -/
theorem exportNames_entries (f : List Nat) (names : List Name) (k : Nat)
    (hasc : Ascending names)
    (hvalid : ∀ n ∈ names, n ≠ [] ∧ (∀ b ∈ n, b ≠ 0) ∧ n.length ≤ 255) :
    exportNames f names k
      = some (f ++ leBytes k (names.length % 2 ^ 32) ++ frontCode [] names) ∧
    (∀ prev name rest, frontCode prev (name :: rest)
      = [lcpLen name prev, name.length - lcpLen name prev] ++ name.drop (lcpLen name prev)
        ++ frontCode name rest) ∧
    (∀ a b : Name, a.take (lcpLen a b) = b.take (lcpLen a b) ∧
      lcpLen a b ≤ a.length ∧ lcpLen a b ≤ b.length ∧
      ∀ n, n ≤ a.length → n ≤ b.length → a.take n = b.take n → n ≤ lcpLen a b) ∧
    frontCode [] [ascii "AA", ascii "AB", ascii "ABC"]
      = [0, 2] ++ ascii "AA" ++ ([1, 1] ++ ascii "B") ++ ([2, 1] ++ ascii "C") := by
  refine ⟨?_, ?_, ?_, by decide⟩
  · rw [exportNames_eq f names k hasc (fun n hn => ⟨(hvalid n hn).1, (hvalid n hn).2⟩),
      dictionary, List.append_assoc]
  · intro prev name rest
    simp [frontCode]
  · intro a b
    exact ⟨(take_lcpLen a b).symm, lcpLen_le_left a b, lcpLen_le_right a b,
      lcpLen_longest a b⟩

/-- Witness of claim C13: the set `AA`, `AB`, `ABC` with a 1-byte count. -/
theorem exportNames_entries_witness :
    Ascending [ascii "AA", ascii "AB", ascii "ABC"] ∧
    exportNames [] [ascii "AA", ascii "AB", ascii "ABC"] 1
      = some ([] ++ leBytes 1 (3 % 2 ^ 32) ++ frontCode [] [ascii "AA", ascii "AB", ascii "ABC"]) :=
  ⟨by decide, (exportNames_entries [] [ascii "AA", ascii "AB", ascii "ABC"] 1
    (by decide) (by decide)).1⟩

/-- Claim C14, the code at the failing input: a set that holds the empty name
and `A`.  For the first entry `name` and `prev` are both empty, `name[0] ==
prev[0]` compares the two terminators, and the loop goes on to `name[1]`, past
the terminator: no dictionary is defined. -/
theorem empty_name_dictionary :
    Ascending [[], [65]] ∧
    charAt [] 0 = some 0 ∧ charAt [] 1 = none ∧
    commonLengthLoop [] [] 256 0 = none ∧
    exportNames [] [[], [65]] 1 = none := by
  decide

theorem castInt_mono {s t : ℚ} (h : s ≤ t) : castInt s ≤ castInt t := by
  unfold castInt
  by_cases hs : 0 ≤ s
  · rw [if_pos hs, if_pos (le_trans hs h)]
    exact Int.floor_mono h
  · rw [if_neg hs]
    by_cases ht : 0 ≤ t
    · rw [if_pos ht]
      have h1 : Int.ceil s ≤ 0 := Int.ceil_le.mpr (by simpa using (not_le.mp hs).le)
      have h2 : 0 ≤ Int.floor t := Int.floor_nonneg.mpr ht
      exact le_trans h1 h2
    · rw [if_neg ht]
      exact Int.ceil_mono h

theorem quantize_mono (F : ℚ) {v w : ℚ} (h : v ≤ w) : quantize v F ≤ quantize w F := by
  unfold quantize
  apply castInt_mono
  apply roundDouble_mono
  have := roundDouble_mono (show v - F ≤ w - F by linarith)
  linarith

theorem roundDouble_eq_floor (q : ℚ) (e f : Int) (hq : 0 < q) (he : -1022 ≤ e)
    (h1 : 2 ^ e ≤ q) (h2 : q < 2 ^ (e + 1)) (hf1 : (f : ℚ) ≤ q / 2 ^ (e - 52))
    (hf2 : q / 2 ^ (e - 52) < f + 1 / 2) : roundDouble q = (f : ℚ) * 2 ^ (e - 52) := by
  unfold roundDouble
  rw [if_pos hq.le, roundMagnitude_eq q e hq he (Or.inl h1) h2,
    roundHalfEven_eq_floor _ f hf1 hf2]

/-- The double nearest to `6375000.05`. -/
theorem roundDouble_one_twentieth :
    roundDouble (1 / 20 + 6375000) = 6375000 + 53687091 / 2 ^ 30 := by
  rw [roundDouble_eq_floor (1 / 20 + 6375000) 22 6845104181687091 (by norm_num) (by decide)
    (by norm_num) (by norm_num) (by norm_num) (by norm_num)]
  norm_num

/-- Requantizing the double nearest to the dequantized value of `i`. -/
theorem requantize_near (i : Int) (F : ℚ) (hi : |i| ≤ 2 ^ 23) (hF : |F| ≤ 6375000) :
    |quantize (roundDouble ((i : ℚ) / 20 + F)) F - i| ≤ 1 := by
  have hi' := abs_le.mp hi
  have hi1 : (i : ℚ) ≤ 2 ^ 23 := by exact_mod_cast hi'.2
  have hi2 : -(2 : ℚ) ^ 23 ≤ (i : ℚ) := by exact_mod_cast hi'.1
  have hF' := abs_le.mp hF
  -- the nearest double of the dequantized value
  have e1 := roundDouble_error ((i : ℚ) / 20 + F) 22 (by decide) (by
    rw [abs_lt]
    constructor <;> norm_num <;> linarith)
  rw [show (2 : ℚ) ^ ((22 : Int) - 53) = 1 / 2 ^ 31 by norm_num] at e1
  have b1 := abs_le.mp e1
  -- the difference
  have e2 := roundDouble_error (roundDouble ((i : ℚ) / 20 + F) - F) 18 (by decide) (by
    rw [abs_lt]
    constructor <;> norm_num at b1 ⊢ <;> linarith)
  rw [show (2 : ℚ) ^ ((18 : Int) - 53) = 1 / 2 ^ 35 by norm_num] at e2
  have b2 := abs_le.mp e2
  -- the product
  have e3 := roundDouble_error (roundDouble (roundDouble ((i : ℚ) / 20 + F) - F) * 20) 23
    (by decide) (by
      rw [abs_lt]
      constructor <;> norm_num at b1 b2 ⊢ <;> linarith)
  rw [show (2 : ℚ) ^ ((23 : Int) - 53) = 1 / 2 ^ 30 by norm_num] at e3
  have b3 := abs_le.mp e3
  have ht := abs_lt.mp (castInt_trunc
    (roundDouble (roundDouble (roundDouble ((i : ℚ) / 20 + F) - F) * 20))).2
  have hlt : |((quantize (roundDouble ((i : ℚ) / 20 + F)) F - i : Int) : ℚ)| < 2 := by
    unfold quantize
    push_cast
    rw [abs_lt]
    constructor <;> norm_num at b1 b2 b3 ⊢ <;> linarith
  have hlt2 : |quantize (roundDouble ((i : ℚ) / 20 + F)) F - i| < 2 := by exact_mod_cast hlt
  omega

/-- Requantizing the dequantized value of a multiple of 5, which is a double. -/
theorem requantize_exact (k m : Int) (hk : |k| < 2 ^ 40) (hm : |m| < 2 ^ 40) :
    roundDouble (((5 * k : Int) : ℚ) / 20 + m) = ((5 * k : Int) : ℚ) / 20 + m ∧
    quantize (roundDouble (((5 * k : Int) : ℚ) / 20 + m)) m = 5 * k := by
  have hk' := abs_lt.mp hk
  have hm' := abs_lt.mp hm
  have e1 : ((5 * k : Int) : ℚ) / 20 + m = ((k + 4 * m : Int) : ℚ) * 2 ^ (-2 : Int) := by
    push_cast
    norm_num
    ring
  have hd : roundDouble (((5 * k : Int) : ℚ) / 20 + m) = ((5 * k : Int) : ℚ) / 20 + m := by
    rw [e1]
    exact roundDouble_dyadic _ _ (by rw [abs_lt]; omega) (by decide)
  refine ⟨hd, ?_⟩
  rw [hd, quantize_exact _ _ k (-2) (by push_cast; norm_num; ring) (by rw [abs_lt]; omega)
    (by decide)]
  have e2 : (((5 * k : Int) : ℚ) / 20 + m - m) * 20 = ((5 * k : Int) : ℚ) := by
    push_cast
    ring
  rw [e2, castInt_intCast]

/-- Claim C15, the claim refuted: the northing `6375000.0625` is quantized to 1;
the double nearest to the dequantized value `1 / 20 + 6375000` lies below it, and
its quantization is 0. -/
theorem requantize_one :
    roundDouble (6375000 + 1 / 16) = 6375000 + 1 / 16 ∧
    (XY.XY (6375000 + 1 / 16) 500000).ix = 1 ∧
    roundDouble ((1 : ℚ) / 20 + 6375000) < 1 / 20 + 6375000 ∧
    (XY.XY (roundDouble ((((XY.XY (6375000 + 1 / 16) 500000).ix : Int) : ℚ) / 20 + 6375000))
      500000).ix = 0 := by
  have hd : roundDouble (6375000 + 1 / 16) = 6375000 + 1 / 16 := by
    have h := roundDouble_dyadic 102000001 (-4) (by decide) (by decide)
    have e : ((102000001 : Int) : ℚ) * 2 ^ (-4 : Int) = 6375000 + 1 / 16 := by norm_num
    rwa [e] at h
  have h1 : quantize (6375000 + 1 / 16) FN = 1 := by
    rw [quantize_exact _ _ 1 (-4) (by norm_num [FN]) (by decide) (by decide)]
    unfold castInt
    rw [if_pos (by norm_num [FN]), Int.floor_eq_iff]
    norm_num [FN]
  have h0 : quantize (6375000 + 53687091 / 2 ^ 30) FN = 0 := by
    rw [quantize_exact _ _ 53687091 (-30) (by norm_num [FN]) (by decide) (by decide)]
    exact castInt_unit _ (by norm_num [FN]) (by norm_num [FN])
  have hix : (XY.XY (6375000 + 1 / 16) 500000).ix = 1 := h1
  refine ⟨hd, hix, ?_, ?_⟩
  · rw [roundDouble_one_twentieth]
    norm_num
  · rw [hix, Int.cast_one, roundDouble_one_twentieth]
    exact h0

/-- Claim C15 as amended (quantization is monotone, and stable up to one unit).
With `q` the two quantizations of `XY::XY`: a northing `x ≤ x'` gives
`ix ≤ ix'`, an easting `y ≤ y'` gives `iy ≤ iy'`.  With `d i = i / 20 + F` the
dequantized value of an integer of at most 24 bits, taken as the double nearest
to it: quantizing it gives an integer that differs from `i` by at most 1, and
gives `i` itself when `i` is a multiple of 5 (the dequantized value is then a
double). -/
theorem quantize_monotone_stable (x x' y y' : ℚ) (i j : Int) (hx : x ≤ x') (hy : y ≤ y')
    (hi : |i| ≤ 2 ^ 23) (hj : |j| ≤ 2 ^ 23) :
    ((XY.XY x y).ix ≤ (XY.XY x' y').ix ∧ (XY.XY x y).iy ≤ (XY.XY x' y').iy) ∧
    (|(XY.XY (roundDouble ((i : ℚ) / 20 + 6375000)) (roundDouble ((j : ℚ) / 20 + 500000))).ix - i|
        ≤ 1 ∧
      |(XY.XY (roundDouble ((i : ℚ) / 20 + 6375000)) (roundDouble ((j : ℚ) / 20 + 500000))).iy - j|
        ≤ 1) ∧
    (5 ∣ i →
      (XY.XY (roundDouble ((i : ℚ) / 20 + 6375000)) (roundDouble ((j : ℚ) / 20 + 500000))).ix
        = i) ∧
    (5 ∣ j →
      (XY.XY (roundDouble ((i : ℚ) / 20 + 6375000)) (roundDouble ((j : ℚ) / 20 + 500000))).iy
        = j) := by
  have hi' := abs_le.mp hi
  have hj' := abs_le.mp hj
  refine ⟨⟨quantize_mono FN hx, quantize_mono FE hy⟩, ⟨?_, ?_⟩, ?_, ?_⟩
  · exact requantize_near i FN hi (by norm_num [FN])
  · exact requantize_near j FE hj (by norm_num [FE, abs_le])
  · rintro ⟨k, rfl⟩
    have h := (requantize_exact k 6375000 (by rw [abs_lt]; omega) (by decide)).2
    exact_mod_cast h
  · rintro ⟨k, rfl⟩
    have h := (requantize_exact k 500000 (by rw [abs_lt]; omega) (by decide)).2
    exact_mod_cast h

/-- Witness of claim C15: northings 6375000.03125 and 6375000.0625, eastings
499999.5 and 500000, and the integers 5 and -10. -/
theorem quantize_monotone_stable_witness :
    ((6375000 + 1 / 32 : ℚ) ≤ 6375000 + 1 / 16 ∧ (500000 - 1 / 2 : ℚ) ≤ 500000) ∧
    (XY.XY (6375000 + 1 / 32) (500000 - 1 / 2)).ix ≤ (XY.XY (6375000 + 1 / 16) 500000).ix ∧
    (XY.XY (roundDouble (((5 : Int) : ℚ) / 20 + 6375000))
      (roundDouble (((-10 : Int) : ℚ) / 20 + 500000))).ix = 5 :=
  ⟨⟨by norm_num, by norm_num⟩,
    (quantize_monotone_stable (6375000 + 1 / 32) (6375000 + 1 / 16) (500000 - 1 / 2) 500000
      5 (-10) (by norm_num) (by norm_num) (by decide) (by decide)).1.1,
    (quantize_monotone_stable (6375000 + 1 / 32) (6375000 + 1 / 16) (500000 - 1 / 2) 500000
      5 (-10) (by norm_num) (by norm_num) (by decide) (by decide)).2.2.1 (by decide)⟩

/-- Claim C18, the claim refuted: an input ring of 19 points that the
normalizer closes to 20 points, tolerance 0.  The ring handed to the writer is
the output of the simplifier, 2 points, not the normalized ring of 20. -/
theorem short_input_ring_simplified :
    openRing19.length = 19 ∧
    (closeRing (openRing19.map fun xy => (xy.y, xy.x))).length = 20 ∧
    processRing closeRing keepTwo 0 openRing19
      = keepTwo (closeRing (openRing19.map fun xy => (xy.y, xy.x))) 0 ∧
    (processRing closeRing keepTwo 0 openRing19).length = 2 ∧
    processRing closeRing keepTwo 0 openRing19
      ≠ closeRing (openRing19.map fun xy => (xy.y, xy.x)) := by
  have h19 : openRing19.length = 19 := by
    simp only [openRing19, List.length_map, List.length_range]
  have h20 : (closeRing (openRing19.map fun xy => (xy.y, xy.x))).length = 20 := by
    simp only [closeRing, List.length_append, List.length_map, List.length_take, h19]
    decide
  have hp : processRing closeRing keepTwo 0 openRing19
      = keepTwo (closeRing (openRing19.map fun xy => (xy.y, xy.x))) 0 := by
    unfold processRing
    simp only [h20]
    rw [if_neg (by decide)]
  have h2 : (processRing closeRing keepTwo 0 openRing19).length = 2 := by
    rw [hp]
    simp only [keepTwo, List.length_take, h20]
    decide
  refine ⟨h19, h20, hp, h2, ?_⟩
  intro e
  rw [e, h20] at h2
  exact absurd h2 (by decide)

/-- Claim C18 as amended (simplification pass-through).  With normalization and
simplification as abstract functions: when the tolerance is negative, or when
the normalized ring has fewer than 20 points, the ring handed to the writer is
the normalized ring; otherwise it is the output of the simplifier on the
normalized ring; and the rings written for a polygon are these rings, in
order. -/
theorem simplification_pass_through (correct : Ring → Ring) (simplify : Ring → Int → Ring)
    (d : Int) :
    (∀ ring : List XY, d < 0 ∨ (correct (ring.map fun xy => (xy.y, xy.x))).length < 20 →
      processRing correct simplify d ring = correct (ring.map fun xy => (xy.y, xy.x))) ∧
    (∀ ring : List XY, 0 ≤ d → 20 ≤ (correct (ring.map fun xy => (xy.y, xy.x))).length →
      processRing correct simplify d ring
        = simplify (correct (ring.map fun xy => (xy.y, xy.x))) d) ∧
    (∀ (idx : Fin 3 → Name → Nat) (p : Polygon), p.rings ≠ [] →
      (writePolygon correct simplify d idx [] p).drop 6
        = (p.rings.map (processRing correct simplify d)).flatMap (writeRing [])) := by
  refine ⟨?_, ?_, ?_⟩
  · intro ring h
    unfold processRing
    simp only
    rw [if_pos h]
  · intro ring h0 h20
    unfold processRing
    simp only
    rw [if_neg (by omega)]
  · intro idx p hp
    rw [writePolygon_of_rings correct simplify d idx [] p hp, List.nil_append]
    apply List.drop_left'
    simp [leBytes_length]

/-- Witness of claim C18: a ring of three points and a negative tolerance. -/
theorem simplification_pass_through_witness :
    ((-1 : Int) < 0 ∨
      (keepRing (([{ x := 1, y := 2 }, { x := 3, y := 4 }, { x := 1, y := 2 }] : List XY).map
        fun xy => (xy.y, xy.x))).length < 20) ∧
    processRing keepRing keepTwo (-1) [{ x := 1, y := 2 }, { x := 3, y := 4 }, { x := 1, y := 2 }]
      = keepRing (([{ x := 1, y := 2 }, { x := 3, y := 4 }, { x := 1, y := 2 }] : List XY).map
        fun xy => (xy.y, xy.x)) :=
  ⟨Or.inl (by decide),
    (simplification_pass_through keepRing keepTwo (-1)).1 _ (Or.inl (by decide))⟩

theorem getD_lt_of_isBytes (file : List Nat) (h : IsBytes file) (k : Nat) :
    file.getD k 0 < 256 := by
  by_cases hk : k < file.length
  · rw [List.getD_eq_getElem _ _ hk]
    exact h _ (List.getElem_mem hk)
  · rw [List.getD_eq_default _ _ (by omega)]
    decide

theorem readBuffer_of_lt (file : List Nat) (h : IsBytes file) (pos n k : Nat) (hk : k < n) :
    readBuffer file pos n k = file.getD (pos + k) 0 := by
  unfold readBuffer
  rw [if_pos hk]
  exact Nat.mod_eq_of_lt (getD_lt_of_isBytes file h _)

theorem readBuffer_lt_256 (file : List Nat) (pos n k : Nat) : readBuffer file pos n k < 256 := by
  unfold readBuffer
  split
  · exact Nat.mod_lt _ (by decide)
  · decide

theorem shiftSum_of_lt (a b c d : Nat) (ha : a < 256) (hb : b < 256) (hc : c < 256)
    (hd : d < 256) (h : a * 2 ^ 24 + b * 2 ^ 16 + c * 2 ^ 8 + d < 2 ^ 31) :
    shiftSum a b c d = ((a * 2 ^ 24 + b * 2 ^ 16 + c * 2 ^ 8 + d : Nat) : Int) := by
  unfold shiftSum toInt32
  push_cast
  omega

theorem toUnsigned_shiftSum (a b c d : Nat) (ha : a < 256) (hb : b < 256) (hc : c < 256)
    (hd : d < 256) :
    toUnsigned (shiftSum a b c d) = a * 2 ^ 24 + b * 2 ^ 16 + c * 2 ^ 8 + d := by
  unfold toUnsigned shiftSum toInt32
  omega

theorem shxRecordCount_eq (buf : Memory) (L : Nat)
    (hL : L = buf 24 * 2 ^ 24 + buf 25 * 2 ^ 16 + buf 26 * 2 ^ 8 + buf 27)
    (hb : ∀ k, buf k < 256) (h50 : 50 ≤ L) (h31 : L < 2 ^ 31) :
    shxRecordCount buf = (L - 50) / 4 := by
  unfold shxRecordCount
  rw [shiftSum_of_lt _ _ _ _ (hb 24) (hb 25) (hb 26) (hb 27) (by omega), ← hL]
  have e : toInt32 ((L : Int) - 50) = ((L - 50 : Nat) : Int) := by
    unfold toInt32
    omega
  rw [e, Int.tdiv_eq_ediv (by omega) (by decide)]
  unfold toUnsigned
  omega

theorem addPoint_fixed (shp : SHP) (i : Nat) :
    (addPoint shp i).recordCount = shp.recordCount ∧
    (addPoint shp i).shapeType = shp.shapeType ∧
    (addPoint shp i).dbfRecordLength = shp.dbfRecordLength ∧
    (addPoint shp i).polygons = shp.polygons := by
  unfold addPoint
  dsimp only
  split <;> exact ⟨rfl, rfl, rfl, rfl⟩

theorem foldl_addPoint_fixed : ∀ (l : List Nat) (shp : SHP),
    (l.foldl addPoint shp).recordCount = shp.recordCount ∧
    (l.foldl addPoint shp).shapeType = shp.shapeType ∧
    (l.foldl addPoint shp).dbfField = shp.dbfField ∧
    (l.foldl addPoint shp).dbfRecordLength = shp.dbfRecordLength ∧
    (l.foldl addPoint shp).polygons = shp.polygons
  | [], _ => ⟨rfl, rfl, rfl, rfl, rfl⟩
  | i :: rest, shp => by
    have h := foldl_addPoint_fixed rest (addPoint shp i)
    have h1 := addPoint_fixed shp i
    have h2 := addPoint_parse shp i
    rw [List.foldl_cons]
    exact ⟨h.1.trans h1.1, h.2.1.trans h1.2.1, h.2.2.1.trans h2.1, h.2.2.2.1.trans h1.2.2.1,
      h.2.2.2.2.trans h1.2.2.2⟩

theorem foldl_addPolygon_fixed : ∀ (l : List Nat) (shp : SHP),
    (l.foldl addPolygon shp).recordCount = shp.recordCount ∧
    (l.foldl addPolygon shp).shapeType = shp.shapeType ∧
    (l.foldl addPolygon shp).dbfField = shp.dbfField ∧
    (l.foldl addPolygon shp).dbfRecordLength = shp.dbfRecordLength ∧
    (l.foldl addPolygon shp).points = shp.points ∧
    (l.foldl addPolygon shp).shpData = shp.shpData ∧
    (l.foldl addPolygon shp).offsets = shp.offsets
  | [], _ => ⟨rfl, rfl, rfl, rfl, rfl, rfl, rfl⟩
  | i :: rest, shp => by
    have h := foldl_addPolygon_fixed rest (addPolygon shp i)
    rw [List.foldl_cons]
    exact ⟨h.1, h.2.1, h.2.2.1, h.2.2.2.1, h.2.2.2.2.1, h.2.2.2.2.2.1, h.2.2.2.2.2.2⟩


theorem addPoints_fixed (s : SHP) :
    (addPoints s).recordCount = s.recordCount ∧ (addPoints s).shapeType = s.shapeType ∧
    (addPoints s).dbfField = s.dbfField ∧ (addPoints s).dbfRecordLength = s.dbfRecordLength ∧
    (addPoints s).polygons = s.polygons :=
  foldl_addPoint_fixed _ s

theorem addPolygons_fixed (s : SHP) :
    (addPolygons s).recordCount = s.recordCount ∧ (addPolygons s).shapeType = s.shapeType ∧
    (addPolygons s).dbfField = s.dbfField ∧ (addPolygons s).dbfRecordLength = s.dbfRecordLength ∧
    (addPolygons s).points = s.points ∧ (addPolygons s).shpData = s.shpData ∧
    (addPolygons s).offsets = s.offsets :=
  foldl_addPolygon_fixed _ s

theorem state_thrown (e : ReadError) (s : SHP) : (Outcome.thrown e s).state = s := rfl

theorem error_thrown (e : ReadError) (s : SHP) : (Outcome.thrown e s).error = some e := rfl

theorem state_done (s : SHP) : (Outcome.done s).state = s := rfl

theorem error_done (s : SHP) : (Outcome.done s).error = none := rfl

/-- The three ways `SHP::read` ends when the three files open. -/
theorem read_of_files (shp : SHP) (shpFile shxFile dbfFile : List Nat) :
    (readBuffer shxFile 0 100 32 ≠ 1 ∧ readBuffer shxFile 0 100 32 ≠ 5 →
      (SHP.read shp ⟨some shpFile, some shxFile, some dbfFile⟩).error
        = some (.unsupportedShapeType (readBuffer shxFile 0 100 32))) ∧
    (¬ (readBuffer shxFile 0 100 32 ≠ 1 ∧ readBuffer shxFile 0 100 32 ≠ 5) →
      shxRecordCount (readBuffer shxFile 0 100) ≠ dbfRecordCount (readBuffer dbfFile 0 32) →
      (SHP.read shp ⟨some shpFile, some shxFile, some dbfFile⟩).error
        = some (.recordCountMismatch (shxRecordCount (readBuffer shxFile 0 100))
            (dbfRecordCount (readBuffer dbfFile 0 32)))) ∧
    (¬ (readBuffer shxFile 0 100 32 ≠ 1 ∧ readBuffer shxFile 0 100 32 ≠ 5) →
      shxRecordCount (readBuffer shxFile 0 100) = dbfRecordCount (readBuffer dbfFile 0 32) →
      (SHP.read shp ⟨some shpFile, some shxFile, some dbfFile⟩).error = none ∧
      (SHP.read shp ⟨some shpFile, some shxFile, some dbfFile⟩).state.dbfField
        = readFields (readBuffer dbfFile 32 (dbfFieldsLength (readBuffer dbfFile 0 32)))
            (dbfFieldsLength (readBuffer dbfFile 0 32) / 32) 0 1 ∧
      (SHP.read shp ⟨some shpFile, some shxFile, some dbfFile⟩).state.dbfRecordLength
        = dbfHeaderRecordLength (readBuffer dbfFile 0 32)) ∧
    (SHP.read shp ⟨some shpFile, some shxFile, some dbfFile⟩).state.recordCount
      = shxRecordCount (readBuffer shxFile 0 100) ∧
    (SHP.read shp ⟨some shpFile, some shxFile, some dbfFile⟩).state.shapeType
      = readBuffer shxFile 0 100 32 ∧
    ((SHP.read shp ⟨some shpFile, some shxFile, some dbfFile⟩).error ≠ none →
      (SHP.read shp ⟨some shpFile, some shxFile, some dbfFile⟩).state.points = shp.points ∧
      (SHP.read shp ⟨some shpFile, some shxFile, some dbfFile⟩).state.polygons = shp.polygons) := by
  unfold SHP.read
  dsimp only
  by_cases h1 : readBuffer shxFile 0 100 32 ≠ 1 ∧ readBuffer shxFile 0 100 32 ≠ 5
  · rw [if_pos h1]
    refine ⟨fun _ => error_thrown _ _, fun h => absurd h1 h, fun h => absurd h1 h, ?_, ?_,
      fun _ => ⟨?_, ?_⟩⟩
    all_goals rw [state_thrown]
  · rw [if_neg h1]
    by_cases h2 : shxRecordCount (readBuffer shxFile 0 100) ≠ dbfRecordCount (readBuffer dbfFile 0 32)
    · rw [if_pos h2]
      refine ⟨fun h => absurd h h1, fun _ _ => error_thrown _ _, fun _ h => absurd h h2, ?_, ?_,
        fun _ => ⟨?_, ?_⟩⟩
      all_goals rw [state_thrown]
    · rw [if_neg h2]
      refine ⟨fun h => absurd h h1, fun _ h => absurd h h2,
        fun _ _ => ⟨error_done _, ?_, ?_⟩, ?_, ?_, fun h => absurd (error_done _) h⟩
      all_goals rw [state_done]
      all_goals split
      · rw [(addPoints_fixed _).2.2.1]
      · rw [(addPolygons_fixed _).2.2.1]
      · rw [(addPoints_fixed _).2.2.2.1]
      · rw [(addPolygons_fixed _).2.2.2.1]
      · rw [(addPoints_fixed _).1]
      · rw [(addPolygons_fixed _).1]
      · rw [(addPoints_fixed _).2.1]
      · rw [(addPolygons_fixed _).2.1]

theorem bigEndian32At_buffer (file : List Nat) (h : IsBytes file) :
    bigEndian32At file 24 = readBuffer file 0 100 24 * 2 ^ 24 + readBuffer file 0 100 25 * 2 ^ 16
      + readBuffer file 0 100 26 * 2 ^ 8 + readBuffer file 0 100 27 := by
  rw [readBuffer_of_lt file h 0 100 24 (by decide), readBuffer_of_lt file h 0 100 25 (by decide),
    readBuffer_of_lt file h 0 100 26 (by decide), readBuffer_of_lt file h 0 100 27 (by decide)]
  simp only [bigEndian32At, Nat.zero_add]

theorem shapeType_byte (file : List Nat) (h : IsBytes file) :
    readBuffer file 0 100 32 = littleEndian32At file 32 % 256 := by
  rw [readBuffer_of_lt file h 0 100 32 (by decide)]
  have h0 := getD_lt_of_isBytes file h 32
  simp only [littleEndian32At, Nat.zero_add]
  omega

theorem dbfRecordCount_buffer (file : List Nat) (h : IsBytes file) :
    dbfRecordCount (readBuffer file 0 32) = littleEndian32At file 4 := by
  unfold dbfRecordCount
  rw [toUnsigned_shiftSum _ _ _ _ (readBuffer_lt_256 _ _ _ _) (readBuffer_lt_256 _ _ _ _)
    (readBuffer_lt_256 _ _ _ _) (readBuffer_lt_256 _ _ _ _),
    readBuffer_of_lt file h 0 32 4 (by decide), readBuffer_of_lt file h 0 32 5 (by decide),
    readBuffer_of_lt file h 0 32 6 (by decide), readBuffer_of_lt file h 0 32 7 (by decide)]
  simp only [littleEndian32At, Nat.zero_add, Nat.reduceAdd]
  omega

theorem read_without_file (shp : SHP) (files : Triad)
    (h : files.shp = none ∨ files.shx = none ∨ files.dbf = none) :
    (SHP.read shp files).error ≠ none ∧ (SHP.read shp files).state = shp := by
  obtain ⟨a, b, c⟩ := files
  unfold SHP.read
  cases a with
  | none => exact ⟨(fun h => Option.noConfusion h), rfl⟩
  | some a =>
    cases b with
    | none => exact ⟨(fun h => Option.noConfusion h), rfl⟩
    | some b =>
      cases c with
      | none => exact ⟨(fun h => Option.noConfusion h), rfl⟩
      | some c => simp at h

/-- Claim C19 as amended (record count from the index header).  With `L` the
big-endian unsigned 32-bit value of bytes 24..27 of the 100-byte index-file
header, `SHP::read` sets the record count to `(L − 50) / 4` for every `L` with
`50 ≤ L < 2^31`; when the length `2 L` in bytes is that of a header followed by
`k` index entries of 8 bytes, `100 + 8 k`, the record count is `k`. -/
theorem record_count_of_index_header (shp : SHP) (shpFile shxFile dbfFile : List Nat)
    (hlen : 100 ≤ shxFile.length) (hbytes : IsBytes shxFile)
    (h50 : 50 ≤ bigEndian32At shxFile 24) (h31 : bigEndian32At shxFile 24 < 2 ^ 31) :
    (SHP.read shp ⟨some shpFile, some shxFile, some dbfFile⟩).state.recordCount
        = (bigEndian32At shxFile 24 - 50) / 4 ∧
      ∀ k, 2 * bigEndian32At shxFile 24 = 100 + 8 * k →
        (SHP.read shp ⟨some shpFile, some shxFile, some dbfFile⟩).state.recordCount = k := by
  have _ := hlen
  have e := (read_of_files shp shpFile shxFile dbfFile).2.2.2.1
  have e2 := shxRecordCount_eq (readBuffer shxFile 0 100) (bigEndian32At shxFile 24)
    (bigEndian32At_buffer shxFile hbytes) (readBuffer_lt_256 _ _ _) h50 h31
  rw [e, e2]
  refine ⟨rfl, fun k hk => ?_⟩
  omega

/-- Witness of claim C19: a header with length field `00 00 00 36` (54
words: the header and one index entry) gives one record. -/
theorem record_count_of_index_header_witness :
    100 ≤ (sampleHeader [0, 0, 0, 54] [1, 0, 0, 0] ++ [0, 0, 0, 50, 0, 0, 0, 10]).length ∧
    IsBytes (sampleHeader [0, 0, 0, 54] [1, 0, 0, 0] ++ [0, 0, 0, 50, 0, 0, 0, 10]) ∧
    bigEndian32At (sampleHeader [0, 0, 0, 54] [1, 0, 0, 0] ++ [0, 0, 0, 50, 0, 0, 0, 10]) 24 = 54 ∧
    (SHP.read {} ⟨some (sampleHeader [0, 0, 0, 64] [1, 0, 0, 0] ++ List.replicate 28 0),
      some (sampleHeader [0, 0, 0, 54] [1, 0, 0, 0] ++ [0, 0, 0, 50, 0, 0, 0, 10]),
      some (sampleDbfHeader 1 33 1 ++ [13, 32])⟩).state.recordCount = 1 :=
  ⟨by decide, by decide, by decide,
    (record_count_of_index_header {} _ _ _ (by decide) (by decide) (by decide) (by decide)).2 1
      (by decide)⟩

/-- Claim C19, the claim refuted: the header whose length field holds
`FF FF FF FF` has `L = 2^32 − 1`, for which `(L − 50) / 4 = 1073741811`; the
`int` arithmetic of `SHP::read` gives the record count `4294967284`. -/
theorem record_count_of_full_length :
    (∃ shpFile shxFile dbfFile, fullLengthTriad = ⟨some shpFile, some shxFile, some dbfFile⟩ ∧
      shxFile.length = 100 ∧ IsBytes shxFile ∧ bigEndian32At shxFile 24 = 2 ^ 32 - 1) ∧
    (2 ^ 32 - 1 - 50) / 4 = 1073741811 ∧
    (SHP.read {} fullLengthTriad).state.recordCount = 4294967284 := by
  refine ⟨⟨_, _, _, rfl, by decide, by decide, by decide⟩, by decide, ?_⟩
  exact ((read_of_files {} _ _ _).2.2.2.1).trans (by decide)

/-- Claim C12, the claim refuted: the index-file header whose shape type
field holds the bytes `01 01 00 00` has the 32-bit little-endian value 257,
which is neither 1 nor 5; `SHP::read` tests byte 32 alone and ends without an
exception. -/
theorem shape_type_257_accepted :
    (∃ shpFile shxFile dbfFile, type257Triad = ⟨some shpFile, some shxFile, some dbfFile⟩ ∧
      shxFile.length = 100 ∧ IsBytes shxFile ∧ littleEndian32At shxFile 32 = 257) ∧
    (SHP.read {} type257Triad).error = none ∧
    (SHP.read {} type257Triad).state.shapeType = 1 := by
  refine ⟨⟨_, _, _, rfl, by decide, by decide, by decide⟩, ?_, ?_⟩
  · exact ((read_of_files {} _ _ _).2.2.1 (by decide) (by decide)).1
  · exact ((read_of_files {} _ _ _).2.2.2.2.1).trans (by decide)

/-- Claim C12 as amended (unsupported shape types).  With `v` the 32-bit
little-endian value of bytes 32..35 of the 100-byte index-file header,
`SHP::read` throws the exception of an unsupported shape type exactly when the
low byte `v % 256` (byte 32) is neither 1 nor 5, whatever bytes 33..35 hold; it
then leaves the points and polygons lists as they were.  When the field's value
is exactly 1 or 5 that exception is not thrown. -/
theorem shape_type_low_byte (shp : SHP) (shpFile shxFile dbfFile : List Nat)
    (hlen : 100 ≤ shxFile.length) (hbytes : IsBytes shxFile) :
    ((SHP.read shp ⟨some shpFile, some shxFile, some dbfFile⟩).error
        = some (.unsupportedShapeType (littleEndian32At shxFile 32 % 256)) ↔
      littleEndian32At shxFile 32 % 256 ≠ 1 ∧ littleEndian32At shxFile 32 % 256 ≠ 5) ∧
    (littleEndian32At shxFile 32 % 256 ≠ 1 ∧ littleEndian32At shxFile 32 % 256 ≠ 5 →
      (SHP.read shp ⟨some shpFile, some shxFile, some dbfFile⟩).state.points = shp.points ∧
      (SHP.read shp ⟨some shpFile, some shxFile, some dbfFile⟩).state.polygons = shp.polygons) ∧
    (littleEndian32At shxFile 32 = 1 ∨ littleEndian32At shxFile 32 = 5 →
      ∀ t, (SHP.read shp ⟨some shpFile, some shxFile, some dbfFile⟩).error
        ≠ some (.unsupportedShapeType t)) := by
  have _ := hlen
  have hr := read_of_files shp shpFile shxFile dbfFile
  rw [shapeType_byte shxFile hbytes] at hr
  have key : ¬ (littleEndian32At shxFile 32 % 256 ≠ 1 ∧ littleEndian32At shxFile 32 % 256 ≠ 5) →
      ∀ t, (SHP.read shp ⟨some shpFile, some shxFile, some dbfFile⟩).error
        ≠ some (.unsupportedShapeType t) := by
    intro hn t ht
    by_cases hc : shxRecordCount (readBuffer shxFile 0 100) = dbfRecordCount (readBuffer dbfFile 0 32)
    · rw [(hr.2.2.1 hn hc).1] at ht
      exact Option.noConfusion ht
    · rw [hr.2.1 hn hc] at ht
      exact ReadError.noConfusion (Option.some.inj ht)
  refine ⟨⟨fun h => ?_, hr.1⟩, fun h => hr.2.2.2.2.2 (by rw [hr.1 h]; exact fun h => Option.noConfusion h),
    fun h => key (fun hh => ?_)⟩
  · by_contra hn
    exact key hn _ h
  · rcases h with h | h <;> rw [h] at hh
    · exact hh.1 rfl
    · exact hh.2 rfl

/-- Witness of claim C12: a header whose shape type field holds 3
(`03 00 00 00`, a polyline) is rejected. -/
theorem shape_type_low_byte_witness :
    100 ≤ (sampleHeader [0, 0, 0, 50] [3, 0, 0, 0]).length ∧
    IsBytes (sampleHeader [0, 0, 0, 50] [3, 0, 0, 0]) ∧
    (SHP.read {} ⟨some (sampleHeader [0, 0, 0, 50] [3, 0, 0, 0]),
      some (sampleHeader [0, 0, 0, 50] [3, 0, 0, 0]), some (sampleDbfHeader 0 33 1 ++ [13])⟩).error
        = some (.unsupportedShapeType 3) :=
  ⟨by decide, by decide,
    (shape_type_low_byte {} (sampleHeader [0, 0, 0, 50] [3, 0, 0, 0])
      (sampleHeader [0, 0, 0, 50] [3, 0, 0, 0]) (sampleDbfHeader 0 33 1 ++ [13])
      (by decide) (by decide)).1.2 (by decide)⟩

/-- Claim C11 (record count mismatch is fatal).  When the record count that
`SHP::read` derives from the index-file header differs from the record count of
the attribute-file header (the 32-bit little-endian value of its bytes 4..7),
the call ends with an exception and the points and polygons lists are what they
were before the call; with the three files present and a supported shape type
the exception is the one of the record count mismatch. -/
theorem record_count_mismatch_fatal (shp : SHP) (files : Triad)
    (h : ∀ shxFile dbfFile, files.shx = some shxFile → files.dbf = some dbfFile →
      100 ≤ shxFile.length ∧ 32 ≤ dbfFile.length ∧ IsBytes dbfFile ∧
      shxRecordCount (readBuffer shxFile 0 100) ≠ littleEndian32At dbfFile 4) :
    (SHP.read shp files).error ≠ none ∧
    (SHP.read shp files).state.points = shp.points ∧
    (SHP.read shp files).state.polygons = shp.polygons ∧
    ∀ shpFile shxFile dbfFile, files = ⟨some shpFile, some shxFile, some dbfFile⟩ →
      readBuffer shxFile 0 100 32 = 1 ∨ readBuffer shxFile 0 100 32 = 5 →
      (SHP.read shp files).error = some (.recordCountMismatch
        (shxRecordCount (readBuffer shxFile 0 100)) (littleEndian32At dbfFile 4)) := by
  obtain ⟨a, b, c⟩ := files
  by_cases hf : a = none ∨ b = none ∨ c = none
  · have hw := read_without_file shp ⟨a, b, c⟩ hf
    refine ⟨hw.1, by rw [hw.2], by rw [hw.2], fun x y z e _ => ?_⟩
    injection e with e1 e2 e3
    subst e1 e2 e3
    simp at hf
  · obtain ⟨shpFile, rfl⟩ := Option.ne_none_iff_exists'.mp (fun e => hf (Or.inl e))
    obtain ⟨shxFile, rfl⟩ := Option.ne_none_iff_exists'.mp (fun e => hf (Or.inr (Or.inl e)))
    obtain ⟨dbfFile, rfl⟩ := Option.ne_none_iff_exists'.mp (fun e => hf (Or.inr (Or.inr e)))
    obtain ⟨_, _, hb, hne⟩ := h shxFile dbfFile rfl rfl
    rw [← dbfRecordCount_buffer dbfFile hb] at hne
    have hr := read_of_files shp shpFile shxFile dbfFile
    have herr : (SHP.read shp ⟨some shpFile, some shxFile, some dbfFile⟩).error ≠ none := by
      by_cases h1 : readBuffer shxFile 0 100 32 ≠ 1 ∧ readBuffer shxFile 0 100 32 ≠ 5
      · rw [hr.1 h1]
        exact fun h => Option.noConfusion h
      · rw [hr.2.1 h1 hne]
        exact fun h => Option.noConfusion h
    refine ⟨herr, (hr.2.2.2.2.2 herr).1, (hr.2.2.2.2.2 herr).2, fun x y z e ht => ?_⟩
    injection e with e1 e2 e3
    injection e1 with e1
    injection e2 with e2
    injection e3 with e3
    subst e1 e2 e3
    rw [← dbfRecordCount_buffer _ hb]
    exact hr.2.1 (fun hh => by rcases ht with ht | ht <;> rw [ht] at hh <;> simp at hh) hne

/-- Witness of claim C11: an index header announcing one record with an
attribute header announcing two: the read fails with the record count mismatch
and extracts nothing. -/
theorem record_count_mismatch_fatal_witness :
    (SHP.read {} mismatchTriad).error = some (.recordCountMismatch 1 2) ∧
    (SHP.read {} mismatchTriad).state.points = [] ∧
    (SHP.read {} mismatchTriad).state.polygons = [] := by
  have h := record_count_mismatch_fatal {} mismatchTriad (by
    intro shxFile dbfFile e1 e2
    injection e1 with e1
    injection e2 with e2
    subst e1 e2
    decide)
  exact ⟨(h.2.2.2 _ _ _ rfl (by decide)).trans (by decide), h.2.1, h.2.2.1⟩

theorem readFields_length (buf : Memory) : ∀ count i offset,
    (readFields buf count i offset).length = count
  | 0, _, _ => rfl
  | count + 1, i, offset => by
    rw [readFields]
    exact congrArg Nat.succ (readFields_length buf count _ _)

theorem sum_range_shift (f : Nat → Nat) (k : Nat) :
    ((List.range (k + 1)).map f).sum = f 0 + ((List.range k).map fun m => f (m + 1)).sum := by
  rw [List.range_succ_eq_map, List.map_cons, List.sum_cons, List.map_map]
  rfl

theorem sum_range_le (f : Nat → Nat) (c : Nat) (h : ∀ m, f m ≤ c) :
    ∀ k, ((List.range k).map f).sum ≤ c * k
  | 0 => by simp
  | k + 1 => by
    rw [List.range_succ, List.map_append, List.sum_append]
    have := sum_range_le f c h k
    have := h k
    simp only [List.map_cons, List.map_nil, List.sum_cons, List.sum_nil, Nat.add_zero]
    rw [Nat.mul_succ]
    omega

theorem sum_range_mono (f : Nat → Nat) : ∀ k j, j ≤ k →
    ((List.range j).map f).sum ≤ ((List.range k).map f).sum
  | 0, j, h => by
    have : j = 0 := by omega
    rw [this]
  | k + 1, j, h => by
    rw [List.range_succ, List.map_append, List.sum_append]
    by_cases hj : j = k + 1
    · rw [hj, List.range_succ, List.map_append, List.sum_append]
    · have := sum_range_mono f k j (by omega)
      omega

theorem readFields_get (buf : Memory) (hb : ∀ a, buf a < 256) : ∀ count i offset k,
    k < count → offset + 255 * count < 2 ^ 32 →
    (readFields buf count i offset)[k]? = some
      { name := (List.range 11).map (fun m => buf ((i + k) * 32 + m)) ++ [0],
        offset := offset + ((List.range k).map fun m => buf ((i + m) * 32 + 16)).sum,
        length := buf ((i + k) * 32 + 16) }
  | 0, _, _, _, h, _ => absurd h (Nat.not_lt_zero _)
  | count + 1, i, offset, 0, _, _ => by
    rw [readFields]
    simp
  | count + 1, i, offset, k + 1, h, hoff => by
    have hlen := hb (i * 32 + 16)
    rw [readFields]
    simp only [List.getElem?_cons_succ]
    rw [readFields_get buf hb count (i + 1) _ k (by omega)
      (by rw [Nat.mod_eq_of_lt (by omega)]; omega), Nat.mod_eq_of_lt (by omega),
      sum_range_shift (fun m => buf ((i + m) * 32 + 16)) k]
    simp only [Nat.add_zero, Nat.add_assoc, Nat.add_comm 1]

theorem dbfFieldsLength_buffer (file : List Nat) (h : IsBytes file)
    (h32 : 32 ≤ littleEndian16At file 8) :
    dbfFieldsLength (readBuffer file 0 32) = littleEndian16At file 8 - 32 := by
  have h8 := getD_lt_of_isBytes file h 8
  have h9 := getD_lt_of_isBytes file h 9
  unfold dbfFieldsLength toUnsigned
  rw [readBuffer_of_lt file h 0 32 8 (by decide), readBuffer_of_lt file h 0 32 9 (by decide)]
  simp only [littleEndian16At, Nat.zero_add, Nat.reduceAdd] at h32 ⊢
  omega

theorem dbfHeaderRecordLength_buffer (file : List Nat) (h : IsBytes file) :
    dbfHeaderRecordLength (readBuffer file 0 32) = littleEndian16At file 10 := by
  have h10 := getD_lt_of_isBytes file h 10
  have h11 := getD_lt_of_isBytes file h 11
  unfold dbfHeaderRecordLength toUnsigned
  rw [readBuffer_of_lt file h 0 32 10 (by decide), readBuffer_of_lt file h 0 32 11 (by decide)]
  simp only [littleEndian16At, Nat.zero_add, Nat.reduceAdd]
  omega

/-- The descriptor table that `SHP::read` builds from an attribute file whose
header declares `n` descriptors. -/
theorem readFields_of_file (file : List Nat) (h : IsBytes file) (n : Nat)
    (hn : littleEndian16At file 8 = 32 + 32 * n ∨ littleEndian16At file 8 = 32 + 32 * n + 1) :
    (readFields (readBuffer file 32 (dbfFieldsLength (readBuffer file 0 32)))
        (dbfFieldsLength (readBuffer file 0 32) / 32) 0 1).length = n ∧
    ∀ i, i < n →
      (readFields (readBuffer file 32 (dbfFieldsLength (readBuffer file 0 32)))
        (dbfFieldsLength (readBuffer file 0 32) / 32) 0 1)[i]? = some
          { name := entryName file i, offset := 1 + lengthsBefore file i,
            length := entryLength file i } := by
  have h8 := getD_lt_of_isBytes file h 8
  have h9 := getD_lt_of_isBytes file h 9
  have hH : littleEndian16At file 8 < 65536 := by
    simp only [littleEndian16At, Nat.reduceAdd]
    omega
  have hfl := dbfFieldsLength_buffer file h (by omega)
  have hcount : dbfFieldsLength (readBuffer file 0 32) / 32 = n := by
    rw [hfl]
    omega
  rw [hcount, readFields_length]
  refine ⟨rfl, fun i hi => ?_⟩
  have hbuf : ∀ a, a < 32 * n →
      readBuffer file 32 (dbfFieldsLength (readBuffer file 0 32)) a = file.getD (32 + a) 0 :=
    fun a ha => readBuffer_of_lt file h 32 _ a (by rw [hfl]; omega)
  have e1 : (List.range 11).map
      (fun m => readBuffer file 32 (dbfFieldsLength (readBuffer file 0 32)) ((0 + i) * 32 + m))
        ++ [0] = entryName file i := by
    unfold entryName
    refine congrArg (fun l => l ++ [0]) (List.map_congr_left fun m hm => ?_)
    have hm := List.mem_range.mp hm
    rw [hbuf _ (by omega)]
    exact congrArg (fun a => file.getD a 0) (by omega)
  have e2 : ((List.range i).map fun m =>
      readBuffer file 32 (dbfFieldsLength (readBuffer file 0 32)) ((0 + m) * 32 + 16)).sum
        = lengthsBefore file i := by
    unfold lengthsBefore
    refine congrArg List.sum (List.map_congr_left fun m hm => ?_)
    have hm := List.mem_range.mp hm
    rw [hbuf _ (by omega)]
    exact congrArg (fun a => file.getD a 0) (by omega)
  have e3 : readBuffer file 32 (dbfFieldsLength (readBuffer file 0 32)) ((0 + i) * 32 + 16)
      = entryLength file i := by
    rw [hbuf _ (by omega)]
    exact congrArg (fun a => file.getD a 0) (by omega)
  rw [readFields_get _ (readBuffer_lt_256 _ _ _) n 0 1 i hi (by omega), e1, e2, e3]

/-- Claim C20 (field descriptor table).  For an attribute file whose header declares a block of `n`
descriptors of 32 bytes (header length `32 + 32 n`, or one more for the
terminator), a read that does not throw builds exactly `n` descriptors;
descriptor `i` has the first 11 bytes of entry `i` followed by NUL as name, byte
16 of entry `i` as length and `1 +` the sum of the lengths of descriptors
`0 .. i − 1` as offset.  So the byte ranges of two descriptors do not overlap,
no range holds byte 0 of the record, and every range ends inside the record when
the record length is at least `1 +` the sum of all lengths. -/
theorem field_descriptor_table (shp : SHP) (shpFile shxFile dbfFile : List Nat) (n : Nat)
    (hbytes : IsBytes dbfFile)
    (hn : littleEndian16At dbfFile 8 = 32 + 32 * n ∨ littleEndian16At dbfFile 8 = 32 + 32 * n + 1)
    (hlen : littleEndian16At dbfFile 8 ≤ dbfFile.length)
    (hok : (SHP.read shp ⟨some shpFile, some shxFile, some dbfFile⟩).error = none) :
    (SHP.read shp ⟨some shpFile, some shxFile, some dbfFile⟩).state.dbfField.length = n ∧
    (∀ i, i < n →
      (SHP.read shp ⟨some shpFile, some shxFile, some dbfFile⟩).state.dbfField[i]? = some
        { name := entryName dbfFile i, offset := 1 + lengthsBefore dbfFile i,
          length := entryLength dbfFile i }) ∧
    (∀ (i j : Nat) (d e : DbfField), i < j →
      (SHP.read shp ⟨some shpFile, some shxFile, some dbfFile⟩).state.dbfField[i]? = some d →
      (SHP.read shp ⟨some shpFile, some shxFile, some dbfFile⟩).state.dbfField[j]? = some e →
      d.offset + d.length ≤ e.offset) ∧
    (∀ (i : Nat) (d : DbfField),
      (SHP.read shp ⟨some shpFile, some shxFile, some dbfFile⟩).state.dbfField[i]? = some d →
      1 ≤ d.offset) ∧
    (SHP.read shp ⟨some shpFile, some shxFile, some dbfFile⟩).state.dbfRecordLength
      = littleEndian16At dbfFile 10 ∧
    (1 + lengthsBefore dbfFile n ≤ littleEndian16At dbfFile 10 →
      ∀ (i : Nat) (d : DbfField),
        (SHP.read shp ⟨some shpFile, some shxFile, some dbfFile⟩).state.dbfField[i]? = some d →
        d.offset + d.length
          ≤ (SHP.read shp ⟨some shpFile, some shxFile, some dbfFile⟩).state.dbfRecordLength) := by
  have _ := hlen
  have hr := read_of_files shp shpFile shxFile dbfFile
  have h1 : ¬ (readBuffer shxFile 0 100 32 ≠ 1 ∧ readBuffer shxFile 0 100 32 ≠ 5) := by
    intro h
    rw [hr.1 h] at hok
    exact Option.noConfusion hok
  have h2 : shxRecordCount (readBuffer shxFile 0 100) = dbfRecordCount (readBuffer dbfFile 0 32) := by
    by_contra h
    rw [hr.2.1 h1 h] at hok
    exact Option.noConfusion hok
  obtain ⟨_, hf, hl⟩ := hr.2.2.1 h1 h2
  have ht := readFields_of_file dbfFile hbytes n hn
  rw [← hf] at ht
  rw [hl, dbfHeaderRecordLength_buffer dbfFile hbytes]
  have hget : ∀ (i : Nat) (d : DbfField),
      (SHP.read shp ⟨some shpFile, some shxFile, some dbfFile⟩).state.dbfField[i]? = some d →
      i < n ∧ d = ⟨entryName dbfFile i, 1 + lengthsBefore dbfFile i, entryLength dbfFile i⟩ := by
    intro i d hd
    have hi : i < n := by
      rw [← ht.1]
      exact (List.getElem?_eq_some_iff.mp hd).1
    rw [ht.2 i hi] at hd
    exact ⟨hi, (Option.some.inj hd).symm⟩
  have hstep : ∀ i, lengthsBefore dbfFile i + entryLength dbfFile i = lengthsBefore dbfFile (i + 1) := by
    intro i
    unfold lengthsBefore
    rw [List.range_succ, List.map_append, List.sum_append]
    simp
  refine ⟨ht.1, ht.2, fun i j d e hij hd he => ?_, fun i d hd => ?_, rfl, fun hrec i d hd => ?_⟩
  · obtain ⟨_, rfl⟩ := hget i d hd
    obtain ⟨_, rfl⟩ := hget j e he
    have := sum_range_mono (entryLength dbfFile) j (i + 1) hij
    have := hstep i
    unfold lengthsBefore at *
    dsimp only
    omega
  · obtain ⟨_, rfl⟩ := hget i d hd
    exact Nat.le_add_right _ _
  · obtain ⟨hi, rfl⟩ := hget i d hd
    have := sum_range_mono (entryLength dbfFile) n (i + 1) hi
    have := hstep i
    unfold lengthsBefore at *
    dsimp only
    omega

/-- Witness of claim C20: the attribute file with the descriptors `ID` (2
bytes) and `TextString` (4 bytes) and header length 97: two descriptors, the
second at offset `1 + 2`. -/
theorem field_descriptor_table_witness :
    IsBytes twoFieldsDbf ∧ littleEndian16At twoFieldsDbf 8 = 32 + 32 * 2 + 1 ∧
    (SHP.read {} twoFieldsTriad).error = none ∧
    (SHP.read {} twoFieldsTriad).state.dbfField.length = 2 ∧
    (SHP.read {} twoFieldsTriad).state.dbfField[1]? = some
      { name := entryName twoFieldsDbf 1, offset := 1 + lengthsBefore twoFieldsDbf 1,
        length := entryLength twoFieldsDbf 1 } ∧
    entryName twoFieldsDbf 1 = ascii "TextString" ++ [0, 0] ∧
    lengthsBefore twoFieldsDbf 1 = 2 ∧ entryLength twoFieldsDbf 1 = 4 :=
  have hok : (SHP.read {} twoFieldsTriad).error = none :=
    ((read_of_files {} _ _ twoFieldsDbf).2.2.1 (by decide) (by decide)).1
  have h := field_descriptor_table {} _ _ twoFieldsDbf 2 (by decide) (Or.inr (by decide))
    (by decide) hok
  ⟨by decide, by decide, hok, h.1, h.2.1 1 (by decide), by decide, by decide, by decide⟩

theorem foldl_addPolygon_rings : ∀ (l : List Nat) (shp : SHP),
    (l.foldl addPolygon shp).polygons.map Polygon.rings
      = shp.polygons.map Polygon.rings
        ++ l.map fun i => readRings shp.shpData (shp.offsets.getD i 0)
  | [], shp => by simp
  | i :: rest, shp => by
    rw [List.foldl_cons, foldl_addPolygon_rings rest (addPolygon shp i)]
    have e1 : (addPolygon shp i).shpData = shp.shpData := rfl
    have e2 : (addPolygon shp i).offsets = shp.offsets := rfl
    have e3 : (addPolygon shp i).polygons.map Polygon.rings
        = shp.polygons.map Polygon.rings ++ [readRings shp.shpData (shp.offsets.getD i 0)] := by
      unfold addPolygon
      simp only [List.map_append, List.map_cons, List.map_nil]
    rw [e1, e2, e3, List.map_cons, List.append_assoc]
    rfl

theorem ringStart_mono (s : Nat → Nat) (r : Nat) (h : ∀ j, j + 1 < r → s j ≤ s (j + 1)) :
    ∀ b a, a ≤ b → b < r → s a ≤ s b
  | 0, a, hab, _ => by
    have : a = 0 := by omega
    rw [this]
  | b + 1, a, hab, hb => by
    by_cases e : a = b + 1
    · rw [e]
    · exact Nat.le_trans (ringStart_mono s r h b a (by omega) (by omega)) (h b hb)

theorem flatten_ranges (s : Nat → Nat) (h0 : s 0 = 0) :
    ∀ m, (∀ j, j < m → s j ≤ s (j + 1)) →
      ((List.range m).map fun j => List.range' (s j) (s (j + 1) - s j)).flatten
        = List.range' 0 (s m)
  | 0, _ => by simp [h0]
  | m + 1, h => by
    rw [List.range_succ, List.map_append, List.flatten_append,
      flatten_ranges s h0 m (fun j hj => h j (by omega))]
    simp only [List.map_cons, List.map_nil, List.flatten_cons, List.flatten_nil, List.append_nil]
    have hm := h m (by omega)
    have e := List.range'_append 0 (s m) (s (m + 1) - s m) 1
    simp only [Nat.zero_add, Nat.one_mul] at e
    rw [e]
    exact congrArg (fun n => List.range' 0 n) (by omega)

theorem readRings_eq (shpData : Memory) (p : Nat)
    (hfit : 44 + 4 * ringCount shpData p + 16 * totalPoints shpData p < 2 ^ 32)
    (hmono : ∀ j, j + 1 < ringCount shpData p → ringStart shpData p j ≤ ringStart shpData p (j + 1))
    (hlast : 0 < ringCount shpData p →
      ringStart shpData p (ringCount shpData p - 1) ≤ totalPoints shpData p) :
    readRings shpData p = (List.range (ringCount shpData p)).map fun j =>
      (List.range' (ringStart shpData p j) (ringEnd shpData p j - ringStart shpData p j)).map
        (recordPoint shpData p) := by
  unfold readRings
  simp only []
  apply List.map_congr_left
  intro j hj
  have hj : j < ringCount shpData p := List.mem_range.mp hj
  have hr : readUnsigned shpData (p + 36) = ringCount shpData p := rfl
  have ht : readUnsigned shpData (p + 40) = totalPoints shpData p := rfl
  rw [hr, ht]
  have hwrap : ringCount shpData p * 4 % 2 ^ 32 = ringCount shpData p * 4 :=
    Nat.mod_eq_of_lt (by omega)
  have hstart : partIndex shpData p (ringCount shpData p) j = ringStart shpData p j := by
    unfold partIndex
    rw [hwrap, if_pos (by omega)]
    rfl
  have hstop : (if j = ringCount shpData p - 1 then totalPoints shpData p
      else partIndex shpData p (ringCount shpData p) (j + 1)) = ringEnd shpData p j := by
    unfold ringEnd
    by_cases e : j + 1 = ringCount shpData p
    · rw [if_pos e, if_pos (by omega)]
    · rw [if_neg e, if_neg (by omega)]
      unfold partIndex
      rw [hwrap, if_pos (by omega)]
      rfl
  have hend : ringEnd shpData p j ≤ totalPoints shpData p := by
    unfold ringEnd
    by_cases e : j + 1 = ringCount shpData p
    · rw [if_pos e]
    · rw [if_neg e]
      exact Nat.le_trans
        (ringStart_mono (ringStart shpData p) (ringCount shpData p) hmono
          (ringCount shpData p - 1) (j + 1) (by omega) (by omega))
        (hlast (by omega))
  unfold readRing
  simp only []
  rw [hstart, hstop, hwrap]
  apply List.map_congr_left
  intro k hk
  have hk := List.mem_range'_1.mp hk
  have hk16 : k * 16 % 2 ^ 32 = k * 16 := Nat.mod_eq_of_lt (by omega)
  have a1 : p + k * 16 + ringCount shpData p * 4 + 52
      = p + 44 + 4 * ringCount shpData p + 16 * k + 8 := by omega
  have a2 : p + k * 16 + ringCount shpData p * 4 + 44
      = p + 44 + 4 * ringCount shpData p + 16 * k := by omega
  rw [hk16, a1, a2]
  rfl

theorem readRings_flatten (shpData : Memory) (p : Nat)
    (hfit : 44 + 4 * ringCount shpData p + 16 * totalPoints shpData p < 2 ^ 32)
    (h0 : 0 < ringCount shpData p → ringStart shpData p 0 = 0)
    (hmono : ∀ j, j + 1 < ringCount shpData p → ringStart shpData p j ≤ ringStart shpData p (j + 1))
    (hlast : 0 < ringCount shpData p →
      ringStart shpData p (ringCount shpData p - 1) ≤ totalPoints shpData p)
    (hr : 0 < ringCount shpData p) :
    (readRings shpData p).flatten
      = (List.range (totalPoints shpData p)).map (recordPoint shpData p) := by
  rw [readRings_eq shpData p hfit hmono hlast]
  have hs : ∀ j, j < ringCount shpData p →
      (if j + 1 < ringCount shpData p then ringStart shpData p (j + 1) else totalPoints shpData p)
        = ringEnd shpData p j := by
    intro j hj
    unfold ringEnd
    by_cases e : j + 1 = ringCount shpData p
    · rw [if_pos e, if_neg (by omega)]
    · rw [if_neg e, if_pos (by omega)]
  have key := flatten_ranges
    (fun j => if j < ringCount shpData p then ringStart shpData p j else totalPoints shpData p)
    (by simp only [if_pos hr]; exact h0 hr) (ringCount shpData p) (by
      intro j hj
      simp only [if_pos hj]
      by_cases e : j + 1 < ringCount shpData p
      · rw [if_pos e]
        exact hmono j e
      · rw [if_neg e]
        have : j = ringCount shpData p - 1 := by omega
        rw [this]
        exact hlast hr)
  simp only [Nat.lt_irrefl, if_false] at key
  rw [List.range_eq_range' (totalPoints shpData p), ← key, List.map_flatten, List.map_map]
  refine congrArg List.flatten (List.map_congr_left fun j hj => ?_)
  have hj : j < ringCount shpData p := List.mem_range.mp hj
  simp only [Function.comp, if_pos hj]
  rw [hs j hj]

/-- Claim C17 (ring extraction partitions the points of a record).  For polygon
record `i` with ring count `r`, total point count `t` and ring-start array `0 =
s[0] ≤ s[1] ≤ … ≤ s[r−1] ≤ t`, the record fitting a buffer of less than `2^32`
bytes, `SHP::addPolygons` appends for the record a polygon of exactly `r` rings;
ring `j` holds the points with indices `s[j] .. s[j+1] − 1` (the last ring up to
`t − 1`) in order, the concatenation of the rings is the whole point sequence of
the record and the ring lengths sum to `t`; with `r = 0` the polygon has no
rings. -/
theorem ring_extraction (shp : SHP) (i : Nat) (hi : i < shp.recordCount)
    (hfit : 44 + 4 * ringCount shp.shpData (shp.offsets.getD i 0)
      + 16 * totalPoints shp.shpData (shp.offsets.getD i 0) < 2 ^ 32)
    (h0 : 0 < ringCount shp.shpData (shp.offsets.getD i 0) →
      ringStart shp.shpData (shp.offsets.getD i 0) 0 = 0)
    (hmono : ∀ j, j + 1 < ringCount shp.shpData (shp.offsets.getD i 0) →
      ringStart shp.shpData (shp.offsets.getD i 0) j
        ≤ ringStart shp.shpData (shp.offsets.getD i 0) (j + 1))
    (hlast : 0 < ringCount shp.shpData (shp.offsets.getD i 0) →
      ringStart shp.shpData (shp.offsets.getD i 0)
          (ringCount shp.shpData (shp.offsets.getD i 0) - 1)
        ≤ totalPoints shp.shpData (shp.offsets.getD i 0)) :
    (addPolygons shp).polygons.length = shp.polygons.length + shp.recordCount ∧
    ∃ q, (addPolygons shp).polygons[shp.polygons.length + i]? = some q ∧
      q.rings.length = ringCount shp.shpData (shp.offsets.getD i 0) ∧
      (∀ j, j < ringCount shp.shpData (shp.offsets.getD i 0) →
        q.rings[j]? = some
          ((List.range' (ringStart shp.shpData (shp.offsets.getD i 0) j)
              (ringEnd shp.shpData (shp.offsets.getD i 0) j
                - ringStart shp.shpData (shp.offsets.getD i 0) j)).map
            (recordPoint shp.shpData (shp.offsets.getD i 0)))) ∧
      (0 < ringCount shp.shpData (shp.offsets.getD i 0) →
        q.rings.flatten = (List.range (totalPoints shp.shpData (shp.offsets.getD i 0))).map
          (recordPoint shp.shpData (shp.offsets.getD i 0))) ∧
      (0 < ringCount shp.shpData (shp.offsets.getD i 0) →
        (q.rings.map List.length).sum = totalPoints shp.shpData (shp.offsets.getD i 0)) ∧
      (ringCount shp.shpData (shp.offsets.getD i 0) = 0 → q.rings = []) := by
  have hall := foldl_addPolygon_rings (List.range shp.recordCount) shp
  have hlen := congrArg List.length hall
  simp only [List.length_map, List.length_append, List.length_range] at hlen
  have hget := congrArg (fun l => l[shp.polygons.length + i]?) hall
  simp only [] at hget
  rw [List.getElem?_append_right (by simp), List.getElem?_map, List.getElem?_map, List.length_map,
    Nat.add_sub_cancel_left, List.getElem?_range hi] at hget
  obtain ⟨q, hq, hrings⟩ := Option.map_eq_some'.mp hget
  have hrings : q.rings = readRings shp.shpData (shp.offsets.getD i 0) := hrings
  refine ⟨hlen, q, hq, ?_⟩
  rw [hrings]
  have heq := readRings_eq shp.shpData (shp.offsets.getD i 0) hfit hmono hlast
  have hflat := readRings_flatten shp.shpData (shp.offsets.getD i 0) hfit h0 hmono hlast
  refine ⟨?_, fun j hj => ?_, hflat, fun hr => ?_, fun hr => ?_⟩
  · rw [heq, List.length_map, List.length_range]
  · rw [heq, List.getElem?_map, List.getElem?_range hj]
    rfl
  · rw [← List.length_flatten, hflat hr, List.length_map, List.length_range]
  · rw [heq, hr]
    rfl

/-- Witness of claim C17: a record with two rings, three points and the ring
starts 0 and 2: the polygon has two rings whose lengths sum to 3. -/
theorem ring_extraction_witness :
    ringCount twoRingsShp.shpData 8 = 2 ∧ totalPoints twoRingsShp.shpData 8 = 3 ∧
    ringStart twoRingsShp.shpData 8 0 = 0 ∧ ringStart twoRingsShp.shpData 8 1 = 2 ∧
    ∃ q, (addPolygons twoRingsShp).polygons[0]? = some q ∧ q.rings.length = 2 ∧
      (q.rings.map List.length).sum = 3 := by
  obtain ⟨q, hq, hlen, _, _, hsum, _⟩ := (ring_extraction twoRingsShp 0 (by decide) (by decide)
    (fun _ => by decide)
    (fun j hj => by
      have h2 : ringCount twoRingsShp.shpData (twoRingsShp.offsets.getD 0 0) = 2 := by decide
      have hj0 : j = 0 := by omega
      subst hj0
      decide)
    (fun _ => by decide)).2
  exact ⟨by decide, by decide, by decide, by decide, q, hq, hlen.trans (by decide),
    (hsum (by decide)).trans (by decide)⟩

end SpeedCameras
